import Mathlib

/-!
Verification development for the forward-bot auto-post pipeline.

The Python sources (publisher.py, caption.py, utils.py, database.py,
admin.py, config.py, main.py) are shallowly embedded below: pure helpers
become Lean functions on `String` / `List Char`, the SQLite store becomes an
explicit `Db` state value, and every external effect (Telegram client,
metadata providers, the guessit parser) is an explicit environment record
threaded through the embedded functions.  Machine integers are `Int`/`Nat`
(no overflow is relevant here), fallible calls are `Option`.
-/

namespace ForwardBot

/-! ## Basic character and string helpers (Python semantics) -/

/-- Python `str.isspace`-style whitespace set used by `\s`, `\S` and
`str.split()` (ASCII part; exotic unicode spaces are out of scope). -/
def pyIsSpace (c : Char) : Bool :=
  c = ' ' || c = '\t' || c = '\n' || c = '\r' || c = '\x0b' || c = '\x0c'

/-- Python regex `\w` word-character test.  ASCII alphanumerics and `_` are
word characters; codepoints ≥ 0x80 are conservatively treated as word
characters (this matches Python for the CJK letters appearing in the
patterns of this code base). -/
def isWordChar (c : Char) : Bool :=
  c.isAlphanum || c = '_' || decide (0x80 ≤ c.toNat)

/-- Lowercase a string character-wise (Python `str.lower` on ASCII). -/
def lowerS (s : String) : String := String.mk (s.toList.map Char.toLower)

/-- Uppercase a string character-wise (Python `str.upper` on ASCII). -/
def upperS (s : String) : String := String.mk (s.toList.map Char.toUpper)

/-- Python `str.capitalize()`: first character uppercased, rest lowercased. -/
def pyCapitalize (s : String) : String :=
  match s.toList with
  | [] => ""
  | c :: t => String.mk (c.toUpper :: t.map Char.toLower)

/-- Python `needle in hay` substring test on char lists. -/
def listInfixB (needle : List Char) : List Char → Bool
  | [] => needle.isEmpty
  | c :: t => needle.isPrefixOf (c :: t) || listInfixB needle t

/-- Python `needle in hay` substring test on strings. -/
def pyContains (needle hay : String) : Bool := listInfixB needle.toList hay.toList

/-- Python slicing `s[:n]`. -/
def pyTake (n : Nat) (s : String) : String := String.mk (s.toList.take n)

/-- Python `str.strip()` (whitespace both ends). -/
def pyStrip (s : String) : String :=
  String.mk (((s.toList.dropWhile pyIsSpace).reverse.dropWhile pyIsSpace).reverse)

/-- Join a list of strings with the separator `sep` (Python `sep.join`). -/
def joinWith (sep : String) (xs : List String) : String :=
  String.mk (List.intercalate sep.toList (xs.map String.toList))

/-- Python truthiness of an optional string combined with `or`:
`(opt or d)` where `None` and `""` are falsy. -/
def pyOrS (o : Option String) (d : String) : String :=
  match o with
  | some s => if s = "" then d else s
  | none => d

/-- Python truthiness of an optional int: `None` and `0` are falsy. -/
def otruthy (o : Option Int) : Bool :=
  match o with
  | some n => n ≠ 0
  | none => false

/-! ## Decimal rendering and parsing (Python `str(int)` / `int(str)`) -/

/-- Digit character for a value `< 10`. -/
def digitChar : Nat → Char
  | 0 => '0' | 1 => '1' | 2 => '2' | 3 => '3' | 4 => '4'
  | 5 => '5' | 6 => '6' | 7 => '7' | 8 => '8' | _ => '9'

/-- Decimal digits of a natural number, most significant first
(fuelled so that it is structurally recursive). -/
def natDigitsF : Nat → Nat → List Char
  | 0, _ => []
  | fuel + 1, n => if n < 10 then [digitChar n] else natDigitsF fuel (n / 10) ++ [digitChar (n % 10)]

def natDigits (n : Nat) : List Char := natDigitsF (n + 1) n

/-- Python `str(i)` for an integer. -/
def intStr (i : Int) : String :=
  if i < 0 then String.mk ('-' :: natDigits (-i).toNat) else String.mk (natDigits i.toNat)

/-- Numeric value of a decimal digit character. -/
def digitVal? (c : Char) : Option Nat :=
  if '0' ≤ c ∧ c ≤ '9' then some (c.toNat - 48) else none

/-- Parse an all-digits char list to a natural number. -/
def parseNatL (l : List Char) : Option Nat :=
  if l.isEmpty then none
  else l.foldl (fun acc c =>
    match acc, digitVal? c with
    | some a, some d => some (10 * a + d)
    | _, _ => none) (some 0)

/-- Python `int(s)` (digits with an optional leading minus sign; the
whitespace/underscore liberality of CPython is out of scope — every value
this program stores is produced by `str(int)`). -/
def parseIntS (s : String) : Option Int :=
  match s.toList with
  | [] => none
  | c :: rest =>
    if c = '-' then (parseNatL rest).map (fun n => -(n : Int))
    else (parseNatL (c :: rest)).map (fun n => (n : Int))

/-! ## A small regex core

Just enough to embed the patterns of `utils._NOISE` and `caption._KW`:
sequences of single-character tokens (required, optional `?`, starred `*`),
alternation with Python's leftmost-alternative backtracking, `\b` word
boundaries, and `re.sub`'s left-to-right non-overlapping scan. -/

/-- One element of a pattern alternative. -/
inductive Tok where
  /-- exactly one character satisfying the predicate -/
  | one (p : Char → Bool)
  /-- an optional character (`x?`), tried greedily first -/
  | optc (p : Char → Bool)
  /-- zero or more characters (`x*`), greedy with backtracking -/
  | star (p : Char → Bool)

/-- All ways to munch a (possibly empty) run of `p`-characters off the front,
shortest first: pairs of (count, remainder). -/
def munches (p : Char → Bool) : List Char → List (Nat × List Char)
  | [] => [(0, [])]
  | c :: cs =>
    (0, c :: cs) :: (if p c then (munches p cs).map (fun nr => (nr.1 + 1, nr.2)) else [])

/-- Match a token sequence against the front of `l`; `k` inspects the
remainder (e.g. a trailing `\b` check) and contributes 0 to the length.
Returns the number of characters consumed.  Greedy with backtracking,
faithful to Python `re` semantics for these simple token shapes. -/
def mTok : List Tok → List Char → (List Char → Option Nat) → Option Nat
  | [], l, k => k l
  | .one p :: ts, l, k =>
    match l with
    | [] => none
    | c :: cs => if p c then (mTok ts cs k).map (· + 1) else none
  | .optc p :: ts, l, k =>
    match l with
    | [] => mTok ts [] k
    | c :: cs =>
      if p c then
        match mTok ts cs k with
        | some n => some (n + 1)
        | none => mTok ts l k
      else mTok ts l k
  | .star p :: ts, l, k =>
    ((munches p l).reverse).findSome? (fun nr => (mTok ts nr.2 k).map (· + nr.1))

/-- First alternative that matches, in pattern order (Python alternation). -/
def mAlts (alts : List (List Tok)) (l : List Char) (k : List Char → Option Nat) : Option Nat :=
  alts.findSome? (fun alt => mTok alt l k)

/-- Is the previous character a word character (`none` = string start)? -/
def prevIsWord : Option Char → Bool
  | none => false
  | some c => isWordChar c

/-- Trailing `\b` continuation for alternatives that end in a word character:
succeeds (consuming nothing) iff the remainder starts with a non-word
character or is empty. -/
def boundaryK : List Char → Option Nat
  | [] => some 0
  | c :: _ => if isWordChar c then none else some 0

/-- Matcher for a `\b(alt1|alt2|…)\b` pattern whose alternatives begin and
end with word characters: the leading `\b` is the `prevIsWord` test, the
trailing `\b` is `boundaryK`. -/
def mWord (alts : List (List Tok)) (prev : Option Char) (l : List Char) : Option Nat :=
  if prevIsWord prev then none else mAlts alts l boundaryK

/-- A case-insensitive literal character token (`re.I`). -/
def lc (c : Char) : Tok := .one (fun x => x.toLower = c)

/-- A case-insensitive literal word as a token sequence. -/
def seqLit (s : String) : List Tok := s.toList.map lc

/-- `re.sub(pattern, " ", s)`: scan left to right; at each position either
the matcher fires (replace the matched chars by one space and resume after
the match, remembering the original previous character for later `\b`
tests) or the character is kept.  Fuelled to stay structurally recursive;
`fuel ≥ l.length` makes it total. -/
def substF (m : Option Char → List Char → Option Nat) :
    Nat → Option Char → List Char → List Char
  | 0, _, l => l
  | fuel + 1, prev, l =>
    match l with
    | [] => []
    | c :: cs =>
      match m prev (c :: cs) with
      | some (n + 1) =>
        ' ' :: substF m fuel (some ((c :: cs).getD n c)) (List.drop (n + 1) (c :: cs))
      | _ => c :: substF m fuel (some c) cs

/-- Run one `re.sub(pattern, " ", ·)` pass over a char list. -/
def runSub (m : Option Char → List Char → Option Nat) (l : List Char) : List Char :=
  substF m l.length none l

/-- `pattern.search(s)` as used by the content-type classifier: does the
word pattern fire at any position? -/
def searchWord (alts : List (List Tok)) : Option Char → List Char → Bool
  | _, [] => false
  | prev, c :: cs => (mWord alts prev (c :: cs)).isSome || searchWord alts (some c) cs

/-! ## Metadata records and the provider cascade (utils.py) -/

/-- A metadata dictionary as passed to the caption builder.  The providers
and `_DEFAULT` always populate every field (`some`), but publisher error
paths pass the empty dict `{}` (all `none`), so fields are optional with
Python `dict.get` semantics. -/
structure Meta where
  title : Option String := none
  year : Option String := none
  rating : Option String := none
  genres : Option String := none
  overview : Option String := none
  director : Option String := none
  cast : Option String := none
  runtime : Option String := none
  language : Option String := none
  country : Option String := none
  source : Option String := none
deriving DecidableEq

/-- The empty dict `{}`. -/
def emptyMeta : Meta := {}

/-- `utils._DEFAULT`: the sentinel record returned when every provider
fails. -/
def defaultMeta : Meta :=
  { title := some "Unknown", year := some "N/A", rating := some "N/A",
    genres := some "N/A", overview := some "No synopsis available.",
    director := some "N/A", cast := some "N/A", runtime := some "N/A",
    language := some "N/A", country := some "N/A", source := some "None" }

/-- The six provider endpoints of `utils.py` (TMDB appears twice because it
is called with media_type "tv" or "movie"). -/
inductive Provider where
  | tvmaze | jikan | kitsu | anilist | tmdbTv | tmdbMovie | omdb
deriving DecidableEq

/-- Network environment for the cascade: what each provider endpoint would
return for a given (title, year) query; `none` covers every failure mode
(timeout, non-200, empty result, parse error) since the provider helpers
in utils.py flatten all of these to `None`. -/
def ProvEnv := Provider → String → Option Int → Option Meta

/-- One provider call as issued by the cascade loops.  Mirrors the key
gating inside `_tmdb` / `_omdb`: with an empty API key these functions
return `None` without touching the network. -/
def gatedCall (env : ProvEnv) (tmdbKey omdbKey : String) (title : String)
    (year : Option Int) : Provider → Option Meta
  | .tmdbTv => if tmdbKey = "" then none else env .tmdbTv title year
  | .tmdbMovie => if tmdbKey = "" then none else env .tmdbMovie title year
  | .omdb => if omdbKey = "" then none else env .omdb title year
  | p => env p title year

/-- The shared loop body of `fetch_smart_metadata`: try providers in order,
return the first truthy result together with the list of providers that
were actually invoked. -/
def tryProviders (env : ProvEnv) (tmdbKey omdbKey : String) (title : String)
    (year : Option Int) : List Provider → Option Meta × List Provider
  | [] => (none, [])
  | p :: ps =>
    match gatedCall env tmdbKey omdbKey title year p with
    | some r => (some r, [p])
    | none =>
      let rest := tryProviders env tmdbKey omdbKey title year ps
      (rest.1, p :: rest.2)

/-- Provider order for `content_type == "anime"`. -/
def animeOrder : List Provider := [.jikan, .anilist, .kitsu, .tmdbTv, .tvmaze]

/-- Provider order for the TV bucket. -/
def tvOrder : List Provider := [.tvmaze, .tmdbTv, .omdb]

/-- Provider order for the default (movie) bucket. -/
def movieOrder : List Provider := [.tvmaze, .tmdbMovie, .omdb]

/-- `utils.fetch_smart_metadata`: cascade through the providers for the
category, returning the first successful record, or the `_DEFAULT` record
with the title substituted (`title or "Unknown"`).  Also returns the
providers that were invoked, in call order. -/
def fetchSmartMetadata (env : ProvEnv) (title : String) (year : Option Int)
    (contentType : String) (tmdbKey omdbKey : String) : Meta × List Provider :=
  let isAnime := contentType = "anime"
  let isTv := contentType ∈ ["kdrama", "cdrama", "jdrama", "series", "episode"]
  let order := if isAnime then animeOrder else if isTv then tvOrder else movieOrder
  match tryProviders env tmdbKey omdbKey title year order with
  | (some r, calls) => (r, calls)
  | (none, calls) =>
    ({ defaultMeta with title := some (if title = "" then "Unknown" else title) }, calls)

/-! ## The guessit parse result (consumed as a black box) -/

/-- The fields of a `guessit` parse that this program reads.  `guessit`
itself is an external library; its output is threaded in as part of the
environment. -/
structure Guess where
  title : Option String := none
  year : Option Int := none
  season : Option Int := none
  episode : Option Int := none
  screenSize : Option String := none
  language : List String := []
  audioLanguage : List String := []
  gtype : Option String := none
deriving DecidableEq

/-! ## Content-type detection (caption.py `_KW` / `detect_content_type`) -/

/-- The `[\s_-]` separator class. -/
def sepCls (c : Char) : Bool := pyIsSpace c || c = '_' || c = '-'

/-- `caption._KW`, in dict insertion order (which is the iteration order of
`detect_content_type`); each entry is the alternative list of the compiled
`\b(...)\b` pattern. -/
def kwGroups : List (String × List (List Tok)) :=
  [ ("anime",
      [seqLit "anime", seqLit "アニメ", seqLit "ova", seqLit "ona", seqLit "oav"]),
    ("kdrama",
      [seqLit "kdrama", seqLit "k-drama",
       seqLit "korean" ++ [.star sepCls] ++ seqLit "drama"]),
    ("cdrama",
      [seqLit "cdrama", seqLit "c-drama",
       seqLit "chinese" ++ [.star sepCls] ++ seqLit "drama",
       seqLit "华剧", seqLit "陆剧"]),
    ("jdrama",
      [seqLit "jdrama", seqLit "j-drama",
       seqLit "japanese" ++ [.star sepCls] ++ seqLit "drama",
       seqLit "ドラマ"]),
    ("kmovie",
      [seqLit "korean" ++ [.star sepCls] ++ seqLit "movie",
       [lc 'k', .optc (fun c => c = '-')] ++ seqLit "movie"]),
    ("jmovie",
      [seqLit "japanese" ++ [.star sepCls] ++ seqLit "movie",
       [lc 'j', .optc (fun c => c = '-')] ++ seqLit "movie"]),
    ("indian",
      [seqLit "bollywood", seqLit "tollywood", seqLit "kollywood",
       seqLit "mollywood", seqLit "hindi", seqLit "tamil", seqLit "telugu",
       seqLit "malayalam", seqLit "kannada", seqLit "bengali",
       seqLit "marathi", seqLit "punjabi"]) ]

/-- `caption.detect_content_type`. -/
def detectContentType (filename : String) (g : Guess) : String :=
  let name := filename.toList.map Char.toLower
  match kwGroups.find? (fun grp => searchWord grp.2 none name) with
  | some grp => grp.1
  | none =>
    if lowerS (g.gtype.getD "movie") = "episode" then "series" else "movie"

/-! ## Caption helpers (utils.py) -/

/-- `utils._LANG_MAP` in insertion order. -/
def langMap : List (String × String) :=
  [ ("en", "🇬🇧 English"), ("english", "🇬🇧 English"),
    ("hi", "🇮🇳 Hindi"), ("hindi", "🇮🇳 Hindi"),
    ("ta", "🇮🇳 Tamil"), ("tamil", "🇮🇳 Tamil"),
    ("te", "🇮🇳 Telugu"), ("telugu", "🇮🇳 Telugu"),
    ("ml", "🇮🇳 Malayalam"), ("malayalam", "🇮🇳 Malayalam"),
    ("kn", "🇮🇳 Kannada"), ("kannada", "🇮🇳 Kannada"),
    ("ko", "🇰🇷 Korean"), ("korean", "🇰🇷 Korean"),
    ("ja", "🇯🇵 Japanese"), ("japanese", "🇯🇵 Japanese"),
    ("zh", "🇨🇳 Chinese"), ("chinese", "🇨🇳 Chinese"),
    ("fr", "🇫🇷 French"), ("french", "🇫🇷 French"),
    ("es", "🇪🇸 Spanish"), ("spanish", "🇪🇸 Spanish"),
    ("de", "🇩🇪 German"), ("german", "🇩🇪 German"),
    ("ar", "🇸🇦 Arabic"), ("arabic", "🇸🇦 Arabic"),
    ("pt", "🇧🇷 Portuguese"), ("portuguese", "🇧🇷 Portuguese"),
    ("ru", "🇷🇺 Russian"), ("russian", "🇷🇺 Russian"),
    ("it", "🇮🇹 Italian"), ("italian", "🇮🇹 Italian"),
    ("tr", "🇹🇷 Turkish"), ("turkish", "🇹🇷 Turkish"),
    ("th", "🇹🇭 Thai"), ("thai", "🇹🇭 Thai") ]

/-- `utils.detect_languages`. -/
def detectLanguages (g : Guess) : String :=
  let raw := g.language ++ g.audioLanguage
  let seen := raw.foldl (fun acc item =>
    let token := pyStrip (lowerS item)
    let label := ((langMap.find? (fun kv => kv.1 = token)).map (·.2)).getD (pyCapitalize item)
    if label ∈ acc then acc else acc ++ [label]) []
  if seen.isEmpty then "🇬🇧 English" else joinWith ", " seen

/-- `utils._SIZE_MAP` in insertion order. -/
def sizeMap : List (String × String) :=
  [ ("4320p", "7680×4320 (8K)"), ("2160p", "3840×2160 (4K UHD)"),
    ("1440p", "2560×1440 (2K)"), ("1080p", "1920×1080 (Full HD)"),
    ("720p", "1280×720 (HD)"), ("576p", "720×576 (SD)"),
    ("480p", "720×480 (SD)"), ("360p", "480×360 (Low)") ]

/-- `utils.resolution_from_guess`. -/
def resolutionFromGuess (g : Guess) : String :=
  let raw := lowerS (g.screenSize.getD "")
  match sizeMap.find? (fun tl => pyContains tl.1 raw) with
  | some tl => tl.2
  | none => if raw = "" then "N/A" else upperS raw

/-- Numeric rendering used by `utils.format_size`; stands in for Python's
`f"{x:.2f}"` (the exact decimal text is irrelevant to every claim here). -/
def fmt2f (x : Float) : String := toString x

/-- The unit loop of `utils.format_size`. -/
def formatSizeLoop (x : Float) : List String → String
  | [] => fmt2f x ++ " PB"
  | u :: us => if x.abs < 1024.0 then fmt2f x ++ " " ++ u else formatSizeLoop (x / 1024.0) us

/-- `utils.format_size` (`if not size_bytes` treats `None` and `0` alike). -/
def formatSize : Option Int → String
  | none => "N/A"
  | some n =>
    if n = 0 then "N/A" else formatSizeLoop (Float.ofInt n) ["B", "KB", "MB", "GB", "TB"]

/-! ## Caption builder (caption.py `build_caption`) -/

/-- `caption.HEADER_MAP` in insertion order. -/
def headerMap : List (String × String × String × String) :=
  [ ("kdrama", ("🎭 <b>𝗞-𝗗𝗥𝗔𝗠𝗔 𝗘𝗗𝗜𝗧𝗜𝗢𝗡</b> 🎭", "🍿", "🇰🇷")),
    ("cdrama", ("🏮 <b>𝗖-𝗗𝗥𝗔𝗠𝗔 𝗘𝗗𝗜𝗧𝗜𝗢𝗡</b> 🏮", "🍿", "🇨🇳")),
    ("jdrama", ("🎌 <b>𝗝-𝗗𝗥𝗔𝗠𝗔 𝗘𝗗𝗜𝗧𝗜𝗢𝗡</b> 🎌", "🍿", "🇯🇵")),
    ("indian", ("🪷 <b>𝗜𝗡𝗗𝗜𝗔𝗡 𝗖𝗜𝗡𝗘𝗠𝗔</b> 🪷", "🎥", "🇮🇳")),
    ("kmovie", ("🎬 <b>𝗞𝗢𝗥𝗘𝗔𝗡 𝗠𝗢𝗩𝗜𝗘</b> 🎬", "🎥", "🇰🇷")),
    ("jmovie", ("👹 <b>𝗝𝗔𝗣𝗔𝗡𝗘𝗦𝗘 𝗠𝗢𝗩𝗜𝗘</b> 👹", "🎥", "🇯🇵")),
    ("anime", ("✨ <b>𝗔𝗡𝗜𝗠𝗘 𝗘𝗗𝗜𝗧𝗜𝗢𝗡</b> ✨", "⛩️", "🎌")),
    ("series", ("📺 <b>𝗦𝗘𝗥𝗜𝗘𝗦 𝗘𝗗𝗜𝗧𝗜𝗢𝗡</b> 📺", "🍿", "⭐")),
    ("movie", ("🎬 <b>𝗠𝗢𝗩𝗜𝗘 𝗘𝗗𝗜𝗧𝗜𝗢𝗡</b> 🎬", "🎥", "⭐")) ]

/-- Python `f"{n:02d}"` at width 2. -/
def pad2 (n : Int) : String :=
  if 0 ≤ n ∧ n ≤ 9 then "0" ++ intStr n else intStr n

/-- The episode string of `build_caption` (`if season and episode: …`,
Python truthiness: `None` and `0` are falsy). -/
def epStr (g : Guess) : String :=
  if otruthy g.season && otruthy g.episode then
    "S" ++ pad2 (g.season.getD 0) ++ "E" ++ pad2 (g.episode.getD 0)
  else if otruthy g.episode then
    "EP " ++ pad2 (g.episode.getD 0)
  else ""

/-- The line list assembled by `caption.build_caption` (before joining). -/
def buildCaptionLines (contentType : String) (meta : Meta) (g : Guess)
    (fileSize : Option Int) (channelUsername channelLink customTag : String)
    (extraTags : List String) : List String :=
  let hData := ((headerMap.find? (fun kv => kv.1 = contentType)).map (·.2)).getD
    ("🎬 <b>𝗠𝗢𝗩𝗜𝗘 𝗘𝗗𝗜𝗧𝗜𝗢𝗡</b> 🎬", "🎥", "⭐")
  let header := hData.1
  let mediaEmoji := hData.2.1
  let flagEmoji := hData.2.2
  let title := pyOrS meta.title (pyOrS g.title "Unknown")
  let year := pyOrS meta.year (if otruthy g.year then intStr (g.year.getD 0) else "N/A")
  let rating := meta.rating.getD "N/A"
  let genres := meta.genres.getD "N/A"
  let rawOv := pyOrS meta.overview "No synopsis available."
  let overview := pyTake 320 rawOv ++ (if 320 < rawOv.length then "…" else "")
  let director := meta.director.getD "N/A"
  let cast := meta.cast.getD "N/A"
  let runtime := meta.runtime.getD "N/A"
  let country := meta.country.getD "N/A"
  let quality := resolutionFromGuess g
  let langs := detectLanguages g
  let sizeStr := formatSize fileSize
  let src := meta.source.getD "N/A"
  let ep := epStr g
  [header, "", "<blockquote>",
   "<b>" ++ mediaEmoji ++ "  " ++ title ++ "</b>  " ++ flagEmoji, ""]
  ++ (if ep ≠ "" then ["├ 🎞  <b>Episode  :</b>  <code>" ++ ep ++ "</code>"] else [])
  ++ ["├ 📅  <b>Year     :</b>  <code>" ++ year ++ "</code>",
      "├ ⭐  <b>Rating   :</b>  <code>" ++ rating ++ " / 10</code>",
      "├ 🎭  <b>Genre    :</b>  <code>" ++ genres ++ "</code>",
      "├ 🌍  <b>Country  :</b>  <code>" ++ country ++ "</code>",
      "├ 🗣  <b>Language :</b>  <code>" ++ langs ++ "</code>",
      "├ 📽  <b>Quality  :</b>  <code>" ++ quality ++ "</code>",
      "├ 💾  <b>Size     :</b>  <code>" ++ sizeStr ++ "</code>",
      "├ ⏱  <b>Runtime  :</b>  <code>" ++ runtime ++ "</code>"]
  ++ (if director ≠ "" ∧ director ≠ "N/A" then
        ["├ 🎬  <b>Director :</b>  <code>" ++ director ++ "</code>"] else [])
  ++ (if cast ≠ "" ∧ cast ≠ "N/A" then
        ["├ 🌟  <b>Cast     :</b>  <code>" ++ cast ++ "</code>"] else [])
  ++ ["╰ 🗂  <b>Source   :</b>  <code>" ++ src ++ "</code>", "",
      "📖  <b>Synopsis:</b>", "<i>" ++ overview ++ "</i>", "</blockquote>", "",
      "━━━━━━━━━━━━━━━━━━━━━━━━"]
  ++ (if customTag ≠ "" then ["<b>" ++ customTag ++ "</b>"] else [])
  ++ extraTags.map (fun t => "<b>" ++ t ++ "</b>")
  ++ ["<b>" ++ channelUsername ++ "</b>",
      "🔔  <a href=\"" ++ channelLink ++ "\">Join for more!</a>"]

/-- `caption.build_caption`. -/
def buildCaption (contentType : String) (meta : Meta) (g : Guess)
    (fileSize : Option Int) (channelUsername channelLink customTag : String)
    (extraTags : List String) : String :=
  joinWith "\n" (buildCaptionLines contentType meta g fileSize
    channelUsername channelLink customTag extraTags)

/-! ## Filename normalization (utils.py `pre_clean_filename`) -/

/-- The `[\.\-_]` separator class of the final `re.sub`. -/
def sepChar (c : Char) : Bool := c = '.' || c = '-' || c = '_'

/-- Split a char list at every separator character, keeping empty chunks
(like Python `str.split(sep)`). -/
def splitBy (p : Char → Bool) (l : List Char) : List (List Char) :=
  l.foldr (fun c acc =>
    if p c then [] :: acc else (c :: acc.headD []) :: acc.tail) [[]]

/-- The last path component as `pathlib` computes `Path(s).name`: split on
`/`, drop empty and `"."` components, take the last (kept: `".."`). -/
def lastComponentL (l : List Char) : List Char :=
  (((splitBy (fun c => c = '/') l).filter
    (fun comp => !(comp.isEmpty || comp = ['.'])))).getLastD []

/-- Index of the last occurrence of `c`. -/
def lastIdxOf (c : Char) (l : List Char) : Option Nat :=
  (l.reverse.findIdx? (fun x => x = c)).map (fun k => l.length - 1 - k)

/-- `pathlib.PurePath(s).stem`: strip the suffix of the last component; a
suffix exists iff the last dot is neither the first nor the last character
of the name. -/
def pathStemL (l : List Char) : List Char :=
  let name := lastComponentL l
  match lastIdxOf '.' name with
  | some i => if 0 < i ∧ i + 1 < name.length then name.take i else name
  | none => name

/-- `Path(filename).stem` on strings. -/
def pathStemS (s : String) : String := String.mk (pathStemL s.toList)

/-- Matcher for `www\.\S+` (case-insensitive, no word boundaries). -/
def mWww : Option Char → List Char → Option Nat := fun _ l =>
  mTok (seqLit "www" ++
    [.one (fun c => c = '.'), .one (fun c => !pyIsSpace c), .star (fun c => !pyIsSpace c)])
    l (fun _ => some 0)

/-- Distance to the first closing delimiter, failing at a newline first
(`.` in a pattern does not match `\n`, so `\[.*?\]` can only reach a `]`
with no newline in between; non-greedy `.*?` stops at the first one). -/
def closeIdx (cl : Char) : List Char → Option Nat
  | [] => none
  | c :: cs =>
    if c = cl then some 0
    else if c = '\n' then none
    else (closeIdx cl cs).map (· + 1)

/-- Matcher for `\[.*?\]` / `\{.*?\}`. -/
def mDelim (o cl : Char) : Option Char → List Char → Option Nat := fun _ l =>
  match l with
  | [] => none
  | c :: cs => if c = o then (closeIdx cl cs).map (fun i => i + 2) else none

/-- The opening and closing curly brace characters. -/
def obrace : Char := Char.ofNat 123
def cbrace : Char := Char.ofNat 125

/-- Alternatives of `\b(mkv|mp4|avi|mov|flv|wmv|webm|m4v)\b`. -/
def extAlts : List (List Tok) :=
  [seqLit "mkv", seqLit "mp4", seqLit "avi", seqLit "mov",
   seqLit "flv", seqLit "wmv", seqLit "webm", seqLit "m4v"]

/-- Alternatives of the release-source pattern
`\b(HDTV|WEB-?DL|WEB-?RIP|BluRay|BRRip|DVDRip|HDRip|AMZN|NF|DSNP|HULU|HBO|PCOK|ATVP|DSNP|STAN|iT)\b`
(the duplicated `DSNP` of the source is kept). -/
def srcAlts : List (List Tok) :=
  [seqLit "hdtv",
   seqLit "web" ++ [.optc (fun c => c = '-')] ++ seqLit "dl",
   seqLit "web" ++ [.optc (fun c => c = '-')] ++ seqLit "rip",
   seqLit "bluray", seqLit "brrip", seqLit "dvdrip", seqLit "hdrip",
   seqLit "amzn", seqLit "nf", seqLit "dsnp", seqLit "hulu", seqLit "hbo",
   seqLit "pcok", seqLit "atvp", seqLit "dsnp", seqLit "stan", seqLit "it"]

/-- Alternative of `\bDD\+?\d\.\d\b`. -/
def ddAlts : List (List Tok) :=
  [[lc 'd', lc 'd', .optc (fun c => c = '+'),
    .one Char.isDigit, .one (fun c => c = '.'), .one Char.isDigit]]

/-- Alternatives of `\b(x264|x265|HEVC|H\.?264|H\.?265|AVC|AAC|DDP?5\.1)\b`. -/
def codecAlts : List (List Tok) :=
  [seqLit "x264", seqLit "x265", seqLit "hevc",
   [lc 'h', .optc (fun c => c = '.')] ++ seqLit "264",
   [lc 'h', .optc (fun c => c = '.')] ++ seqLit "265",
   seqLit "avc", seqLit "aac",
   [lc 'd', lc 'd', .optc (fun c => c.toLower = 'p'), lc '5',
    .one (fun c => c = '.'), lc '1']]

/-- Alternatives of `\b(10bit|HDR|SDR|DoVi|Atmos|DTS)\b`. -/
def hdrAlts : List (List Tok) :=
  [seqLit "10bit", seqLit "hdr", seqLit "sdr", seqLit "dovi",
   seqLit "atmos", seqLit "dts"]

/-- Length of the leading run of `p`-characters. -/
def countLeading (p : Char → Bool) : List Char → Nat
  | [] => 0
  | c :: cs => if p c then countLeading p cs + 1 else 0

/-- Matcher for `[\-_\.]{2,}` (greedy). -/
def mSepRun : Option Char → List Char → Option Nat := fun _ l =>
  let k := countLeading sepChar l
  if 2 ≤ k then some k else none

/-- The `utils._NOISE` pattern list, in order. -/
def noiseMatchers : List (Option Char → List Char → Option Nat) :=
  [mWww, mDelim '[' ']', mDelim obrace cbrace,
   mWord extAlts, mWord srcAlts, mWord ddAlts, mWord codecAlts, mWord hdrAlts,
   mSepRun]

/-- Apply the nine noise substitutions in order. -/
def noiseSub (l : List Char) : List Char :=
  noiseMatchers.foldl (fun s m => runSub m s) l

/-- `re.sub(r"[\.\-_]", " ", ·)`. -/
def charSepSub (l : List Char) : List Char :=
  l.map (fun c => if sepChar c then ' ' else c)

/-- Python `s.split()`: maximal runs of non-whitespace. -/
def pyWords (l : List Char) : List (List Char) :=
  (splitBy pyIsSpace l).filter (fun w => !w.isEmpty)

/-- `" ".join(ws)`: single spaces between chunks, none at the ends. -/
def joinSp : List (List Char) → List Char
  | [] => []
  | [w] => w
  | w :: ws => w ++ ' ' :: joinSp ws

/-- `" ".join(s.split())`. -/
def splitJoinL (l : List Char) : List Char := joinSp (pyWords l)

/-- `utils.pre_clean_filename` on char lists. -/
def preCleanL (l : List Char) : List Char :=
  splitJoinL (charSepSub (noiseSub (pathStemL l)))

/-- `utils.pre_clean_filename`. -/
def preClean (s : String) : String := String.mk (preCleanL s.toList)

/-! ## Message / media model (telegram objects read by the code) -/

/-- A chat identifier: `int(raw)` when the raw setting parses, otherwise the
raw username string (the `try/except ValueError` in the scheduler job). -/
inductive ChatRef where
  | cid (n : Int)
  | cname (s : String)
deriving DecidableEq

/-- The fields of a media attachment the publisher reads. -/
structure MediaObj where
  fileId : String
  fileName : Option String := none
  fileUniqueId : String := ""
  fileSize : Option Int := none
deriving DecidableEq

/-- The fields of a telegram `Message` this program reads. -/
structure Msg where
  chatId : Int
  msgId : Int
  video : Option MediaObj := none
  document : Option MediaObj := none
  audio : Option MediaObj := none
  animation : Option MediaObj := none
  caption : Option String := none
  text : Option String := none
deriving DecidableEq

/-- `publisher._extract_media`: (file_id, filename, file_size, media_kind),
or `None` when no supported media is attached.  The filename falls back to
a synthesized one when absent or empty (Python `or`). -/
def extractMedia (m : Msg) : Option (String × String × Option Int × String) :=
  match m.video with
  | some v => some (v.fileId, pyOrS v.fileName ("video_" ++ v.fileUniqueId ++ ".mp4"),
      v.fileSize, "video")
  | none =>
    match m.document with
    | some d => some (d.fileId, pyOrS d.fileName ("doc_" ++ d.fileUniqueId),
        d.fileSize, "document")
    | none =>
      match m.audio with
      | some a => some (a.fileId, pyOrS a.fileName ("audio_" ++ a.fileUniqueId ++ ".mp3"),
          a.fileSize, "audio")
      | none =>
        match m.animation with
        | some an => some (an.fileId, pyOrS an.fileName ("anim_" ++ an.fileUniqueId ++ ".gif"),
            an.fileSize, "animation")
        | none => none

/-! ## Database model (database.py) -/

/-- A `post_log` row (as far as the code reads it back). -/
structure LogEntry where
  srcChat : ChatRef
  srcMsg : Int
  tgtChat : ChatRef
  tgtMsg : Option Int
  filename : String
deriving DecidableEq

/-- The persistent store: the `settings` table as an association list, the
append-only `post_log`, and the `filters` keyword table. -/
structure Db where
  settings : List (String × String) := []
  postLog : List LogEntry := []
  filters : List String := []
deriving DecidableEq

/-- `Database.get` (string-valued settings lookup). -/
def Db.get (db : Db) (k : String) : Option String :=
  (db.settings.find? (fun kv => kv.1 = k)).map (·.2)

/-- `Database.get` with an explicit default (Python's `db.get(key, default)`
for string defaults). -/
def Db.getD (db : Db) (k : String) (d : String) : String := (db.get k).getD d

/-- `Database.set` (INSERT OR REPLACE; values are stored through `str`).
Since `Db.get` returns the first binding, prepending is observationally the
same as replacing the keyed row. -/
def Db.set (db : Db) (k v : String) : Db :=
  { db with settings := (k, v) :: db.settings }

/-- `Database.get_int`: `int(v)` with the stored string, or the default when
the key is absent or unparsable. -/
def Db.getInt (db : Db) (k : String) (d : Int) : Int :=
  match db.get k with
  | none => d
  | some v => (parseIntS v).getD d

/-- `Database.get_bool`: absent means default, otherwise
`v.lower() in ("1","true","yes")`. -/
def Db.getBool (db : Db) (k : String) (d : Bool) : Bool :=
  match db.get k with
  | none => d
  | some v => lowerS v = "1" || lowerS v = "true" || lowerS v = "yes"

/-- `Database.log_post`: append one `post_log` row. -/
def Db.logPost (db : Db) (src : ChatRef) (srcMsg : Int) (tgt : ChatRef)
    (tgtMsg : Option Int) (filename : String) : Db :=
  { db with postLog := db.postLog ++
      [{ srcChat := src, srcMsg := srcMsg, tgtChat := tgt,
         tgtMsg := tgtMsg, filename := filename }] }

/-- `Database.was_posted`: any row matching (source_chat_id, source_msg_id). -/
def Db.wasPosted (db : Db) (src : ChatRef) (srcMsg : Int) : Bool :=
  db.postLog.any (fun e => e.srcChat = src && e.srcMsg = srcMsg)

/-- `Database.total_posted`. -/
def Db.totalPosted (db : Db) : Nat := db.postLog.length

/-- Modelled from the spec: `Database.get_filters`, the "keyword-filter set
… list" operation of spec §6.  admin.py calls `db.get_filters()` (and
`add_filter`/`remove_filter`), but database.py as shipped does not define
them; per the spec the operation returns the stored keyword set, which the
`filters` field of `Db` holds. -/
def Db.getFilters (db : Db) : List String := db.filters

/-! ## Publisher (publisher.py) -/

/-- The keyword configuration the publisher entry points receive. -/
structure PubCfg where
  tmdbKey : String := ""
  omdbKey : String := ""
  apiTimeout : Int := 10
  channelUsername : String := "@YourChannel"
  channelLink : String := "https://t.me/YourChannel"
  customTag : String := ""
  extraTags : List String := []

/-- Environment for one publish attempt: the guessit parser (with its
`try/except` already folded in — the empty guess is a possible output), the
provider network, and the outcome of each telegram client call (`none`
models a `TelegramError`). -/
structure PubEnv where
  parse : String → Guess
  prov : ProvEnv
  forwardToTarget : Option Msg := none
  forwardToSelf : Option Msg := none
  copyFallback : Option Int := none
  copyMain : Option Int := none
  sendPrimary : Option Int := none
  copyAfterSendFail : Option Int := none
  editOk : Bool := true
  deleteOk : Bool := true

/-- Outbound telegram calls that reached the target channel. -/
inductive SendEv where
  /-- the transient forward of `publish_message` step 1 (deleted again) -/
  | forwardTmp
  /-- `copy_message` without a caption argument -/
  | copyPlain (mid : Int)
  /-- `copy_message` with a caption -/
  | copyCaptioned (mid : Int) (caption : String)
  /-- `send_video`/`send_audio`/`send_animation`/`send_document` -/
  | sendMedia (kind : String) (mid : Int) (caption : String)
  /-- `edit_message_caption` -/
  | editCap (caption : String)
deriving DecidableEq

/-- What a publisher call returns and the effects it performed. -/
structure PubResult where
  ok : Bool
  logs : List LogEntry
  sends : List SendEv
deriving DecidableEq

/-- The telegram send method chosen for a media kind in
`publish_media_message` (`else` falls through to `send_document`). -/
def sendMethodKind (kind : String) : String :=
  if kind = "video" then "video"
  else if kind = "audio" then "audio"
  else if kind = "animation" then "animation"
  else "document"

/-- The title `_build_caption_for` hands to the metadata cascade:
`str(guess.get("title") or (Path(filename).stem if filename else "Unknown"))`. -/
def captionQueryTitle (env : PubEnv) (filename : String) : String :=
  let cleaned := if filename = "" then "Unknown" else preClean filename
  let g := env.parse cleaned
  pyOrS g.title (if filename = "" then "Unknown" else pathStemS filename)

/-- `publisher._build_caption_for`. -/
def buildCaptionFor (env : PubEnv) (cfg : PubCfg) (filename : String)
    (fileSize : Option Int) : String :=
  let cleaned := if filename = "" then "Unknown" else preClean filename
  let g := env.parse cleaned
  let rawTitle := captionQueryTitle env filename
  let rawYear := if otruthy g.year then g.year else none
  let ctype := detectContentType filename g
  let meta := (fetchSmartMetadata env.prov rawTitle rawYear ctype
    cfg.tmdbKey cfg.omdbKey).1
  buildCaption ctype meta g fileSize cfg.channelUsername cfg.channelLink
    cfg.customTag cfg.extraTags

/-- `publisher._publish_with_caption`: copy, build a caption from the (always
empty) filename, best-effort edit, log. -/
def publishWithCaption (env : PubEnv) (cfg : PubCfg) (hasDb : Bool)
    (srcChat : ChatRef) (srcMsgId : Int) (tgtChat : ChatRef) : PubResult :=
  match env.copyMain with
  | none => { ok := false, logs := [], sends := [] }
  | some mid =>
    let caption := buildCaptionFor env cfg "" none
    { ok := true,
      logs := if hasDb then
          [{ srcChat := srcChat, srcMsg := srcMsgId, tgtChat := tgtChat,
             tgtMsg := some mid, filename := "" }] else [],
      sends := [.copyPlain mid] ++
        (if caption ≠ "" then [.editCap (pyTake 1024 caption)] else []) }

/-- `publisher.publish_message` (reference form): transient forward+delete,
falling back to a bare `copy_message` when the forward fails, else the
copy+edit path of `_publish_with_caption`. -/
def publishMessage (env : PubEnv) (cfg : PubCfg) (hasDb : Bool)
    (srcChat : ChatRef) (srcMsgId : Int) (tgtChat : ChatRef) : PubResult :=
  match env.forwardToTarget with
  | none =>
    match env.copyFallback with
    | some mid =>
      { ok := true,
        logs := if hasDb then
            [{ srcChat := srcChat, srcMsg := srcMsgId, tgtChat := tgtChat,
               tgtMsg := some mid, filename := "" }] else [],
        sends := [.copyPlain mid] }
    | none => { ok := false, logs := [], sends := [] }
  | some _ =>
    let r := publishWithCaption env cfg hasDb srcChat srcMsgId tgtChat
    { r with sends := .forwardTmp :: r.sends }

/-- `publisher.publish_media_message` (direct-message form). -/
def publishMediaMessage (env : PubEnv) (cfg : PubCfg) (hasDb : Bool)
    (m : Msg) (tgtChat : ChatRef) : PubResult :=
  match extractMedia m with
  | none => { ok := false, logs := [], sends := [] }
  | some (_, filename, fileSize, kind) =>
    let cleaned := preClean filename
    let g := env.parse cleaned
    let rawTitle := pyOrS g.title (pathStemS filename)
    let rawYear := if otruthy g.year then g.year else none
    let ctype := detectContentType filename g
    let meta := (fetchSmartMetadata env.prov rawTitle rawYear ctype
      cfg.tmdbKey cfg.omdbKey).1
    let caption := pyTake 1024 (buildCaption ctype meta g fileSize
      cfg.channelUsername cfg.channelLink cfg.customTag cfg.extraTags)
    match env.sendPrimary with
    | some mid =>
      { ok := true,
        logs := if hasDb then
            [{ srcChat := .cid m.chatId, srcMsg := m.msgId, tgtChat := tgtChat,
               tgtMsg := some mid, filename := filename }] else [],
        sends := [.sendMedia (sendMethodKind kind) mid caption] }
    | none =>
      match env.copyAfterSendFail with
      | some mid =>
        { ok := true,
          logs := if hasDb then
              [{ srcChat := .cid m.chatId, srcMsg := m.msgId, tgtChat := tgtChat,
                 tgtMsg := some mid, filename := filename }] else [],
          sends := [.copyCaptioned mid caption] }
      | none => { ok := false, logs := [], sends := [] }

/-! ## Scheduler tick (admin.py `_publisher_job_callback`) -/

/-- The slice of `Config` the job reads. -/
structure AppCfg where
  sourceChannelId : Int := 0
  targetChannelId : Int := 0
  tmdbKey : String := ""
  omdbKey : String := ""
  apiTimeout : Int := 10
  channelUsername : String := "@YourChannel"
  channelLink : String := "https://t.me/YourChannel"

/-- Environment of one tick: the pre-fetch forward used for the filter
inspection, and the publish environment. -/
structure TickEnv where
  prefetch : Option Msg := none
  pub : PubEnv

/-- State and effects of one tick. -/
structure TickResult where
  db : Db
  sends : List SendEv

/-- `db.get("…_channel_id") or str(cfg.…_channel_id)` (Python `or`). -/
def resolveChanRaw (dbVal : Option String) (cfgVal : Int) : String :=
  pyOrS dbVal (intStr cfgVal)

/-- The `not raw or raw in ("0", "None")` configuration-gap test, negated. -/
def chanOkB (s : String) : Bool := !(s = "" || s = "0" || s = "None")

/-- The shared `try: int(); int() except ValueError:` conversion — one
failure leaves both as username strings. -/
def parseChats (srcRaw tgtRaw : String) : ChatRef × ChatRef :=
  match parseIntS srcRaw, parseIntS tgtRaw with
  | some a, some b => (.cid a, .cid b)
  | _, _ => (.cname srcRaw, .cname tgtRaw)

/-- `admin._publisher_job_callback`: one scheduler tick. -/
def publisherJob (env : TickEnv) (cfg : AppCfg) (db : Db) : TickResult :=
  if db.getBool "paused" false then ⟨db, []⟩
  else
    let srcRaw := resolveChanRaw (db.get "source_channel_id") cfg.sourceChannelId
    let tgtRaw := resolveChanRaw (db.get "target_channel_id") cfg.targetChannelId
    if !(chanOkB srcRaw && chanOkB tgtRaw) then ⟨db, []⟩
    else
      let chats := parseChats srcRaw tgtRaw
      let src := chats.1
      let tgt := chats.2
      let ptr := db.getInt "current_msg_id" 0
      if ptr = 0 then ⟨db, []⟩
      else if db.wasPosted src ptr then
        ⟨db.set "current_msg_id" (intStr (ptr + 1)), []⟩
      else
        let blocked :=
          match env.prefetch with
          | some m =>
            let captionText := lowerS (pyOrS m.caption (pyOrS m.text ""))
            let fname := lowerS (match extractMedia m with
              | some info => info.2.1
              | none => "")
            let searchStr := captionText ++ " " ++ fname
            db.getFilters.any (fun w => pyContains w searchStr)
          | none => false
        if blocked then ⟨db.set "current_msg_id" (intStr (ptr + 1)), []⟩
        else
          let customTag := db.getD "custom_tag" ""
          let extraRaw := db.getD "extra_tags" ""
          let extraTags :=
            if extraRaw = "" then []
            else (extraRaw.splitOn "|||").filter (fun t => t ≠ "")
          let pcfg : PubCfg :=
            { tmdbKey := cfg.tmdbKey, omdbKey := cfg.omdbKey,
              apiTimeout := cfg.apiTimeout,
              channelUsername := pyOrS (db.get "channel_username") cfg.channelUsername,
              channelLink := pyOrS (db.get "channel_link") cfg.channelLink,
              customTag := customTag, extraTags := extraTags }
          let r := publishMessage env.pub pcfg true src ptr tgt
          let db1 := { db with postLog := db.postLog ++ r.logs }
          ⟨db1.set "current_msg_id" (intStr (ptr + 1)), r.sends⟩

/-- `n` consecutive ticks, each with its own environment. -/
def iterTicks (envs : Nat → TickEnv) (cfg : AppCfg) (db : Db) : Nat → Db
  | 0 => db
  | n + 1 => (publisherJob (envs n) cfg (iterTicks envs cfg db n)).db

/-! ## Shared concrete fixtures for counterexamples and witnesses -/

/-- A provider network on which every call fails. -/
def noProv : ProvEnv := fun _ _ _ => none

/-- A parse environment whose guessit returns the empty guess and whose
telegram calls all fail. -/
def idleEnv : PubEnv := { parse := fun _ => {}, prov := noProv }

/-- A message with no media attachment at all. -/
def msgNoMedia : Msg := { chatId := -100, msgId := 42 }

/-- A provider network on which only Jikan answers. -/
def jikanMeta : Meta := { defaultMeta with source := some "Jikan (MAL)" }

def jikanOnly : ProvEnv := fun p _ _ =>
  match p with
  | .jikan => some jikanMeta
  | _ => none

/-- The closed category set of the content-type classifier. -/
def contentCategories : List String :=
  ["anime", "kdrama", "cdrama", "jdrama", "kmovie", "jmovie", "indian", "series", "movie"]

/-- Recognizer for the episode line of a caption (only episode lines start
with the `├ 🎞` glyph pair). -/
def isEpLine (l : String) : Bool := "├ 🎞".toList.isPrefixOf l.toList

/-- A publish environment whose `copy_message` to the target succeeds with
message id 3 and whose parser returns the empty guess. -/
def envCopy3 : PubEnv := { parse := fun _ => {}, prov := noProv, copyMain := some 3 }

/-- Concrete tick fixtures: a configuration with both channels set. -/
def cfgTick : AppCfg := { sourceChannelId := -1001, targetChannelId := -1002 }

/-- A store holding only the pointer at 5. -/
def dbTick : Db := { settings := [("current_msg_id", "5")] }

/-- A tick environment with no prefetch and an idle publish environment. -/
def envIdleTick : TickEnv := { pub := idleEnv }

/-- An unchanging stream of idle tick environments. -/
def envsIdle : Nat → TickEnv := fun _ => envIdleTick

/-- A store whose pointer 42 is already present in the post log. -/
def dbPosted : Db :=
  { settings := [("current_msg_id", "42")],
    postLog := [{ srcChat := .cid (-1001), srcMsg := 42, tgtChat := .cid (-1002),
                  tgtMsg := some 7, filename := "x.mkv" }] }

/-- A store with pointer 42 and the filter keyword `"cam"`. -/
def dbFilters : Db := { settings := [("current_msg_id", "42")], filters := ["cam"] }

/-- A candidate message whose caption contains `"HDCAM release"`. -/
def msgCam : Msg := { chatId := -1001, msgId := 42, caption := some "HDCAM release" }

/-- A tick environment pre-fetching `msgCam`. -/
def envCam : TickEnv := { prefetch := some msgCam, pub := idleEnv }

/-! ## Proof-side notions for the normalizer analysis -/

/-- Maximal word-character runs of a string, in order. -/
def wordRuns : List Char → List (List Char)
  | [] => []
  | c :: cs =>
    if isWordChar c then
      (c :: cs.takeWhile isWordChar) :: wordRuns (cs.dropWhile isWordChar)
    else wordRuns cs
termination_by l => l.length
decreasing_by
  all_goals simp only [List.length_cons]
  · exact Nat.lt_succ_of_le (List.dropWhile_sublist _).length_le
  · omega

/-- Is there an `o` followed (anywhere later) by a `cl`? -/
def hasPairB (o cl : Char) : List Char → Bool
  | [] => false
  | x :: xs => (x = o && xs.contains cl) || hasPairB o cl xs

/-- The scan of `substF` finds no match anywhere (with the given previous
character at the start). -/
def MFree (m : Option Char → List Char → Option Nat) : Option Char → List Char → Prop
  | _, [] => True
  | prev, c :: cs => m prev (c :: cs) = none ∧ MFree m (some c) cs

/-- Fuel-free twin of `substF` (for reasoning; `substF` with enough fuel
computes the same scan, see `substF_eq_W`). -/
def substFW (m : Option Char → List Char → Option Nat) :
    Option Char → List Char → List Char
  | _, [] => []
  | prev, c :: cs =>
    match m prev (c :: cs) with
    | some (n + 1) =>
      ' ' :: substFW m (some ((c :: cs).getD n c)) (List.drop (n + 1) (c :: cs))
    | _ => c :: substFW m (some c) cs
termination_by _ l => l.length
decreasing_by
  · simp only [List.length_cons, List.length_drop]
    omega
  · simp

/-- The lowercase pure-word forms of the extension tokens. -/
def extTokens : List (List Char) := ["mkv", "mp4", "avi", "mov", "flv", "wmv", "webm", "m4v"].map String.toList

/-- The lowercase pure-word forms of the release-source tokens (with the
optional dash elided). -/
def srcTokens : List (List Char) :=
  ["hdtv", "webdl", "webrip", "bluray", "brrip", "dvdrip", "hdrip", "amzn",
   "nf", "dsnp", "hulu", "hbo", "pcok", "atvp", "stan", "it"].map String.toList

/-- The lowercase pure-word forms of the codec tokens that need no dot. -/
def codecTokens : List (List Char) :=
  ["x264", "x265", "hevc", "h264", "h265", "avc", "aac"].map String.toList

/-- The lowercase pure-word forms of the HDR/audio tokens. -/
def hdrTokens : List (List Char) :=
  ["10bit", "hdr", "sdr", "dovi", "atmos", "dts"].map String.toList

/-- The character preceding a position: the last character of the prefix, or
the incoming previous character when the prefix is empty. -/
def prevAt (prev : Option Char) (u : List Char) : Option Char :=
  match u.getLast? with
  | some c => some c
  | none => prev

/-- A whole-word occurrence of `t` in `l` at top level: the character before
it (if any) is not a word character, and the character after it (if any)
fails the trailing `\b` test. -/
def OccT (t l : List Char) : Prop :=
  ∃ u v, l = u ++ t ++ v ∧ prevIsWord (prevAt none u) = false ∧ boundaryK v = some 0

/-- The strings a star-free token sequence can consume: one character per
mandatory token, at most one per optional token. -/
inductive Sel : List Tok → List Char → Prop where
  | nil : Sel [] []
  | one {p : Char → Bool} {ts : List Tok} {c : Char} {cs : List Char} :
      p c = true → Sel ts cs → Sel (.one p :: ts) (c :: cs)
  | optKeep {p : Char → Bool} {ts : List Tok} {c : Char} {cs : List Char} :
      p c = true → Sel ts cs → Sel (.optc p :: ts) (c :: cs)
  | optSkip {p : Char → Bool} {ts : List Tok} {cs : List Char} :
      Sel ts cs → Sel (.optc p :: ts) cs

/-- Not a whitespace character (`nonWS c = true` for the characters that
survive `str.split`). -/
def nonWS (c : Char) : Bool := !pyIsSpace c

/-! # Lemmas and claim theorems -/

/-! ## Decimal roundtrip lemmas -/

theorem digitVal?_digitChar {n : Nat} (h : n < 10) : digitVal? (digitChar n) = some n := by
  interval_cases n <;> decide

theorem digitChar_ne_minus (n : Nat) : digitChar n ≠ '-' := by
  unfold digitChar
  split <;> decide

theorem natDigitsF_ne_nil {fuel n : Nat} (h : n < fuel) : natDigitsF fuel n ≠ [] := by
  match fuel with
  | 0 => omega
  | fuel + 1 =>
    unfold natDigitsF
    split
    · simp
    · simp

theorem natDigitsF_head_digit {fuel n : Nat} (h : n < fuel) :
    ∃ d rest, natDigitsF fuel n = digitChar d :: rest := by
  induction fuel generalizing n with
  | zero => omega
  | succ fuel ih =>
    unfold natDigitsF
    split
    · exact ⟨n, [], rfl⟩
    · rename_i hge
      have hlt : n / 10 < fuel := by omega
      obtain ⟨d, rest, hd⟩ := ih hlt
      refine ⟨d, rest ++ [digitChar (n % 10)], ?_⟩
      rw [hd]; rfl

/-- The parse fold over rendered digits accumulates exactly. -/
theorem parseFold_natDigitsF {fuel n : Nat} (h : n < fuel) (a : Nat) :
    (natDigitsF fuel n).foldl (fun acc c =>
      match acc, digitVal? c with
      | some a, some d => some (10 * a + d)
      | _, _ => none) (some a) =
    some (a * 10 ^ (natDigitsF fuel n).length + n) := by
  induction fuel generalizing n a with
  | zero => omega
  | succ fuel ih =>
    unfold natDigitsF
    split
    · rename_i hlt
      simp [digitVal?_digitChar hlt]
      omega
    · rename_i hge
      have hge' : ¬ n < 10 := hge
      have hlt : n / 10 < fuel := by omega
      rw [List.foldl_append]
      rw [ih hlt a]
      have h10 : n % 10 < 10 := Nat.mod_lt _ (by omega)
      simp [digitVal?_digitChar h10, List.length_append]
      ring_nf
      omega

theorem parseNatL_natDigits (n : Nat) : parseNatL (natDigits n) = some n := by
  unfold parseNatL natDigits
  have hne := natDigitsF_ne_nil (Nat.lt_succ_self n)
  rw [if_neg (by simpa [List.isEmpty_iff] using hne)]
  have := parseFold_natDigitsF (Nat.lt_succ_self n) 0
  rw [this]
  simp

/-- `String.toList` of `String.mk` is the identity. -/
theorem toList_mk (l : List Char) : (String.mk l).toList = l := rfl

theorem parseIntS_cons (c : Char) (rest : List Char) :
    parseIntS (String.mk (c :: rest)) =
      if c = '-' then (parseNatL rest).map (fun n => -(n : Int))
      else (parseNatL (c :: rest)).map (fun n => (n : Int)) := rfl

/-- Roundtrip: parsing the rendered decimal form of an integer recovers it. -/
theorem parseIntS_intStr (i : Int) : parseIntS (intStr i) = some i := by
  unfold intStr
  split
  · rename_i hneg
    rw [show ('-' :: natDigits (-i).toNat) = '-' :: natDigits (-i).toNat from rfl,
      parseIntS_cons]
    rw [if_pos rfl, parseNatL_natDigits]
    show some (-(((-i).toNat : Nat) : Int)) = some i
    congr 1
    omega
  · rename_i hpos
    obtain ⟨d, rest, hd⟩ := natDigitsF_head_digit (Nat.lt_succ_self i.toNat)
    have hd' : natDigits i.toNat = digitChar d :: rest := hd
    rw [hd', parseIntS_cons, if_neg (digitChar_ne_minus d), ← hd',
      parseNatL_natDigits]
    show some ((i.toNat : Nat) : Int) = some i
    congr 1
    omega

/-! ## C1: direct-message publish with no supported media -/

/-- C1 counterexample: a message without any supported media kind makes
`publish_media_message` return `False` — the failure value, not the
success value the claim asserts (it does perform no send and write no log
entry). -/
theorem c1_counterexample :
    extractMedia msgNoMedia = none ∧
    publishMediaMessage idleEnv {} true msgNoMedia (.cid 7) =
      { ok := false, logs := [], sends := [] } :=
  ⟨rfl, rfl⟩

/-- C1 (amended): for every message without a supported media kind,
`publish_media_message` returns the failure value `False`, performs no send
to the target channel and writes no `PostLogEntry`. -/
theorem publishMediaMessage_no_media (env : PubEnv) (cfg : PubCfg) (hasDb : Bool)
    (m : Msg) (tgt : ChatRef) (h : extractMedia m = none) :
    publishMediaMessage env cfg hasDb m tgt = { ok := false, logs := [], sends := [] } := by
  unfold publishMediaMessage
  rw [h]

/-- Witness for C1's amended theorem at a concrete no-media message. -/
theorem publishMediaMessage_no_media_witness :
    extractMedia msgNoMedia = none ∧
    publishMediaMessage idleEnv {} false msgNoMedia (.cid 7) =
      { ok := false, logs := [], sends := [] } :=
  ⟨rfl, publishMediaMessage_no_media idleEnv {} false msgNoMedia (.cid 7) rfl⟩

/-! ## C3 / C4: the metadata cascade -/

/-- With an all-failing provider network, every gated call fails too. -/
theorem gatedCall_none (env : ProvEnv) (tk ok : String) (title : String)
    (year : Option Int) (h : ∀ p t y, env p t y = none) (p : Provider) :
    gatedCall env tk ok title year p = none := by
  cases p <;> simp [gatedCall, h, ite_self]

/-- `tryProviders` on an all-failing network walks the whole list. -/
theorem tryProviders_all_none (env : ProvEnv) (tk ok : String) (title : String)
    (year : Option Int) (h : ∀ p t y, env p t y = none) (l : List Provider) :
    tryProviders env tk ok title year l = (none, l) := by
  induction l with
  | nil => rfl
  | cons p ps ih =>
    unfold tryProviders
    rw [gatedCall_none env tk ok title year h p, ih]

/-- C3 counterexample: with every provider failing and the empty input
title, the cascade substitutes `"Unknown"` for the title (Python
`title or "Unknown"`), so the returned title is not the input title. -/
theorem c3_counterexample :
    (fetchSmartMetadata noProv "" none "anime" "" "").1.title = some "Unknown" ∧
    ("Unknown" : String) ≠ "" :=
  ⟨rfl, by decide⟩

/-- C3 (amended): when every provider call fails, `fetch_smart_metadata`
returns — without raising — the `_DEFAULT` record with `source = "None"`,
every descriptive field at its sentinel, and `title` equal to the input
title when the input title is nonempty (and `"Unknown"` when it is empty). -/
theorem fetchSmartMetadata_all_fail (env : ProvEnv) (title : String)
    (year : Option Int) (ctype tk ok : String)
    (h : ∀ p t y, env p t y = none) :
    (fetchSmartMetadata env title year ctype tk ok).1 =
      { defaultMeta with title := some (if title = "" then "Unknown" else title) } := by
  have h2 := tryProviders_all_none env tk ok title year h
  simp [fetchSmartMetadata, h2]

/-- Witness for C3's amended theorem: all providers fail on `"Naruto"`. -/
theorem fetchSmartMetadata_all_fail_witness :
    (∀ p t y, noProv p t y = none) ∧
    (fetchSmartMetadata noProv "Naruto" none "movie" "" "").1 =
      { defaultMeta with title := some "Naruto" } :=
  ⟨fun _ _ _ => rfl, by
    rw [fetchSmartMetadata_all_fail noProv "Naruto" none "movie" "" "" (fun _ _ _ => rfl)]
    rfl⟩

/-- `tryProviders` stops exactly at the first provider that yields a
result, invoking precisely the prefix up to it. -/
theorem tryProviders_first_hit (env : ProvEnv) (tk ok : String) (title : String)
    (year : Option Int) (pre post : List Provider) (p : Provider) (r : Meta)
    (hpre : ∀ q ∈ pre, gatedCall env tk ok title year q = none)
    (hp : gatedCall env tk ok title year p = some r) :
    tryProviders env tk ok title year (pre ++ p :: post) = (some r, pre ++ [p]) := by
  induction pre with
  | nil => simp [tryProviders, hp]
  | cons q qs ih =>
    have hq : gatedCall env tk ok title year q = none := hpre q (by simp)
    simp [tryProviders, hq, ih (fun x hx => hpre x (by simp [hx]))]

/-- C4: for category `"anime"` the cascade queries exactly
`[Jikan, AniList, Kitsu, TMDB(tv), TVMaze]` in order and stops at the first
provider that returns a usable result: if the providers before position `i`
fail and the one at `i` succeeds with record `r`, the cascade returns `r`
and the invoked-provider list is exactly the order prefix through `i` —
in particular, a Jikan success means no later provider is called. -/
theorem fetch_anime_provider_order (env : ProvEnv) (title : String)
    (year : Option Int) (tk ok : String) (pre post : List Provider)
    (p : Provider) (r : Meta)
    (horder : animeOrder = pre ++ p :: post)
    (hpre : ∀ q ∈ pre, gatedCall env tk ok title year q = none)
    (hp : gatedCall env tk ok title year p = some r) :
    fetchSmartMetadata env title year "anime" tk ok = (r, pre ++ [p]) := by
  have ht := tryProviders_first_hit env tk ok title year pre post p r hpre hp
  simp [fetchSmartMetadata, horder, ht]

/-- Witness for C4: Jikan succeeds on `"Naruto"`, the cascade returns its
record having invoked Jikan alone. -/
theorem fetch_anime_provider_order_witness :
    animeOrder = [] ++ .jikan :: [.anilist, .kitsu, .tmdbTv, .tvmaze] ∧
    fetchSmartMetadata jikanOnly "Naruto" none "anime" "" "" = (jikanMeta, [.jikan]) :=
  ⟨rfl, by
    have := fetch_anime_provider_order jikanOnly "Naruto" none "" ""
      [] [.anilist, .kitsu, .tmdbTv, .tvmaze] .jikan jikanMeta rfl
      (fun q hq => absurd hq (List.not_mem_nil q)) rfl
    simpa using this⟩

/-! ## C10: the reference-form copy+edit publish path -/

/-- C10: whenever the copy to the target channel succeeds, the reference
publish path returns success and logs a `PostLogEntry` with an empty
filename; the caption it applies is `buildCaptionFor` at the empty filename
and no file size, so the outgoing messages of any two invocations with the
same configuration are identical regardless of the source message; and
when the black-box parser maps `"Unknown"` to no title or to `"Unknown"`,
the cascade is queried with the fixed title `"Unknown"`. -/
theorem publishWithCaption_spec (env : PubEnv) (cfg : PubCfg)
    (src1 src2 : ChatRef) (id1 id2 : Int) (tgt : ChatRef) (mid : Int)
    (hcopy : env.copyMain = some mid) :
    publishWithCaption env cfg true src1 id1 tgt =
      { ok := true,
        logs := [{ srcChat := src1, srcMsg := id1, tgtChat := tgt,
                   tgtMsg := some mid, filename := "" }],
        sends := [.copyPlain mid] ++
          (if buildCaptionFor env cfg "" none ≠ "" then
            [.editCap (pyTake 1024 (buildCaptionFor env cfg "" none))] else []) } ∧
    (publishWithCaption env cfg true src1 id1 tgt).sends =
      (publishWithCaption env cfg true src2 id2 tgt).sends ∧
    ((env.parse "Unknown").title = none ∨ (env.parse "Unknown").title = some "Unknown" →
      captionQueryTitle env "" = "Unknown") := by
  refine ⟨?_, ?_, ?_⟩
  · simp [publishWithCaption, hcopy]
  · simp [publishWithCaption, hcopy]
  · intro h
    rcases h with h | h <;> simp [captionQueryTitle, pyOrS, h]

/-- Witness for C10 at a concrete environment where the copy succeeds. -/
theorem publishWithCaption_spec_witness :
    envCopy3.copyMain = some 3 ∧
    (publishWithCaption envCopy3 {} true (.cid 1) 11 (.cid 2)).sends =
      (publishWithCaption envCopy3 {} true (.cid 5) 99 (.cid 2)).sends ∧
    captionQueryTitle envCopy3 "" = "Unknown" :=
  ⟨rfl,
   (publishWithCaption_spec envCopy3 {} (.cid 1) (.cid 5) 11 99 (.cid 2) 3 rfl).2.1,
   (publishWithCaption_spec envCopy3 {} (.cid 1) (.cid 5) 11 99 (.cid 2) 3 rfl).2.2
     (Or.inl rfl)⟩

/-! ## C7: the content-type classifier -/

/-- A `find?` over a list whose prefix all fails and whose next element
succeeds returns that element. -/
theorem find?_first_hit {α : Type} (q : α → Bool) (pre post : List α) (x : α)
    (hpre : ∀ y ∈ pre, q y = false) (hx : q x = true) :
    (pre ++ x :: post).find? q = some x := by
  induction pre with
  | nil => simp [List.find?, hx]
  | cons a as ih =>
    simp only [List.cons_append, List.find?]
    rw [hpre a (by simp)]
    exact ih (fun y hy => hpre y (by simp [hy]))

/-- C7: the classifier is total over the 9 categories; the keyword groups
are exactly `anime, kdrama, cdrama, jdrama, kmovie, jmovie, indian` in that
priority order with the first matching group winning; and when no keyword
matches, the result is `"series"` iff the guess's type hint is
`"episode"`, else `"movie"`. -/
theorem detect_content_type_spec (filename : String) (g : Guess) :
    kwGroups.map Prod.fst =
      ["anime", "kdrama", "cdrama", "jdrama", "kmovie", "jmovie", "indian"] ∧
    detectContentType filename g ∈ contentCategories ∧
    (∀ pre grp post, kwGroups = pre ++ grp :: post →
      (∀ q ∈ pre, searchWord q.2 none (filename.toList.map Char.toLower) = false) →
      searchWord grp.2 none (filename.toList.map Char.toLower) = true →
      detectContentType filename g = grp.1) ∧
    ((∀ grp ∈ kwGroups, searchWord grp.2 none (filename.toList.map Char.toLower) = false) →
      detectContentType filename g =
        (if lowerS (g.gtype.getD "movie") = "episode" then "series" else "movie")) := by
  refine ⟨rfl, ?_, ?_, ?_⟩
  · simp only [detectContentType]
    split
    · rename_i grp hfind
      have hmem := List.mem_of_find?_eq_some hfind
      simp only [kwGroups, List.mem_cons, List.not_mem_nil, or_false] at hmem
      rcases hmem with rfl | rfl | rfl | rfl | rfl | rfl | rfl <;>
        simp [contentCategories]
    · split <;> simp [contentCategories]
  · intro pre grp post heq hpre hx
    simp only [detectContentType]
    rw [heq, find?_first_hit _ pre post grp hpre hx]
  · intro hall
    simp only [detectContentType]
    rw [List.find?_eq_none.mpr (fun grp hm => by
      have h2 : searchWord grp.2 none (List.map Char.toLower filename.data) = false :=
        hall grp hm
      simp [h2])]

/-- Witness for C7: a keyword hit (`anime` beats the fallback) and a
keywordless fallback classified by the `episode` type hint. -/
theorem detect_content_type_spec_witness :
    detectContentType "Naruto.anime.mkv" {} = "anime" ∧
    detectContentType "Some.Show.mkv" { gtype := some "episode" } = "series" := by
  constructor
  · exact (detect_content_type_spec "Naruto.anime.mkv" {}).2.2.1
      [] kwGroups.headI kwGroups.tail rfl
      (fun q hq => absurd hq (List.not_mem_nil q)) rfl
  · exact (detect_content_type_spec "Some.Show.mkv" { gtype := some "episode" }).2.2.2
      (by
        intro grp hgrp
        simp only [kwGroups, List.mem_cons, List.not_mem_nil, or_false] at hgrp
        rcases hgrp with rfl | rfl | rfl | rfl | rfl | rfl | rfl <;> rfl)

/-! ## C9: the episode line of the caption -/

@[simp] theorem isEpLine_empty : isEpLine "" = false := rfl

@[simp] theorem isEpLine_blockquote_open : isEpLine "<blockquote>" = false := rfl

@[simp] theorem isEpLine_blockquote_close : isEpLine "</blockquote>" = false := rfl

@[simp] theorem isEpLine_separator : isEpLine "━━━━━━━━━━━━━━━━━━━━━━━━" = false := rfl

@[simp] theorem isEpLine_synopsis_header : isEpLine "📖  <b>Synopsis:</b>" = false := rfl

@[simp] theorem isEpLine_bold (s : String) : isEpLine ("<b>" ++ s) = false := rfl

@[simp] theorem isEpLine_bold2 (a : String) : isEpLine ("<b>" ++ a ++ "</b>") = false := rfl

@[simp] theorem isEpLine_italic (s : String) : isEpLine ("<i>" ++ s ++ "</i>") = false := rfl

@[simp] theorem isEpLine_link (s : String) :
    isEpLine ("🔔  <a href=\"" ++ s ++ "\">Join for more!</a>") = false := rfl

@[simp] theorem isEpLine_ep (s : String) :
    isEpLine ("├ 🎞  <b>Episode  :</b>  <code>" ++ s ++ "</code>") = true := rfl

@[simp] theorem isEpLine_year (s : String) :
    isEpLine ("├ 📅  <b>Year     :</b>  <code>" ++ s ++ "</code>") = false := rfl

@[simp] theorem isEpLine_rating (s : String) :
    isEpLine ("├ ⭐  <b>Rating   :</b>  <code>" ++ s ++ " / 10</code>") = false := rfl

@[simp] theorem isEpLine_genre (s : String) :
    isEpLine ("├ 🎭  <b>Genre    :</b>  <code>" ++ s ++ "</code>") = false := rfl

@[simp] theorem isEpLine_country (s : String) :
    isEpLine ("├ 🌍  <b>Country  :</b>  <code>" ++ s ++ "</code>") = false := rfl

@[simp] theorem isEpLine_language (s : String) :
    isEpLine ("├ 🗣  <b>Language :</b>  <code>" ++ s ++ "</code>") = false := rfl

@[simp] theorem isEpLine_quality (s : String) :
    isEpLine ("├ 📽  <b>Quality  :</b>  <code>" ++ s ++ "</code>") = false := rfl

@[simp] theorem isEpLine_size (s : String) :
    isEpLine ("├ 💾  <b>Size     :</b>  <code>" ++ s ++ "</code>") = false := rfl

@[simp] theorem isEpLine_runtime (s : String) :
    isEpLine ("├ ⏱  <b>Runtime  :</b>  <code>" ++ s ++ "</code>") = false := rfl

@[simp] theorem isEpLine_director (s : String) :
    isEpLine ("├ 🎬  <b>Director :</b>  <code>" ++ s ++ "</code>") = false := rfl

@[simp] theorem isEpLine_cast (s : String) :
    isEpLine ("├ 🌟  <b>Cast     :</b>  <code>" ++ s ++ "</code>") = false := rfl

@[simp] theorem isEpLine_source (s : String) :
    isEpLine ("╰ 🗂  <b>Source   :</b>  <code>" ++ s ++ "</code>") = false := rfl

@[simp] theorem isEpLine_title_line (a b c : String) :
    isEpLine ("<b>" ++ a ++ "  " ++ b ++ "</b>  " ++ c) = false := rfl

/-- No caption header is an episode line, whichever category is looked up. -/
theorem isEpLine_headerChoice (ctype : String) :
    isEpLine ((((headerMap.find? (fun kv => kv.1 = ctype)).map (·.2)).getD
      ("🎬 <b>𝗠𝗢𝗩𝗜𝗘 𝗘𝗗𝗜𝗧𝗜𝗢𝗡</b> 🎬", "🎥", "⭐")).1) = false := by
  cases hfind : headerMap.find? (fun kv => kv.1 = ctype) with
  | none => rfl
  | some kv =>
    have hmem := List.mem_of_find?_eq_some hfind
    simp only [headerMap, List.mem_cons, List.not_mem_nil, or_false] at hmem
    rcases hmem with rfl | rfl | rfl | rfl | rfl | rfl | rfl | rfl | rfl <;> rfl

/-- Footer tag lines are never episode lines. -/
theorem filter_isEpLine_tags (et : List String) :
    (et.map (fun t => "<b>" ++ t ++ "</b>")).filter isEpLine = [] := by
  induction et with
  | nil => rfl
  | cons t ts ih => simp [ih]

theorem s_form_ne_empty (x y : String) : ("S" ++ x ++ "E" ++ y) ≠ "" := by
  intro h
  have := congrArg String.data h
  simp [String.data_append] at this

theorem ep_form_ne_empty (x : String) : ("EP " ++ x) ≠ "" := by
  intro h
  have := congrArg String.data h
  simp [String.data_append] at this

/-- C9 (amended): the caption contains an episode line exactly when the
guess's `episode` is truthy (present and nonzero): with `season` also
truthy it reads `S{season:02d}E{episode:02d}`, otherwise `EP {episode:02d}`;
with `episode` absent or zero there is no episode line at all. -/
theorem buildCaption_episode_line (ctype : String) (meta : Meta) (g : Guess)
    (fs : Option Int) (cu cl ct : String) (et : List String) :
    (buildCaptionLines ctype meta g fs cu cl ct et).filter isEpLine =
      (if otruthy g.season && otruthy g.episode then
        ["├ 🎞  <b>Episode  :</b>  <code>" ++
          ("S" ++ pad2 (g.season.getD 0) ++ "E" ++ pad2 (g.episode.getD 0)) ++ "</code>"]
      else if otruthy g.episode then
        ["├ 🎞  <b>Episode  :</b>  <code>" ++
          ("EP " ++ pad2 (g.episode.getD 0)) ++ "</code>"]
      else []) := by
  simp only [buildCaptionLines, List.filter_append, List.filter_cons, List.filter_nil,
    isEpLine_empty, isEpLine_blockquote_open, isEpLine_blockquote_close,
    isEpLine_separator, isEpLine_synopsis_header, isEpLine_title_line,
    isEpLine_year, isEpLine_rating, isEpLine_genre, isEpLine_country,
    isEpLine_language, isEpLine_quality, isEpLine_size, isEpLine_runtime,
    isEpLine_director, isEpLine_cast, isEpLine_source, isEpLine_italic,
    isEpLine_link, isEpLine_bold, isEpLine_bold2, isEpLine_headerChoice,
    filter_isEpLine_tags,
    Bool.false_eq_true, if_false, List.append_nil, List.nil_append,
    apply_ite (List.filter isEpLine)]
  by_cases h1 : otruthy g.season <;> by_cases h2 : otruthy g.episode <;>
    simp [epStr, h1, h2, s_form_ne_empty, ep_form_ne_empty]

/-- C9 counterexample: with `episode = 0` present in the guess (and no
season), the claim's `EP 00` line should appear, but Python truthiness
makes the code emit no episode line at all. -/
theorem c9_counterexample :
    (Guess.mk none none none (some 0) none [] [] none).episode = some 0 ∧
    epStr (Guess.mk none none none (some 0) none [] [] none) = "" ∧
    (buildCaptionLines "movie" emptyMeta (Guess.mk none none none (some 0) none [] [] none)
      none "@c" "https://t.me/c" "" []).filter isEpLine = [] := by
  refine ⟨rfl, rfl, ?_⟩
  rw [buildCaption_episode_line]
  rfl

/-! ## C2 / C5 / C6: the scheduler tick -/

theorem Db.get_set_self (db : Db) (k v : String) : (db.set k v).get k = some v := by
  unfold Db.get Db.set
  rw [List.find?_cons_of_pos _ (by simp)]
  rfl

theorem Db.get_set_other (db : Db) (k v k' : String) (h : k' ≠ k) :
    (db.set k v).get k' = db.get k' := by
  unfold Db.get Db.set
  rw [List.find?_cons_of_neg _ (by simp [Ne.symm h])]

theorem Db.getInt_set_self (db : Db) (k : String) (v d : Int) :
    (db.set k (intStr v)).getInt k d = v := by
  unfold Db.getInt
  rw [Db.get_set_self]
  show (parseIntS (intStr v)).getD d = v
  rw [parseIntS_intStr]
  rfl

theorem Db.filters_set (db : Db) (k v : String) : (db.set k v).filters = db.filters := rfl

theorem Db.postLog_set (db : Db) (k v : String) : (db.set k v).postLog = db.postLog := rfl

theorem Db.getInt_of_get (db : Db) (k : String) (p d : Int)
    (h : db.get k = some (intStr p)) : db.getInt k d = p := by
  unfold Db.getInt
  rw [h]
  show (parseIntS (intStr p)).getD d = p
  rw [parseIntS_intStr]
  rfl

/-- The core of C2: under the claim's preconditions a tick always rewrites
the pointer to `p + 1` (whatever the outcome: already-posted skip, filter
block, publish success or publish failure) and leaves every other setting
binding, and the filter table, unchanged. -/
theorem publisherJob_advances (env : TickEnv) (cfg : AppCfg) (db : Db) (p : Int)
    (hpause : db.getBool "paused" false = false)
    (hsrc : chanOkB (resolveChanRaw (db.get "source_channel_id") cfg.sourceChannelId) = true)
    (htgt : chanOkB (resolveChanRaw (db.get "target_channel_id") cfg.targetChannelId) = true)
    (hptr : db.get "current_msg_id" = some (intStr p))
    (hpos : p ≠ 0) :
    (publisherJob env cfg db).db.get "current_msg_id" = some (intStr (p + 1)) ∧
    (∀ k, k ≠ "current_msg_id" → (publisherJob env cfg db).db.get k = db.get k) ∧
    (publisherJob env cfg db).db.filters = db.filters := by
  have hgi : db.getInt "current_msg_id" 0 = p := Db.getInt_of_get db _ p 0 hptr
  simp only [publisherJob, hpause, hsrc, htgt, hgi, hpos, Bool.false_eq_true, if_false,
    Bool.and_self, Bool.not_true, if_pos]
  split
  · exact ⟨Db.get_set_self _ _ _,
      fun k hk => Db.get_set_other _ _ _ _ hk, rfl⟩
  · split
    · exact ⟨Db.get_set_self _ _ _,
        fun k hk => Db.get_set_other _ _ _ _ hk, rfl⟩
    · refine ⟨Db.get_set_self _ _ _, fun k hk => ?_, rfl⟩
      rw [Db.get_set_other _ _ _ _ hk]
      rfl

theorem Db.getBool_eq_of_get (db1 db2 : Db) (k : String) (d : Bool)
    (h : db1.get k = db2.get k) : db1.getBool k d = db2.getBool k d := by
  unfold Db.getBool
  rw [h]

/-- C2: starting from a pointer `p > 0` with the job unpaused and both
channels configured, one tick ends with the pointer at exactly `p + 1`
whatever the outcome of the attempt, and `N` such ticks in a row (no admin
intervention) move the pointer to exactly `p + N`. -/
theorem scheduler_pointer_plus_n (cfg : AppCfg) (db : Db) (p : Int)
    (hpause : db.getBool "paused" false = false)
    (hsrc : chanOkB (resolveChanRaw (db.get "source_channel_id") cfg.sourceChannelId) = true)
    (htgt : chanOkB (resolveChanRaw (db.get "target_channel_id") cfg.targetChannelId) = true)
    (hptr : db.get "current_msg_id" = some (intStr p))
    (hpos : 0 < p) :
    (∀ env, (publisherJob env cfg db).db.getInt "current_msg_id" 0 = p + 1) ∧
    (∀ envs N, (iterTicks envs cfg db N).getInt "current_msg_id" 0 = p + N) := by
  have key : ∀ envsN (N : Nat),
      (iterTicks envsN cfg db N).get "current_msg_id" = some (intStr (p + N)) ∧
      (∀ k, k ≠ "current_msg_id" → (iterTicks envsN cfg db N).get k = db.get k) := by
    intro envsN N
    induction N with
    | zero => exact ⟨by simpa using hptr, fun k _ => rfl⟩
    | succ n ih =>
      have hpause' : (iterTicks envsN cfg db n).getBool "paused" false = false := by
        rw [Db.getBool_eq_of_get _ db _ _ (ih.2 "paused" (by decide))]
        exact hpause
      have hs' : (iterTicks envsN cfg db n).get "source_channel_id" =
          db.get "source_channel_id" := ih.2 _ (by decide)
      have ht' : (iterTicks envsN cfg db n).get "target_channel_id" =
          db.get "target_channel_id" := ih.2 _ (by decide)
      have hpos' : p + (n : Int) ≠ 0 := by omega
      have step := publisherJob_advances (envsN n) cfg (iterTicks envsN cfg db n)
        (p + n) hpause' (by rw [hs']; exact hsrc) (by rw [ht']; exact htgt)
        ih.1 hpos'
      constructor
      · show (publisherJob (envsN n) cfg (iterTicks envsN cfg db n)).db.get
          "current_msg_id" = some (intStr (p + (n + 1 : Nat)))
        rw [step.1]
        congr 1
        push_cast
        ring_nf
      · intro k hk
        show (publisherJob (envsN n) cfg (iterTicks envsN cfg db n)).db.get k = db.get k
        rw [step.2.1 k hk]
        exact ih.2 k hk
  constructor
  · intro env
    have step := publisherJob_advances env cfg db p hpause hsrc htgt hptr (by omega)
    exact Db.getInt_of_get _ _ _ _ step.1
  · intro envs N
    have h := (key envs N).1
    calc (iterTicks envs cfg db N).getInt "current_msg_id" 0
        = p + N := Db.getInt_of_get _ _ _ _ h

/-- Witness for C2: three ticks from pointer 5 end at pointer 8. -/
theorem scheduler_pointer_plus_n_witness :
    dbTick.getBool "paused" false = false ∧
    dbTick.get "current_msg_id" = some (intStr 5) ∧
    (iterTicks envsIdle cfgTick dbTick 3).getInt "current_msg_id" 0 = 5 + 3 :=
  ⟨rfl, rfl,
    (scheduler_pointer_plus_n cfgTick dbTick 5 rfl rfl rfl rfl (by decide)).2 envsIdle 3⟩

/-- C5: a tick whose pointer `p` already appears in the post log for the
resolved source channel advances the pointer to `p + 1` and does nothing
else: no send reaches the target channel, the post log is unchanged, and
every other setting binding is untouched. -/
theorem scheduler_skip_already_posted (env : TickEnv) (cfg : AppCfg) (db : Db) (p : Int)
    (hpause : db.getBool "paused" false = false)
    (hsrc : chanOkB (resolveChanRaw (db.get "source_channel_id") cfg.sourceChannelId) = true)
    (htgt : chanOkB (resolveChanRaw (db.get "target_channel_id") cfg.targetChannelId) = true)
    (hptr : db.get "current_msg_id" = some (intStr p))
    (hpos : 0 < p)
    (hwas : db.wasPosted
      (parseChats (resolveChanRaw (db.get "source_channel_id") cfg.sourceChannelId)
        (resolveChanRaw (db.get "target_channel_id") cfg.targetChannelId)).1 p = true) :
    (publisherJob env cfg db).db = db.set "current_msg_id" (intStr (p + 1)) ∧
    (publisherJob env cfg db).sends = [] ∧
    (publisherJob env cfg db).db.postLog = db.postLog ∧
    (publisherJob env cfg db).db.getInt "current_msg_id" 0 = p + 1 ∧
    ∀ k, k ≠ "current_msg_id" → (publisherJob env cfg db).db.get k = db.get k := by
  have hgi : db.getInt "current_msg_id" 0 = p := Db.getInt_of_get db _ p 0 hptr
  have hpz : ¬ p = 0 := by omega
  simp only [publisherJob, hpause, hsrc, htgt, hgi, hpz, hwas, Bool.false_eq_true,
    if_false, Bool.and_self, Bool.not_true, if_true]
  exact ⟨by trivial, by trivial, by trivial, Db.getInt_set_self db _ (p + 1) 0,
    fun k hk => Db.get_set_other db _ _ k hk⟩

/-- Witness for C5: pointer 42 already posted → tick moves it to 43 with no
send and no new log entry. -/
theorem scheduler_skip_already_posted_witness :
    dbPosted.wasPosted (.cid (-1001)) 42 = true ∧
    (publisherJob envIdleTick cfgTick dbPosted).sends = [] ∧
    (publisherJob envIdleTick cfgTick dbPosted).db.postLog = dbPosted.postLog ∧
    (publisherJob envIdleTick cfgTick dbPosted).db.getInt "current_msg_id" 0 = 42 + 1 := by
  have h := scheduler_skip_already_posted envIdleTick cfgTick dbPosted 42
    rfl rfl rfl rfl (by decide) rfl
  exact ⟨rfl, h.2.1, h.2.2.1, h.2.2.2.1⟩

/-- C6: when the pre-fetched candidate's lowercased caption/text plus
derived filename contains a configured filter keyword as a substring, the
tick advances the pointer by one, performs no target-channel send and
appends no log entry (a blocked skip, not a failure). -/
theorem scheduler_filter_block (env : TickEnv) (cfg : AppCfg) (db : Db) (p : Int)
    (m : Msg)
    (hpause : db.getBool "paused" false = false)
    (hsrc : chanOkB (resolveChanRaw (db.get "source_channel_id") cfg.sourceChannelId) = true)
    (htgt : chanOkB (resolveChanRaw (db.get "target_channel_id") cfg.targetChannelId) = true)
    (hptr : db.get "current_msg_id" = some (intStr p))
    (hpos : 0 < p)
    (hwas : db.wasPosted
      (parseChats (resolveChanRaw (db.get "source_channel_id") cfg.sourceChannelId)
        (resolveChanRaw (db.get "target_channel_id") cfg.targetChannelId)).1 p = false)
    (hpre : env.prefetch = some m)
    (hblock : db.getFilters.any (fun w => pyContains w
      (lowerS (pyOrS m.caption (pyOrS m.text "")) ++ " " ++
       lowerS (match extractMedia m with
         | some info => info.2.1
         | none => ""))) = true) :
    (publisherJob env cfg db).db = db.set "current_msg_id" (intStr (p + 1)) ∧
    (publisherJob env cfg db).sends = [] ∧
    (publisherJob env cfg db).db.postLog = db.postLog ∧
    (publisherJob env cfg db).db.getInt "current_msg_id" 0 = p + 1 := by
  have hgi : db.getInt "current_msg_id" 0 = p := Db.getInt_of_get db _ p 0 hptr
  have hpz : ¬ p = 0 := by omega
  simp only [publisherJob, hpause, hsrc, htgt, hgi, hpz, hwas, hpre, hblock,
    Bool.false_eq_true, if_false, Bool.and_self, Bool.not_true, if_true]
  exact ⟨by trivial, by trivial, by trivial, Db.getInt_set_self db _ (p + 1) 0⟩

/-- Witness for C6: filter `"cam"` blocks a candidate whose caption contains
`"HDCAM release"`; the pointer advances and nothing is sent. -/
theorem scheduler_filter_block_witness :
    dbFilters.getFilters = ["cam"] ∧
    msgCam.caption = some "HDCAM release" ∧
    (publisherJob envCam cfgTick dbFilters).sends = [] ∧
    (publisherJob envCam cfgTick dbFilters).db.postLog = dbFilters.postLog ∧
    (publisherJob envCam cfgTick dbFilters).db.getInt "current_msg_id" 0 = 42 + 1 := by
  have h := scheduler_filter_block envCam cfgTick dbFilters 42 msgCam
    rfl rfl rfl rfl (by decide) rfl rfl rfl
  exact ⟨rfl, rfl, h.2.1, h.2.2.1, h.2.2.2⟩

/-! ## C8: the filename normalizer -/

/-- C8 counterexample: `pre_clean_filename` is not idempotent.  On
`"[a\nb]"` the bracket pattern cannot fire (`.` does not match the
newline), but the whitespace normalization then replaces the newline by a
space, so a second pass deletes the bracketed group: one pass gives
`"[a b]"`, two passes give `""`. -/
theorem c8_counterexample :
    preClean "[a\nb]" = "[a b]" ∧
    preClean (preClean "[a\nb]") = "" ∧
    preClean (preClean "[a\nb]") ≠ preClean "[a\nb]" := by
  refine ⟨rfl, rfl, ?_⟩
  decide

/-- With enough fuel, the fuelled scan equals the fuel-free one. -/
theorem substF_eq_W (m : Option Char → List Char → Option Nat) (fuel : Nat)
    (prev : Option Char) (l : List Char) (h : l.length ≤ fuel) :
    substF m fuel prev l = substFW m prev l := by
  induction fuel generalizing prev l with
  | zero =>
    have hl : l = [] := by
      cases l with
      | nil => rfl
      | cons c cs => simp at h
    subst hl; simp [substF, substFW]
  | succ fuel ih =>
    cases l with
    | nil => simp [substF, substFW]
    | cons c cs =>
      cases hm : m prev (c :: cs) with
      | none =>
        simp only [substF, substFW, hm]
        exact congrArg _ (ih _ _ (by simp at h; omega))
      | some n =>
        cases n with
        | zero =>
          simp only [substF, substFW, hm]
          exact congrArg _ (ih _ _ (by simp at h; omega))
        | succ n =>
          simp only [substF, substFW, hm]
          refine congrArg _ (ih _ _ ?_)
          simp only [List.length_drop] at *
          simp at h ⊢
          omega

/-- `runSub` is the fuel-free scan started at the beginning. -/
theorem runSub_eq_W (m : Option Char → List Char → Option Nat) (l : List Char) :
    runSub m l = substFW m none l :=
  substF_eq_W m l.length none l (le_refl _)

theorem substFW_nil (m : Option Char → List Char → Option Nat) (prev : Option Char) :
    substFW m prev [] = [] := by simp [substFW]

/-- Scan step when the matcher fires. -/
theorem substFW_fire (m : Option Char → List Char → Option Nat) (prev : Option Char)
    (c : Char) (cs : List Char) (n : Nat) (hm : m prev (c :: cs) = some (n + 1)) :
    substFW m prev (c :: cs) =
      ' ' :: substFW m (some ((c :: cs).getD n c)) (List.drop (n + 1) (c :: cs)) := by
  simp only [substFW, hm]

/-- Scan step when the matcher does not fire (or fires vacuously). -/
theorem substFW_keep (m : Option Char → List Char → Option Nat) (prev : Option Char)
    (c : Char) (cs : List Char) (hm : ∀ n, m prev (c :: cs) ≠ some (n + 1)) :
    substFW m prev (c :: cs) = c :: substFW m (some c) cs := by
  rcases hmv : m prev (c :: cs) with _ | n
  · simp only [substFW, hmv]
  · cases n with
    | zero => simp only [substFW, hmv]
    | succ n => exact absurd hmv (hm n)

/-- Every character of the scan output is a space or an input character. -/
theorem substFW_chars (m : Option Char → List Char → Option Nat)
    (prev : Option Char) (l : List Char) :
    ∀ c ∈ substFW m prev l, c = ' ' ∨ c ∈ l := by
  induction prev, l using substFW.induct m with
  | case1 prev => simp [substFW]
  | case2 prev c cs n hm ih =>
    intro x hx
    rw [substFW_fire m prev c cs n hm] at hx
    rw [List.mem_cons] at hx
    rcases hx with rfl | hx
    · exact Or.inl rfl
    · rcases ih x hx with rfl | hx2
      · exact Or.inl rfl
      · exact Or.inr (List.mem_of_mem_drop hx2)
  | case3 prev c cs hm ih =>
    intro x hx
    rw [substFW_keep m prev c cs (fun n h => hm n h)] at hx
    rw [List.mem_cons] at hx
    rcases hx with rfl | hx
    · exact Or.inr (by simp)
    · rcases ih x hx with rfl | hx2
      · exact Or.inl rfl
      · exact Or.inr (by simp [hx2])

/-- A match-free scan leaves the string unchanged. -/
theorem substFW_id (m : Option Char → List Char → Option Nat) (prev : Option Char)
    (l : List Char) (h : MFree m prev l) : substFW m prev l = l := by
  induction l generalizing prev with
  | nil => exact substFW_nil m prev
  | cons c cs ih =>
    obtain ⟨hnone, hrest⟩ := h
    rw [substFW_keep m prev c cs (fun n hn => by rw [hnone] at hn; exact Option.noConfusion hn)]
    rw [ih (some c) hrest]

/-- Build `MFree` from a property of every split of the string, with the
correct preceding character at each position. -/
theorem MFree_of_ctx (m : Option Char → List Char → Option Nat) (l : List Char)
    (H : ∀ u v, l = u ++ v → v ≠ [] → m u.getLast? v = none) : MFree m none l := by
  suffices h : ∀ v u, l = u ++ v → MFree m u.getLast? v by
    have := h l [] rfl
    simpa using this
  intro v
  induction v with
  | nil => intro u _; trivial
  | cons c cs ih =>
    intro u hu
    refine ⟨H u (c :: cs) hu (by simp), ?_⟩
    have h2 := ih (u ++ [c]) (by simp [hu])
    rwa [List.getLast?_concat] at h2

/-- Inversion for a mandatory single-character token. -/
theorem mTok_one_inv (p : Char → Bool) (ts : List Tok) (l : List Char)
    (k : List Char → Option Nat) (n : Nat)
    (h : mTok (.one p :: ts) l k = some n) :
    ∃ c cs m0, l = c :: cs ∧ p c = true ∧ mTok ts cs k = some m0 ∧ n = m0 + 1 := by
  cases l with
  | nil => simp [mTok] at h
  | cons c cs =>
    simp only [mTok] at h
    by_cases hp : p c
    · rw [if_pos hp] at h
      rcases Option.map_eq_some'.mp h with ⟨m0, hm0, hn⟩
      exact ⟨c, cs, m0, rfl, hp, hm0, hn.symm⟩
    · rw [if_neg hp] at h
      exact absurd h (by simp)

/-- A `www.` match always contains a literal dot. -/
theorem mWww_mem_dot (prev : Option Char) (l : List Char) (n : Nat)
    (h : mWww prev l = some n) : '.' ∈ l := by
  unfold mWww seqLit at h
  simp only [String.toList, List.map_cons, List.map_nil] at h
  obtain ⟨c1, l1, _, hl1, _, h1, _⟩ := mTok_one_inv _ _ _ _ _ h
  obtain ⟨c2, l2, _, hl2, _, h2, _⟩ := mTok_one_inv _ _ _ _ _ h1
  obtain ⟨c3, l3, _, hl3, _, h3, _⟩ := mTok_one_inv _ _ _ _ _ h2
  obtain ⟨c4, l4, _, hl4, hp4, _, _⟩ := mTok_one_inv _ _ _ _ _ h3
  subst hl1 hl2 hl3 hl4
  have : c4 = '.' := by simpa using hp4
  simp [this]

/-- A successful `closeIdx` scan means the closing delimiter occurs. -/
theorem closeIdx_some_mem (cl : Char) (l : List Char) (i : Nat)
    (h : closeIdx cl l = some i) : cl ∈ l := by
  induction l generalizing i with
  | nil => simp [closeIdx] at h
  | cons c cs ih =>
    simp only [closeIdx] at h
    by_cases hc : c = cl
    · simp [hc]
    · rw [if_neg hc] at h
      by_cases hn : c = '\n'
      · rw [if_pos hn] at h; exact absurd h (by simp)
      · rw [if_neg hn] at h
        rcases Option.map_eq_some'.mp h with ⟨j, hj, _⟩
        exact List.mem_cons_of_mem c (ih j hj)

/-- A failed `closeIdx` scan on a newline-free string means the closing
delimiter is absent altogether. -/
theorem closeIdx_none_not_mem (cl : Char) (l : List Char)
    (hnl : '\n' ∉ l) (h : closeIdx cl l = none) : cl ∉ l := by
  induction l with
  | nil => simp
  | cons c cs ih =>
    simp only [closeIdx] at h
    by_cases hc : c = cl
    · rw [if_pos hc] at h; exact absurd h (by simp)
    · rw [if_neg hc] at h
      by_cases hn : c = '\n'
      · exact absurd (hn ▸ List.mem_cons_self c cs) hnl
      · rw [if_neg hn] at h
        have h2 := ih (fun hm => hnl (List.mem_cons_of_mem c hm))
          (by rcases hcl : closeIdx cl cs with _ | j
              · rfl
              · rw [hcl] at h; exact absurd h (by simp))
        intro hm
        rcases List.mem_cons.mp hm with rfl | hm
        · exact hc rfl
        · exact h2 hm

/-- A delimiter-pair match witnesses `hasPairB`. -/
theorem mDelim_hasPair (o cl : Char) (prev : Option Char) (l : List Char) (n : Nat)
    (h : mDelim o cl prev l = some n) : hasPairB o cl l = true := by
  cases l with
  | nil => simp [mDelim] at h
  | cons c cs =>
    simp only [mDelim] at h
    by_cases hc : c = o
    · rw [if_pos hc] at h
      rcases Option.map_eq_some'.mp h with ⟨i, hi, _⟩
      have := closeIdx_some_mem cl cs i hi
      simp [hasPairB, hc, this]
    · rw [if_neg hc] at h
      exact absurd h (by simp)

/-- A separator-run match starts with a separator character. -/
theorem mSepRun_head_sep (prev : Option Char) (l : List Char) (n : Nat)
    (h : mSepRun prev l = some n) : ∃ c ∈ l, sepChar c = true := by
  unfold mSepRun at h
  by_cases h2 : 2 ≤ countLeading sepChar l
  · cases l with
    | nil => simp [countLeading] at h2
    | cons c cs =>
      refine ⟨c, by simp, ?_⟩
      by_cases hc : sepChar c
      · exact hc
      · simp [countLeading, hc] at h2
  · rw [if_neg h2] at h; exact absurd h (by simp)

/-! ### Split / join facts -/

theorem splitBy_cons (p : Char → Bool) (c : Char) (l : List Char) :
    splitBy p (c :: l) =
      (if p c then [] :: splitBy p l
       else (c :: (splitBy p l).headD []) :: (splitBy p l).tail) := rfl

/-- `splitBy` in head/rest form. -/
theorem splitBy_eq (p : Char → Bool) (l : List Char) :
    splitBy p l = l.takeWhile (fun c => !p c) ::
      (match l.dropWhile (fun c => !p c) with
       | [] => []
       | _ :: rest => splitBy p rest) := by
  induction l with
  | nil => rfl
  | cons c cs ih =>
    by_cases hc : p c
    · rw [splitBy_cons, if_pos hc, List.takeWhile_cons_of_neg (by simp [hc]),
        List.dropWhile_cons_of_neg (by simp [hc])]
    · rw [splitBy_cons, if_neg hc, List.takeWhile_cons_of_pos (by simp [hc]),
        List.dropWhile_cons_of_pos (by simp [hc]), ih]
      simp

theorem pyWords_nil : pyWords [] = [] := rfl

theorem pyWords_cons_space (c : Char) (l : List Char) (h : pyIsSpace c = true) :
    pyWords (c :: l) = pyWords l := by
  unfold pyWords
  rw [splitBy_cons, if_pos h]
  rfl

theorem dropWhile_head_neg (p : Char → Bool) (l : List Char) (d : Char) (rest : List Char)
    (h : l.dropWhile p = d :: rest) : p d = false := by
  induction l with
  | nil => simp [List.dropWhile] at h
  | cons a as ih =>
    rw [List.dropWhile_cons] at h
    by_cases ha : p a
    · rw [if_pos ha] at h; exact ih h
    · rw [if_neg ha] at h
      cases h
      simpa using ha

theorem pyWords_cons_word (c : Char) (l : List Char) (h : pyIsSpace c = false) :
    pyWords (c :: l) =
      (c :: l.takeWhile (fun x => !pyIsSpace x)) ::
        pyWords (l.dropWhile (fun x => !pyIsSpace x)) := by
  unfold pyWords
  rw [splitBy_cons, if_neg (by simp [h]), splitBy_eq pyIsSpace l]
  rcases hd : l.dropWhile (fun x => !pyIsSpace x) with _ | ⟨d, rest⟩
  · simp [show splitBy pyIsSpace [] = [[]] from rfl]
  · have hds : pyIsSpace d = true := by
      have := dropWhile_head_neg _ _ _ _ hd
      simpa using this
    rw [splitBy_cons, if_pos hds]
    simp

/-- Every split word is nonempty, whitespace-free and drawn from the input. -/
theorem pyWords_spec (l : List Char) :
    ∀ w ∈ pyWords l, w ≠ [] ∧ ∀ c ∈ w, pyIsSpace c = false ∧ c ∈ l := by
  suffices h : ∀ (n : Nat) (l : List Char), l.length ≤ n →
      ∀ w ∈ pyWords l, w ≠ [] ∧ ∀ c ∈ w, pyIsSpace c = false ∧ c ∈ l from
    h l.length l (le_refl _)
  intro n
  induction n with
  | zero =>
    intro l hl
    have : l = [] := by cases l with
      | nil => rfl
      | cons c cs => simp at hl
    subst this
    intro w hw
    simp [pyWords_nil] at hw
  | succ n ih =>
    intro l hl
    cases l with
    | nil => intro w hw; simp [pyWords_nil] at hw
    | cons c cs =>
      by_cases hc : pyIsSpace c
      · rw [pyWords_cons_space c cs hc]
        intro w hw
        obtain ⟨h1, h2⟩ := ih cs (by simp at hl; omega) w hw
        exact ⟨h1, fun x hx => ⟨(h2 x hx).1, List.mem_cons_of_mem c (h2 x hx).2⟩⟩
      · rw [pyWords_cons_word c cs (by simpa using hc)]
        intro w hw
        rcases List.mem_cons.mp hw with rfl | hw
        · refine ⟨by simp, ?_⟩
          intro x hx
          rcases List.mem_cons.mp hx with rfl | hx
          · exact ⟨by simpa using hc, by simp⟩
          · refine ⟨by simpa using List.mem_takeWhile_imp hx, ?_⟩
            exact List.mem_cons_of_mem c ((List.takeWhile_sublist _).mem hx)
        · have hlen : (cs.dropWhile (fun x => !pyIsSpace x)).length ≤ n := by
            have := (List.dropWhile_sublist (l := cs) (fun x => !pyIsSpace x)).length_le
            simp at hl
            omega
          obtain ⟨h1, h2⟩ := ih _ hlen w hw
          refine ⟨h1, fun x hx => ⟨(h2 x hx).1, ?_⟩⟩
          exact List.mem_cons_of_mem c ((List.dropWhile_sublist _).mem (h2 x hx).2)

/-- Splitting a single nonempty whitespace-free word returns it alone. -/
theorem pyWords_single (w : List Char) (hne : w ≠ [])
    (hsf : ∀ c ∈ w, pyIsSpace c = false) : pyWords w = [w] := by
  cases w with
  | nil => exact absurd rfl hne
  | cons c w' =>
    rw [pyWords_cons_word c w' (hsf c (by simp))]
    rw [List.takeWhile_eq_self_iff.mpr (fun x hx => by simp [hsf x (List.mem_cons_of_mem c hx)])]
    rw [List.dropWhile_eq_nil_iff.mpr (fun x hx => by simp [hsf x (List.mem_cons_of_mem c hx)])]
    rfl

/-- Splitting a word, a space, and a rest decomposes. -/
theorem pyWords_word_space (w rest : List Char) (hne : w ≠ [])
    (hsf : ∀ c ∈ w, pyIsSpace c = false) :
    pyWords (w ++ ' ' :: rest) = w :: pyWords rest := by
  cases w with
  | nil => exact absurd rfl hne
  | cons c w' =>
    rw [List.cons_append, pyWords_cons_word c _ (hsf c (by simp))]
    rw [List.takeWhile_append_of_pos
      (fun x hx => by simp [hsf x (List.mem_cons_of_mem c hx)])]
    rw [List.dropWhile_append_of_pos
      (fun x hx => by simp [hsf x (List.mem_cons_of_mem c hx)])]
    rw [List.takeWhile_cons_of_neg (by simp [pyIsSpace])]
    rw [List.dropWhile_cons_of_neg (by simp [pyIsSpace])]
    rw [pyWords_cons_space ' ' rest (by simp [pyIsSpace])]
    simp

/-- Splitting undoes joining for nonempty whitespace-free words. -/
theorem pyWords_joinSp (ws : List (List Char))
    (h : ∀ w ∈ ws, w ≠ [] ∧ ∀ c ∈ w, pyIsSpace c = false) :
    pyWords (joinSp ws) = ws := by
  induction ws with
  | nil => exact pyWords_nil
  | cons w ws ih =>
    cases ws with
    | nil =>
      show pyWords (joinSp [w]) = [w]
      have hw := h w (by simp)
      exact pyWords_single w hw.1 hw.2
    | cons w2 ws' =>
      show pyWords (w ++ ' ' :: joinSp (w2 :: ws')) = _
      have hw := h w (by simp)
      rw [pyWords_word_space w _ hw.1 hw.2]
      rw [ih (fun x hx => h x (List.mem_cons_of_mem w hx))]

/-- `" ".join(s.split())` is idempotent. -/
theorem splitJoinL_idem (l : List Char) : splitJoinL (splitJoinL l) = splitJoinL l := by
  unfold splitJoinL
  rw [pyWords_joinSp (pyWords l)
    (fun w hw => ⟨(pyWords_spec l w hw).1, fun c hc => ((pyWords_spec l w hw).2 c hc).1⟩)]

/-! ### Character tracking through the pipeline -/

/-- A map that fixes every character of `l` is the identity. -/
theorem map_id_of_mem {f : Char → Char} {l : List Char}
    (h : ∀ c ∈ l, f c = c) : l.map f = l := by
  induction l with
  | nil => rfl
  | cons c cs ih => simp [h c (by simp), ih (fun x hx => h x (List.mem_cons_of_mem c hx))]

theorem charSepSub_id (l : List Char) (h : ∀ c ∈ l, sepChar c = false) :
    charSepSub l = l :=
  map_id_of_mem (fun c hc => by simp [h c hc])

theorem charSepSub_chars (l : List Char) :
    ∀ c ∈ charSepSub l, (c = ' ' ∨ c ∈ l) ∧ sepChar c = false := by
  intro c hc
  obtain ⟨d, hd, hcd⟩ := List.mem_map.mp hc
  by_cases hsep : sepChar d
  · rw [if_pos hsep] at hcd
    subst hcd
    exact ⟨Or.inl rfl, by simp [sepChar]⟩
  · rw [if_neg hsep] at hcd
    subst hcd
    exact ⟨Or.inr hd, by simpa using hsep⟩

/-- Characters of any chunk of `splitBy` fail the separator predicate and
come from the input. -/
theorem splitBy_chars (p : Char → Bool) (l : List Char) :
    ∀ w ∈ splitBy p l, ∀ c ∈ w, p c = false ∧ c ∈ l := by
  induction l with
  | nil =>
    intro w hw c hc
    simp [show splitBy p [] = [[]] from rfl] at hw
    subst hw
    simp at hc
  | cons a as ih =>
    intro w hw c hc
    rw [splitBy_cons] at hw
    by_cases ha : p a
    · rw [if_pos ha] at hw
      rcases List.mem_cons.mp hw with rfl | hw
      · simp at hc
      · obtain ⟨h1, h2⟩ := ih w hw c hc
        exact ⟨h1, List.mem_cons_of_mem a h2⟩
    · rw [if_neg ha] at hw
      rcases List.mem_cons.mp hw with rfl | hw
      · rcases List.mem_cons.mp hc with rfl | hc
        · exact ⟨by simpa using ha, by simp⟩
        · have hhead : (splitBy p as).headD [] ∈ splitBy p as := by
            rw [splitBy_eq]
            simp
          obtain ⟨h1, h2⟩ := ih _ hhead c hc
          exact ⟨h1, List.mem_cons_of_mem a h2⟩
      · have htail : w ∈ splitBy p as := by
          have hne : splitBy p as ≠ [] := by rw [splitBy_eq]; simp
          exact List.mem_of_mem_tail hw
        obtain ⟨h1, h2⟩ := ih w htail c hc
        exact ⟨h1, List.mem_cons_of_mem a h2⟩

theorem mem_getLastD {α : Type} (x : α) (L : List α) (d : α) :
    (x :: L).getLastD d ∈ x :: L := by
  induction L generalizing x with
  | nil => simp
  | cons y ys ih =>
    rw [List.getLastD_cons]
    exact List.mem_cons_of_mem x (ih y)

theorem joinSp_chars (ws : List (List Char)) :
    ∀ c ∈ joinSp ws, c = ' ' ∨ ∃ w ∈ ws, c ∈ w := by
  induction ws with
  | nil => intro c hc; simp [joinSp] at hc
  | cons w ws ih =>
    intro c hc
    cases ws with
    | nil => exact Or.inr ⟨w, by simp, by simpa [joinSp] using hc⟩
    | cons w2 ws2 =>
      rw [show joinSp (w :: w2 :: ws2) = w ++ ' ' :: joinSp (w2 :: ws2) from rfl] at hc
      rcases List.mem_append.mp hc with h | h
      · exact Or.inr ⟨w, by simp, h⟩
      · rcases List.mem_cons.mp h with rfl | h
        · exact Or.inl rfl
        · rcases ih c h with h1 | ⟨w', hw', hc'⟩
          · exact Or.inl h1
          · exact Or.inr ⟨w', List.mem_cons_of_mem w hw', hc'⟩

/-- Characters of a `" ".join(s.split())` output: spaces, plus non-space
characters of the input. -/
theorem splitJoinL_chars (l : List Char) :
    ∀ c ∈ splitJoinL l, c = ' ' ∨ (c ∈ l ∧ pyIsSpace c = false) := by
  intro c hc
  rcases joinSp_chars _ c hc with rfl | ⟨w, hw, hcw⟩
  · exact Or.inl rfl
  · obtain ⟨-, hspec⟩ := pyWords_spec l w hw
    exact Or.inr ⟨(hspec c hcw).2, (hspec c hcw).1⟩

theorem runSub_chars (m : Option Char → List Char → Option Nat) (l : List Char) :
    ∀ c ∈ runSub m l, c = ' ' ∨ c ∈ l := by
  rw [runSub_eq_W]; exact substFW_chars m none l

theorem foldl_runSub_chars (ms : List (Option Char → List Char → Option Nat))
    (l : List Char) :
    ∀ c ∈ ms.foldl (fun s m => runSub m s) l, c = ' ' ∨ c ∈ l := by
  induction ms generalizing l with
  | nil => intro c hc; exact Or.inr hc
  | cons m ms ih =>
    intro c hc
    rcases ih (runSub m l) c hc with h | h
    · exact Or.inl h
    · exact runSub_chars m l c h

theorem noiseSub_chars (l : List Char) : ∀ c ∈ noiseSub l, c = ' ' ∨ c ∈ l :=
  foldl_runSub_chars noiseMatchers l

/-! ### Identity of the path-stem step on clean strings -/

theorem splitBy_no_sep (p : Char → Bool) (l : List Char)
    (h : ∀ c ∈ l, p c = false) : splitBy p l = [l] := by
  induction l with
  | nil => rfl
  | cons c cs ih =>
    rw [splitBy_cons, if_neg (by simp [h c (by simp)]),
      ih (fun x hx => h x (List.mem_cons_of_mem c hx))]
    rfl

theorem lastComponentL_id (l : List Char) (hs : '/' ∉ l) (hd : '.' ∉ l) :
    lastComponentL l = l := by
  unfold lastComponentL
  rw [splitBy_no_sep _ l (fun c hc => by
    simp only [decide_eq_false_iff_not]
    rintro rfl; exact hs hc)]
  cases l with
  | nil => rfl
  | cons c cs =>
    have h1 : ¬(c :: cs = ['.']) := by
      rintro h; rw [h] at hd; exact hd (by simp)
    simp [List.filter, h1]

theorem lastIdxOf_none (c : Char) (l : List Char) (h : c ∉ l) :
    lastIdxOf c l = none := by
  unfold lastIdxOf
  rw [List.findIdx?_eq_none_iff.mpr (fun x hx => by
    simp only [decide_eq_false_iff_not]
    rintro rfl; exact h (List.mem_reverse.mp hx))]
  rfl

theorem pathStemL_id (l : List Char) (hs : '/' ∉ l) (hd : '.' ∉ l) :
    pathStemL l = l := by
  simp only [pathStemL, lastComponentL_id l hs hd, lastIdxOf_none '.' l hd]

theorem lastComponentL_chars (l : List Char) :
    ∀ c ∈ lastComponentL l, c ∈ l ∧ (c = '/' → False) := by
  intro c hc
  unfold lastComponentL at hc
  cases hF : (splitBy (fun c => c = '/') l).filter
      (fun comp => !(comp.isEmpty || comp = ['.'])) with
  | nil => rw [hF] at hc; simp at hc
  | cons w ws =>
    rw [hF] at hc
    have hmem := mem_getLastD w ws ([] : List Char)
    have hx : (w :: ws).getLastD [] ∈ (splitBy (fun c => c = '/') l).filter
        (fun comp => !(comp.isEmpty || comp = ['.'])) := hF ▸ hmem
    have hsp := (List.mem_filter.mp hx).1
    obtain ⟨h1, h2⟩ := splitBy_chars (fun c => c = '/') l _ hsp c hc
    exact ⟨h2, fun hcc => by simp [hcc] at h1⟩

theorem pathStemL_chars (l : List Char) :
    ∀ c ∈ pathStemL l, c ∈ l ∧ (c = '/' → False) := by
  intro c hc
  simp only [pathStemL] at hc
  have hsub : c ∈ lastComponentL l := by
    split at hc
    · split at hc
      · exact (List.take_sublist _ _).mem hc
      · exact hc
    · exact hc
  exact lastComponentL_chars l c hsub

/-- The characters of a full `pre_clean_filename` output: never a separator
(`.`, `-`, `_`), never a slash, and no whitespace other than the space. -/
theorem preCleanL_chars (l : List Char) :
    ∀ c ∈ preCleanL l, sepChar c = false ∧ (c = '/' → False) ∧
      (pyIsSpace c = true → c = ' ') := by
  intro c hc
  unfold preCleanL at hc
  rcases splitJoinL_chars _ c hc with rfl | ⟨hc2, hns⟩
  · exact ⟨by decide, by decide, fun _ => rfl⟩
  · refine ⟨?_, ?_, fun h => by rw [h] at hns; exact absurd hns (by simp)⟩
    · exact (charSepSub_chars _ c hc2).2
    · rcases (charSepSub_chars _ c hc2).1 with rfl | hc3
      · exact by decide
      · rcases noiseSub_chars _ c hc3 with rfl | hc4
        · exact by decide
        · exact (pathStemL_chars l c hc4).2

/-! ### Bracket-pair tracking -/

theorem hasPairB_mono {o cl : Char} {X Y : List Char} (hs : X.Sublist Y)
    (h : hasPairB o cl X = true) : hasPairB o cl Y = true := by
  induction hs with
  | slnil => simp [hasPairB] at h
  | cons y _ ih =>
    simp only [hasPairB, Bool.or_eq_true]
    exact Or.inr (ih h)
  | cons₂ x hsub ih =>
    simp only [hasPairB, Bool.or_eq_true, Bool.and_eq_true] at h ⊢
    rcases h with ⟨h1, h2⟩ | h
    · exact Or.inl ⟨h1, by simpa using hsub.mem (by simpa using h2)⟩
    · exact Or.inr (ih h)

theorem hasPairB_filter {o cl : Char} {p : Char → Bool} {X : List Char}
    (ho : p o = true) (hcl : p cl = true) (h : hasPairB o cl X = true) :
    hasPairB o cl (X.filter p) = true := by
  induction X with
  | nil => simp [hasPairB] at h
  | cons x xs ih =>
    simp only [hasPairB, Bool.or_eq_true, Bool.and_eq_true] at h
    rcases h with ⟨h1, h2⟩ | h
    · have hx : x = o := by simpa using h1
      rw [List.filter_cons, if_pos (hx ▸ ho)]
      simp only [hasPairB, Bool.or_eq_true, Bool.and_eq_true]
      refine Or.inl ⟨by simpa using hx, ?_⟩
      have : cl ∈ xs.filter p := List.mem_filter.mpr ⟨by simpa using h2, hcl⟩
      simpa using this
    · rw [List.filter_cons]
      split
      · simp only [hasPairB, Bool.or_eq_true]
        exact Or.inr (ih h)
      · exact ih h

/-- The non-space part of a scan output is a subsequence of the non-space
part of its input. -/
theorem substFW_filter_sublist (m : Option Char → List Char → Option Nat)
    (p : Char → Bool) (hp : p ' ' = false) (prev : Option Char) (l : List Char) :
    ((substFW m prev l).filter p).Sublist (l.filter p) := by
  induction prev, l using substFW.induct m with
  | case1 prev => simp [substFW]
  | case2 prev c cs n hm ih =>
    rw [substFW_fire m prev c cs n hm, List.filter_cons, if_neg (by simp [hp])]
    exact ih.trans ((List.drop_sublist _ _).filter p)
  | case3 prev c cs hm ih =>
    rw [substFW_keep m prev c cs (fun n h => hm n h)]
    by_cases hpc : p c
    · rw [List.filter_cons, List.filter_cons, if_pos hpc, if_pos hpc]
      exact ih.cons₂ c
    · rw [List.filter_cons, List.filter_cons, if_neg hpc, if_neg hpc]
      exact ih

theorem hasPairB_runSub {o cl : Char} {m : Option Char → List Char → Option Nat}
    {x : List Char} (ho : nonWS o = true) (hcl : nonWS cl = true)
    (h : hasPairB o cl (runSub m x) = true) : hasPairB o cl x = true := by
  have h1 := hasPairB_filter (p := nonWS) ho hcl h
  rw [runSub_eq_W] at h1
  have h2 := (substFW_filter_sublist m nonWS (by decide) none x).trans
    (List.filter_sublist x)
  exact hasPairB_mono h2 h1

/-- After one `\[.*?\]`-style substitution pass over a newline-free string,
no opening delimiter is followed by a closing one. -/
theorem hasPairB_delim_est (o cl : Char) (ho : o ≠ ' ') (hcl : cl ≠ ' ')
    (prev : Option Char) (x : List Char) (hnl : '\n' ∉ x) :
    hasPairB o cl (substFW (mDelim o cl) prev x) = false := by
  induction prev, x using substFW.induct (mDelim o cl) with
  | case1 prev => simp [substFW, hasPairB]
  | case2 prev c cs n hm ih =>
    rw [substFW_fire _ prev c cs n hm]
    simp only [hasPairB, Bool.or_eq_false_iff, Bool.and_eq_false_iff]
    refine ⟨Or.inl (by simp only [decide_eq_false_iff_not]; exact fun h => ho h.symm), ?_⟩
    exact ih (fun hmem => hnl ((List.drop_sublist _ _).mem hmem))
  | case3 prev c cs hm ih =>
    rw [substFW_keep _ prev c cs (fun n h => hm n h)]
    have ihc := ih (fun hmem => hnl (List.mem_cons_of_mem c hmem))
    simp only [hasPairB, Bool.or_eq_false_iff, Bool.and_eq_false_iff]
    refine ⟨?_, ihc⟩
    by_cases hc : c = o
    · refine Or.inr ?_
      have hclose : closeIdx cl cs = none := by
        rcases hcl2 : closeIdx cl cs with _ | i
        · rfl
        · exfalso
          refine hm (i + 1) ?_
          simp [mDelim, hc, hcl2]
      have hnotmem : cl ∉ cs :=
        closeIdx_none_not_mem cl cs (fun hmem => hnl (List.mem_cons_of_mem c hmem)) hclose
      simp only [Bool.eq_false_iff]
      intro hcont
      have : cl ∈ substFW (mDelim o cl) (some c) cs := by simpa using hcont
      rcases substFW_chars _ _ _ cl this with h | h
      · exact hcl h
      · exact hnotmem h
    · exact Or.inl (by simpa using hc)

/-! ### Split / join and the filter of non-space characters -/

theorem filter_flatten_pyWords (l : List Char) :
    l.filter nonWS = (pyWords l).flatten := by
  suffices h : ∀ (n : Nat) (l : List Char), l.length ≤ n →
      l.filter nonWS = (pyWords l).flatten from h l.length l (le_refl _)
  intro n
  induction n with
  | zero =>
    intro l hl
    have : l = [] := by cases l with
      | nil => rfl
      | cons c cs => simp at hl
    subst this; rfl
  | succ n ih =>
    intro l hl
    cases l with
    | nil => rfl
    | cons c cs =>
      by_cases hc : pyIsSpace c
      · rw [pyWords_cons_space c cs hc, List.filter_cons,
          if_neg (by simp [nonWS, hc])]
        exact ih cs (by simpa using hl)
      · rw [pyWords_cons_word c cs (by simpa using hc), List.filter_cons,
          if_pos (by simp [nonWS, hc])]
        simp only [List.flatten_cons, List.cons_append]
        congr 1
        have hsplit : cs = cs.takeWhile (fun x => !pyIsSpace x) ++
            cs.dropWhile (fun x => !pyIsSpace x) :=
          (List.takeWhile_append_dropWhile _ _).symm
        conv_lhs => rw [hsplit]
        rw [List.filter_append]
        have h1 : (cs.takeWhile (fun x => !pyIsSpace x)).filter nonWS =
            cs.takeWhile (fun x => !pyIsSpace x) := by
          rw [List.filter_eq_self]
          intro a ha
          have := List.mem_takeWhile_imp ha
          simpa [nonWS] using this
        rw [h1]
        congr 1
        exact ih _ (Nat.le_trans ((List.dropWhile_sublist _).length_le)
          (by simpa using hl))

theorem filter_joinSp (ws : List (List Char))
    (h : ∀ w ∈ ws, ∀ c ∈ w, pyIsSpace c = false) :
    (joinSp ws).filter nonWS = ws.flatten := by
  induction ws with
  | nil => rfl
  | cons w ws ih =>
    cases ws with
    | nil =>
      show w.filter nonWS = w ++ []
      rw [List.append_nil, List.filter_eq_self]
      intro a ha
      simp [nonWS, h w (by simp) a ha]
    | cons w2 ws2 =>
      show (w ++ ' ' :: joinSp (w2 :: ws2)).filter nonWS = w ++ (w2 :: ws2).flatten
      rw [List.filter_append, List.filter_cons, if_neg (by decide)]
      congr 1
      · rw [List.filter_eq_self]
        intro a ha
        simp [nonWS, h w (by simp) a ha]
      · exact ih (fun w' hw' => h w' (List.mem_cons_of_mem w hw'))

/-- Collapsing whitespace does not change the non-space character sequence. -/
theorem filter_splitJoinL (l : List Char) :
    (splitJoinL l).filter nonWS = l.filter nonWS := by
  unfold splitJoinL
  rw [filter_joinSp (pyWords l) (fun w hw c hc => ((pyWords_spec l w hw).2 c hc).1)]
  exact (filter_flatten_pyWords l).symm

theorem hasPairB_splitJoin {o cl : Char} {x : List Char}
    (ho : nonWS o = true) (hcl : nonWS cl = true)
    (h : hasPairB o cl (splitJoinL x) = true) : hasPairB o cl x = true := by
  have h1 := hasPairB_filter (p := nonWS) ho hcl h
  rw [filter_splitJoinL] at h1
  exact hasPairB_mono (List.filter_sublist x) h1

/-! ### Generic facts about the token matcher -/

theorem munches_spec (p : Char → Bool) (l : List Char) :
    ∀ nr ∈ munches p l, nr.2 = l.drop nr.1 ∧ nr.1 ≤ l.length := by
  induction l with
  | nil =>
    intro nr hnr
    simp only [munches, List.mem_singleton] at hnr
    subst hnr; exact ⟨rfl, by simp⟩
  | cons c cs ih =>
    intro nr hnr
    simp only [munches, List.mem_cons] at hnr
    rcases hnr with rfl | hnr
    · exact ⟨rfl, by simp⟩
    · by_cases hp : p c
      · rw [if_pos hp] at hnr
        obtain ⟨mr, hmr, hnr2⟩ := List.mem_map.mp hnr
        obtain ⟨h1, h2⟩ := ih mr hmr
        subst hnr2
        exact ⟨by simpa using h1, by simpa using h2⟩
      · rw [if_neg hp] at hnr
        simp at hnr

theorem mTok_le (k : List Char → Option Nat) (hk : ∀ x j, k x = some j → j = 0) :
    ∀ (ts : List Tok) (l : List Char) (n : Nat), mTok ts l k = some n → n ≤ l.length := by
  intro ts
  induction ts with
  | nil =>
    intro l n h
    have := hk l n h
    omega
  | cons t ts ih =>
    intro l n h
    cases t with
    | one p =>
      obtain ⟨c, cs, m0, rfl, -, hm0, rfl⟩ := mTok_one_inv p ts l k n h
      have := ih cs m0 hm0
      simp only [List.length_cons]
      omega
    | optc p =>
      cases l with
      | nil =>
        simp only [mTok] at h
        exact ih [] n h
      | cons c cs =>
        simp only [mTok] at h
        by_cases hp : p c
        · rw [if_pos hp] at h
          rcases hm : mTok ts cs k with _ | m
          · rw [hm] at h
            exact ih (c :: cs) n h
          · rw [hm] at h
            have hn : n = m + 1 := by
              simpa using h.symm
            have := ih cs m hm
            simp only [List.length_cons]
            omega
        · rw [if_neg hp] at h
          exact ih (c :: cs) n h
    | star p =>
      simp only [mTok] at h
      obtain ⟨nr, hnr, hfire⟩ := List.exists_of_findSome?_eq_some h
      obtain ⟨m, hm, hn⟩ := Option.map_eq_some'.mp hfire
      obtain ⟨h1, h2⟩ := munches_spec p l nr (List.mem_reverse.mp hnr)
      have := ih nr.2 m hm
      rw [h1, List.length_drop] at this
      omega

/-- The zero-width property of `boundaryK`: it only succeeds with 0. -/
theorem boundaryK_zero (x : List Char) (j : Nat) (h : boundaryK x = some j) : j = 0 := by
  cases x with
  | nil => simpa [boundaryK] using h.symm
  | cons c cs =>
    simp only [boundaryK] at h
    by_cases hw : isWordChar c
    · rw [if_pos hw] at h; exact absurd h (by simp)
    · rw [if_neg hw] at h; simpa using h.symm

/-- After a successful match against a `\b`-terminated pattern, the
remainder starts at a word boundary. -/
theorem mTok_boundary_after :
    ∀ (ts : List Tok) (l : List Char) (n : Nat), mTok ts l boundaryK = some n →
      boundaryK (l.drop n) = some 0 := by
  intro ts
  induction ts with
  | nil =>
    intro l n h
    have h0 := boundaryK_zero l n h
    subst h0
    simpa using h
  | cons t ts ih =>
    intro l n h
    cases t with
    | one p =>
      obtain ⟨c, cs, m0, rfl, -, hm0, rfl⟩ := mTok_one_inv p ts l boundaryK n h
      rw [List.drop_succ_cons]
      exact ih cs m0 hm0
    | optc p =>
      cases l with
      | nil =>
        simp only [mTok] at h
        have := mTok_le boundaryK boundaryK_zero ts [] n h
        have hn : n = 0 := by simpa using this
        subst hn
        exact ih [] 0 (by simpa using h)
      | cons c cs =>
        simp only [mTok] at h
        by_cases hp : p c
        · rw [if_pos hp] at h
          rcases hm : mTok ts cs boundaryK with _ | m
          · rw [hm] at h
            exact ih (c :: cs) n h
          · rw [hm] at h
            have hn : n = m + 1 := by simpa using h.symm
            subst hn
            rw [List.drop_succ_cons]
            exact ih cs m hm
        · rw [if_neg hp] at h
          exact ih (c :: cs) n h
    | star p =>
      simp only [mTok] at h
      obtain ⟨nr, hnr, hfire⟩ := List.exists_of_findSome?_eq_some h
      obtain ⟨m, hm, hn⟩ := Option.map_eq_some'.mp hfire
      obtain ⟨h1, -⟩ := munches_spec p l nr (List.mem_reverse.mp hnr)
      have hrec := ih nr.2 m hm
      rw [h1, List.drop_drop] at hrec
      subst hn
      rwa [Nat.add_comm nr.1 m] at hrec

theorem mAlts_inv (alts : List (List Tok)) (l : List Char)
    (k : List Char → Option Nat) (n : Nat) (h : mAlts alts l k = some n) :
    ∃ alt ∈ alts, mTok alt l k = some n :=
  List.exists_of_findSome?_eq_some h

theorem mAlts_isSome_of_mem (alts : List (List Tok)) (alt : List Tok)
    (l : List Char) (k : List Char → Option Nat) (n : Nat)
    (hmem : alt ∈ alts) (hfire : mTok alt l k = some n) :
    mAlts alts l k ≠ none := by
  intro hnone
  rw [mAlts, List.findSome?_eq_none_iff] at hnone
  rw [hnone alt hmem] at hfire
  exact Option.noConfusion hfire

/-- `\b`-group matchers only fire after a non-word character. -/
theorem mWord_prev (alts : List (List Tok)) (pr : Option Char) (x : List Char)
    (n : Nat) (h : mWord alts pr x = some n) : prevIsWord pr = false := by
  by_cases hp : prevIsWord pr
  · rw [mWord, if_pos hp] at h; exact absurd h (by simp)
  · simpa using hp

theorem mWord_fires (alts : List (List Tok)) (pr : Option Char) (x : List Char)
    (n : Nat) (h : mWord alts pr x = some n) : mAlts alts x boundaryK = some n := by
  by_cases hp : prevIsWord pr
  · rw [mWord, if_pos hp] at h; exact absurd h (by simp)
  · rwa [mWord, if_neg hp] at h

/-- `\b`-group matchers consume at least one character when every
alternative starts with a mandatory token. -/
theorem mWord_pos (alts : List (List Tok))
    (halt : ∀ alt ∈ alts, ∃ p ts, alt = Tok.one p :: ts)
    (pr : Option Char) (x : List Char) (n : Nat)
    (h : mWord alts pr x = some n) : 1 ≤ n := by
  obtain ⟨alt, hmem, hfire⟩ := mAlts_inv alts x boundaryK n (mWord_fires alts pr x n h)
  obtain ⟨p, ts, rfl⟩ := halt alt hmem
  obtain ⟨-, -, -, -, -, -, rfl⟩ := mTok_one_inv p ts x boundaryK n hfire
  omega

theorem mWord_le (alts : List (List Tok)) (pr : Option Char) (x : List Char)
    (n : Nat) (h : mWord alts pr x = some n) : n ≤ x.length := by
  obtain ⟨alt, -, hfire⟩ := mAlts_inv alts x boundaryK n (mWord_fires alts pr x n h)
  exact mTok_le boundaryK boundaryK_zero alt x n hfire

theorem mWord_boundary (alts : List (List Tok)) (pr : Option Char) (x : List Char)
    (n : Nat) (h : mWord alts pr x = some n) : boundaryK (x.drop n) = some 0 := by
  obtain ⟨alt, -, hfire⟩ := mAlts_inv alts x boundaryK n (mWord_fires alts pr x n h)
  exact mTok_boundary_after alt x n hfire

/-- A character whose lowercase form is alphanumeric is a word character. -/
theorem isWordChar_of_toLower_alnum (c : Char)
    (h : (Char.toLower c).isAlphanum = true) : isWordChar c = true := by
  unfold isWordChar
  simp only [Char.toLower] at h
  by_cases hcond : c.toNat ≥ 65 ∧ c.toNat ≤ 90
  · simp only [Bool.or_eq_true]
    refine Or.inl (Or.inl ?_)
    simp only [Char.isAlphanum, Char.isAlpha, Char.isUpper, Bool.or_eq_true,
      Bool.and_eq_true, decide_eq_true_eq]
    have h1 : c.toNat = c.val.toNat := rfl
    have h65 : (65 : UInt32).toNat = 65 := rfl
    have h90 : (90 : UInt32).toNat = 90 := rfl
    exact Or.inl (Or.inl ⟨show (65 : UInt32).toNat ≤ c.val.toNat by omega,
      show c.val.toNat ≤ (90 : UInt32).toNat by omega⟩)
  · rw [if_neg hcond] at h
    simp [h]

/-- Matching a concatenated pattern is matching the first part with the
second part folded into the continuation. -/
theorem mTok_append (ts1 ts2 : List Tok) (k : List Char → Option Nat) :
    ∀ l, mTok (ts1 ++ ts2) l k = mTok ts1 l (fun r => mTok ts2 r k) := by
  induction ts1 with
  | nil => intro l; rfl
  | cons t ts ih =>
    intro l
    cases t with
    | one p =>
      cases l with
      | nil => rfl
      | cons c cs => simp only [List.cons_append, mTok, List.append_eq, ih]
    | optc p =>
      cases l with
      | nil => simp only [List.cons_append, mTok, List.append_eq, ih]
      | cons c cs => simp only [List.cons_append, mTok, List.append_eq, ih]
    | star p => simp only [List.cons_append, mTok, List.append_eq, ih]

/-- A case-insensitive literal matches any string that lowercases to it. -/
theorem mTok_seq_fire (k : List Char → Option Nat) :
    ∀ (t' w : List Char) (v : List Char) (j : Nat),
      t'.map Char.toLower = w → k v = some j →
      mTok (w.map lc) (t' ++ v) k = some (j + t'.length) := by
  intro t'
  induction t' with
  | nil =>
    intro w v j hw hk
    subst hw
    simpa using hk
  | cons c cs ih =>
    intro w v j hw hk
    subst hw
    simp only [List.map_cons, List.cons_append, mTok, lc]
    rw [if_pos (by simp)]
    rw [ih (cs.map Char.toLower) v j rfl hk]
    simp only [Option.map_some', List.length_cons]
    congr 1

theorem mTok_optc_skip (p : Char → Bool) (ts : List Tok) (c : Char)
    (cs : List Char) (k : List Char → Option Nat) (hp : p c = false) :
    mTok (.optc p :: ts) (c :: cs) k = mTok ts (c :: cs) k := by
  simp only [mTok]
  rw [if_neg (by simp [hp])]

/-! ### Inverting star-free pattern matches -/

theorem mTok_sel (k : List Char → Option Nat) (hk : ∀ x j, k x = some j → j = 0) :
    ∀ (ts : List Tok), (∀ p, Tok.star p ∉ ts) →
      ∀ (l : List Char) (n : Nat), mTok ts l k = some n →
      ∃ t' rest, l = t' ++ rest ∧ t'.length = n ∧ k rest = some 0 ∧ Sel ts t' := by
  intro ts
  induction ts with
  | nil =>
    intro _ l n h
    have h0 := hk l n h
    subst h0
    exact ⟨[], l, rfl, rfl, h, Sel.nil⟩
  | cons t ts ih =>
    intro hsf l n h
    have hsf2 : ∀ p, Tok.star p ∉ ts := fun p hp => hsf p (List.mem_cons_of_mem t hp)
    cases t with
    | one p =>
      obtain ⟨c, cs, m0, rfl, hp, hm0, rfl⟩ := mTok_one_inv p ts l k n h
      obtain ⟨t', rest, rfl, hlen, hk0, hsel⟩ := ih hsf2 cs m0 hm0
      exact ⟨c :: t', rest, rfl, by simp [hlen], hk0, Sel.one hp hsel⟩
    | optc p =>
      cases l with
      | nil =>
        simp only [mTok] at h
        obtain ⟨t', rest, hsplit, hlen, hk0, hsel⟩ := ih hsf2 [] n h
        exact ⟨t', rest, hsplit, hlen, hk0, Sel.optSkip hsel⟩
      | cons c cs =>
        simp only [mTok] at h
        by_cases hp : p c
        · rw [if_pos hp] at h
          rcases hm : mTok ts cs k with _ | m
          · rw [hm] at h
            obtain ⟨t', rest, hsplit, hlen, hk0, hsel⟩ := ih hsf2 (c :: cs) n h
            exact ⟨t', rest, hsplit, hlen, hk0, Sel.optSkip hsel⟩
          · rw [hm] at h
            have hn : n = m + 1 := by simpa using h.symm
            subst hn
            obtain ⟨t', rest, rfl, hlen, hk0, hsel⟩ := ih hsf2 cs m hm
            exact ⟨c :: t', rest, rfl, by simp [hlen], hk0, Sel.optKeep hp hsel⟩
        · rw [if_neg hp] at h
          obtain ⟨t', rest, hsplit, hlen, hk0, hsel⟩ := ih hsf2 (c :: cs) n h
          exact ⟨t', rest, hsplit, hlen, hk0, Sel.optSkip hsel⟩
    | star p => exact absurd (List.mem_cons_self _ _) (hsf p)

theorem Sel_append : ∀ {ts1 ts2 : List Tok} {t' : List Char},
    Sel (ts1 ++ ts2) t' → ∃ t1 t2, t' = t1 ++ t2 ∧ Sel ts1 t1 ∧ Sel ts2 t2 := by
  intro ts1
  induction ts1 with
  | nil => intro ts2 t' h; exact ⟨[], t', rfl, Sel.nil, h⟩
  | cons t ts ih =>
    intro ts2 t' h
    cases h with
    | one hp hsel =>
      obtain ⟨t1, t2, rfl, h1, h2⟩ := ih hsel
      exact ⟨_ :: t1, t2, rfl, Sel.one hp h1, h2⟩
    | optKeep hp hsel =>
      obtain ⟨t1, t2, rfl, h1, h2⟩ := ih hsel
      exact ⟨_ :: t1, t2, rfl, Sel.optKeep hp h1, h2⟩
    | optSkip hsel =>
      obtain ⟨t1, t2, rfl, h1, h2⟩ := ih hsel
      exact ⟨t1, t2, rfl, Sel.optSkip h1, h2⟩

theorem Sel_seq : ∀ {w t' : List Char}, Sel (w.map lc) t' →
    t'.map Char.toLower = w := by
  intro w
  induction w with
  | nil =>
    intro t' h
    cases h
    rfl
  | cons x xs ih =>
    intro t' h
    simp only [List.map_cons, lc] at h
    cases h with
    | one hp hsel =>
      simp only [List.map_cons, ih hsel]
      congr 1
      simpa using hp

theorem Sel_optc (p : Char → Bool) {t' : List Char} (h : Sel [.optc p] t') :
    t' = [] ∨ ∃ c, t' = [c] ∧ p c = true := by
  cases h with
  | optKeep hp hsel =>
    cases hsel
    exact Or.inr ⟨_, rfl, hp⟩
  | optSkip hsel =>
    cases hsel
    exact Or.inl rfl

/-- A mandatory token's character shows up in anything the pattern consumed. -/
theorem Sel_mem_one : ∀ {ts : List Tok} {t' : List Char}, Sel ts t' →
    ∀ p, Tok.one p ∈ ts → ∃ c ∈ t', p c = true := by
  intro ts t' h
  induction h with
  | nil => intro p hp; simp at hp
  | one hp hsel ih =>
    intro q hq
    rcases List.mem_cons.mp hq with heq | hq
    · obtain rfl := (Tok.one.inj heq.symm)
      exact ⟨_, by simp, hp⟩
    · obtain ⟨c, hc, hqc⟩ := ih q hq
      exact ⟨c, List.mem_cons_of_mem _ hc, hqc⟩
  | optKeep hp hsel ih =>
    intro q hq
    rcases List.mem_cons.mp hq with heq | hq
    · exact absurd heq (by simp)
    · obtain ⟨c, hc, hqc⟩ := ih q hq
      exact ⟨c, List.mem_cons_of_mem _ hc, hqc⟩
  | optSkip hsel ih =>
    intro q hq
    rcases List.mem_cons.mp hq with heq | hq
    · exact absurd heq (by simp)
    · exact ih q hq

theorem seqLit_star_free (w : String) : ∀ p, Tok.star p ∉ seqLit w := by
  intro p hp
  unfold seqLit at hp
  obtain ⟨c, -, hc⟩ := List.mem_map.mp hp
  exact absurd hc (by simp [lc])

/-- Inversion of a plain case-insensitive literal alternative. -/
theorem seq_alt_inv (w : String) (v : List Char) (n : Nat)
    (h : mTok (seqLit w) v boundaryK = some n) :
    ∃ t' rest, v = t' ++ rest ∧ boundaryK rest = some 0 ∧
      t'.map Char.toLower = w.toList := by
  obtain ⟨t', rest, hsplit, -, hk0, hsel⟩ :=
    mTok_sel boundaryK boundaryK_zero (seqLit w) (seqLit_star_free w) v n h
  exact ⟨t', rest, hsplit, hk0, Sel_seq hsel⟩

/-- Inversion of a literal-optional-literal alternative (`WEB-?DL`,
`H\.?264`): either the consumed text lowercases to the concatenated pure
form, or it contains the optional character. -/
theorem opt_mid_alt_inv (a b : String) (p : Char → Bool) (v : List Char) (n : Nat)
    (h : mTok (seqLit a ++ [.optc p] ++ seqLit b) v boundaryK = some n) :
    ∃ t' rest, v = t' ++ rest ∧ boundaryK rest = some 0 ∧
      (t'.map Char.toLower = (a ++ b).toList ∨ ∃ c ∈ t', p c = true) := by
  have hsf : ∀ q, Tok.star q ∉ (seqLit a ++ [.optc p] ++ seqLit b) := by
    intro q hq
    rcases List.mem_append.mp hq with hq | hq
    · rcases List.mem_append.mp hq with hq | hq
      · exact seqLit_star_free a q hq
      · simp at hq
    · exact seqLit_star_free b q hq
  obtain ⟨t', rest, hsplit, -, hk0, hsel⟩ :=
    mTok_sel boundaryK boundaryK_zero _ hsf v n h
  obtain ⟨t12, t3, rfl, hs12, hs3⟩ := Sel_append hsel
  obtain ⟨t1, t2, rfl, hs1, hs2⟩ := Sel_append hs12
  refine ⟨(t1 ++ t2) ++ t3, rest, hsplit, hk0, ?_⟩
  rcases Sel_optc p hs2 with rfl | ⟨c, rfl, hpc⟩
  · refine Or.inl ?_
    rw [List.append_nil, List.map_append, Sel_seq hs1, Sel_seq hs3]
    simp
  · exact Or.inr ⟨c, by simp, hpc⟩

/-- Firing of a literal-optional-literal alternative on the pure form. -/
theorem opt_mid_alt_fire (a b : String) (p : Char → Bool) (t1 t2 v : List Char)
    (j : Nat) (ha : t1.map Char.toLower = a.toList) (hb : t2.map Char.toLower = b.toList)
    (c0 : Char) (cs0 : List Char) (ht2 : t2 = c0 :: cs0) (hph : p c0 = false)
    (hk : boundaryK v = some j) :
    ∃ n, mTok (seqLit a ++ [.optc p] ++ seqLit b) ((t1 ++ t2) ++ v) boundaryK = some n := by
  rw [List.append_assoc (seqLit a), mTok_append (seqLit a), List.append_assoc t1,
    show seqLit a = a.toList.map lc from rfl]
  have hinner : mTok ([.optc p] ++ seqLit b) (t2 ++ v) boundaryK = some (j + t2.length) := by
    subst ht2
    rw [show ([Tok.optc p] ++ seqLit b) = Tok.optc p :: seqLit b from rfl]
    simp only [List.cons_append]
    rw [mTok_optc_skip p (seqLit b) c0 (cs0 ++ v) boundaryK hph]
    exact mTok_seq_fire boundaryK (c0 :: cs0) b.toList v j hb hk
  exact ⟨j + t2.length + t1.length,
    mTok_seq_fire _ t1 a.toList (t2 ++ v) (j + t2.length) ha hinner⟩

/-! ### The four word-token groups: inversion and firing -/

theorem word_chars_of_token (toks : List (List Char))
    (htok : ∀ w ∈ toks, ∀ x ∈ w, x.isAlphanum = true)
    {t' : List Char} (h : t'.map Char.toLower ∈ toks) :
    ∀ c ∈ t', isWordChar c = true := by
  intro c hc
  exact isWordChar_of_toLower_alnum c
    (htok _ h _ (List.mem_map_of_mem Char.toLower hc))

theorem token_ne_nil (toks : List (List Char)) (hne : ([] : List Char) ∉ toks)
    {t' : List Char} (h : t'.map Char.toLower ∈ toks) : t' ≠ [] := by
  rintro rfl
  simp only [List.map_nil] at h
  exact hne h

/-- Inversion of a fired extension-group match: the consumed text
lowercases to one of the pure tokens. -/
theorem mWord_ext_occ (pr : Option Char) (v : List Char) (n : Nat)
    (h : mWord extAlts pr v = some n) :
    prevIsWord pr = false ∧ ∃ t' rest, v = t' ++ rest ∧ boundaryK rest = some 0 ∧
      (t'.map Char.toLower ∈ extTokens ∨ ∃ c ∈ t', sepChar c = true) := by
  refine ⟨mWord_prev _ _ _ _ h, ?_⟩
  obtain ⟨alt, hmem, hfire⟩ := mAlts_inv _ _ _ _ (mWord_fires _ _ _ _ h)
  simp only [extAlts, List.mem_cons, List.not_mem_nil, or_false] at hmem
  rcases hmem with rfl | rfl | rfl | rfl | rfl | rfl | rfl | rfl <;>
    · obtain ⟨t', rest, hsplit, hk0, hmap⟩ := seq_alt_inv _ _ _ hfire
      exact ⟨t', rest, hsplit, hk0, Or.inl (by rw [hmap]; decide)⟩

/-- Inversion of a fired HDR-group match. -/
theorem mWord_hdr_occ (pr : Option Char) (v : List Char) (n : Nat)
    (h : mWord hdrAlts pr v = some n) :
    prevIsWord pr = false ∧ ∃ t' rest, v = t' ++ rest ∧ boundaryK rest = some 0 ∧
      (t'.map Char.toLower ∈ hdrTokens ∨ ∃ c ∈ t', sepChar c = true) := by
  refine ⟨mWord_prev _ _ _ _ h, ?_⟩
  obtain ⟨alt, hmem, hfire⟩ := mAlts_inv _ _ _ _ (mWord_fires _ _ _ _ h)
  simp only [hdrAlts, List.mem_cons, List.not_mem_nil, or_false] at hmem
  rcases hmem with rfl | rfl | rfl | rfl | rfl | rfl <;>
    · obtain ⟨t', rest, hsplit, hk0, hmap⟩ := seq_alt_inv _ _ _ hfire
      exact ⟨t', rest, hsplit, hk0, Or.inl (by rw [hmap]; decide)⟩

/-- A fired `\bDD\+?\d\.\d\b` match always consumes a literal dot. -/
theorem mWord_dd_sep (pr : Option Char) (v : List Char) (n : Nat)
    (h : mWord ddAlts pr v = some n) : ∃ c ∈ v, sepChar c = true := by
  obtain ⟨alt, hmem, hfire⟩ := mAlts_inv _ _ _ _ (mWord_fires _ _ _ _ h)
  simp only [ddAlts, List.mem_singleton] at hmem
  subst hmem
  have hsf : ∀ q, Tok.star q ∉ [lc 'd', lc 'd', Tok.optc (fun c => c = '+'),
      Tok.one Char.isDigit, Tok.one (fun c => c = '.'), Tok.one Char.isDigit] := by
    intro q hq
    simp [lc] at hq
  obtain ⟨t', rest, rfl, -, -, hsel⟩ :=
    mTok_sel boundaryK boundaryK_zero _ hsf v n hfire
  obtain ⟨c, hc, hpc⟩ := Sel_mem_one hsel (fun c => c = '.') (by simp [lc])
  have hcd : c = '.' := by simpa using hpc
  exact ⟨c, List.mem_append_left _ hc, by simp [sepChar, hcd]⟩

/-- The extension group fires on any whole-word occurrence of its tokens. -/
theorem mWord_ext_fire (pr : Option Char) (t' v : List Char)
    (hpr : prevIsWord pr = false) (htok : t'.map Char.toLower ∈ extTokens)
    (hb : boundaryK v = some 0) : mWord extAlts pr (t' ++ v) ≠ none := by
  rw [mWord, if_neg (by simp [hpr])]
  simp only [extTokens, List.map_cons, List.map_nil, List.mem_cons,
    List.not_mem_nil, or_false] at htok
  rcases htok with h | h | h | h | h | h | h | h
  · exact mAlts_isSome_of_mem _ _ _ _ _ (List.mem_cons_self _ _)
      (mTok_seq_fire boundaryK t' _ v 0 h hb)
  · exact mAlts_isSome_of_mem _ _ _ _ _ (List.mem_cons_of_mem _ (List.mem_cons_self _ _))
      (mTok_seq_fire boundaryK t' _ v 0 h hb)
  · exact mAlts_isSome_of_mem _ _ _ _ _ (List.mem_cons_of_mem _ (List.mem_cons_of_mem _
      (List.mem_cons_self _ _))) (mTok_seq_fire boundaryK t' _ v 0 h hb)
  · exact mAlts_isSome_of_mem _ _ _ _ _ (List.mem_cons_of_mem _ (List.mem_cons_of_mem _
      (List.mem_cons_of_mem _ (List.mem_cons_self _ _))))
      (mTok_seq_fire boundaryK t' _ v 0 h hb)
  · exact mAlts_isSome_of_mem _ _ _ _ _ (List.mem_cons_of_mem _ (List.mem_cons_of_mem _
      (List.mem_cons_of_mem _ (List.mem_cons_of_mem _ (List.mem_cons_self _ _)))))
      (mTok_seq_fire boundaryK t' _ v 0 h hb)
  · exact mAlts_isSome_of_mem _ _ _ _ _ (List.mem_cons_of_mem _ (List.mem_cons_of_mem _
      (List.mem_cons_of_mem _ (List.mem_cons_of_mem _ (List.mem_cons_of_mem _
      (List.mem_cons_self _ _)))))) (mTok_seq_fire boundaryK t' _ v 0 h hb)
  · exact mAlts_isSome_of_mem _ _ _ _ _ (List.mem_cons_of_mem _ (List.mem_cons_of_mem _
      (List.mem_cons_of_mem _ (List.mem_cons_of_mem _ (List.mem_cons_of_mem _
      (List.mem_cons_of_mem _ (List.mem_cons_self _ _)))))))
      (mTok_seq_fire boundaryK t' _ v 0 h hb)
  · exact mAlts_isSome_of_mem _ _ _ _ _ (List.mem_cons_of_mem _ (List.mem_cons_of_mem _
      (List.mem_cons_of_mem _ (List.mem_cons_of_mem _ (List.mem_cons_of_mem _
      (List.mem_cons_of_mem _ (List.mem_cons_of_mem _ (List.mem_cons_self _ _))))))))
      (mTok_seq_fire boundaryK t' _ v 0 h hb)

/-- The HDR group fires on any whole-word occurrence of its tokens. -/
theorem mWord_hdr_fire (pr : Option Char) (t' v : List Char)
    (hpr : prevIsWord pr = false) (htok : t'.map Char.toLower ∈ hdrTokens)
    (hb : boundaryK v = some 0) : mWord hdrAlts pr (t' ++ v) ≠ none := by
  rw [mWord, if_neg (by simp [hpr])]
  simp only [hdrTokens, List.map_cons, List.map_nil, List.mem_cons,
    List.not_mem_nil, or_false] at htok
  rcases htok with h | h | h | h | h | h
  · exact mAlts_isSome_of_mem _ _ _ _ _ (List.mem_cons_self _ _)
      (mTok_seq_fire boundaryK t' _ v 0 h hb)
  · exact mAlts_isSome_of_mem _ _ _ _ _ (List.mem_cons_of_mem _ (List.mem_cons_self _ _))
      (mTok_seq_fire boundaryK t' _ v 0 h hb)
  · exact mAlts_isSome_of_mem _ _ _ _ _ (List.mem_cons_of_mem _ (List.mem_cons_of_mem _
      (List.mem_cons_self _ _))) (mTok_seq_fire boundaryK t' _ v 0 h hb)
  · exact mAlts_isSome_of_mem _ _ _ _ _ (List.mem_cons_of_mem _ (List.mem_cons_of_mem _
      (List.mem_cons_of_mem _ (List.mem_cons_self _ _))))
      (mTok_seq_fire boundaryK t' _ v 0 h hb)
  · exact mAlts_isSome_of_mem _ _ _ _ _ (List.mem_cons_of_mem _ (List.mem_cons_of_mem _
      (List.mem_cons_of_mem _ (List.mem_cons_of_mem _ (List.mem_cons_self _ _)))))
      (mTok_seq_fire boundaryK t' _ v 0 h hb)
  · exact mAlts_isSome_of_mem _ _ _ _ _ (List.mem_cons_of_mem _ (List.mem_cons_of_mem _
      (List.mem_cons_of_mem _ (List.mem_cons_of_mem _ (List.mem_cons_of_mem _
      (List.mem_cons_self _ _)))))) (mTok_seq_fire boundaryK t' _ v 0 h hb)

/-- Inversion of a fired codec-group match: a pure token, or a consumed
literal dot. -/
theorem mWord_codec_occ (pr : Option Char) (v : List Char) (n : Nat)
    (h : mWord codecAlts pr v = some n) :
    prevIsWord pr = false ∧ ∃ t' rest, v = t' ++ rest ∧ boundaryK rest = some 0 ∧
      (t'.map Char.toLower ∈ codecTokens ∨ ∃ c ∈ t', sepChar c = true) := by
  refine ⟨mWord_prev _ _ _ _ h, ?_⟩
  obtain ⟨alt, hmem, hfire⟩ := mAlts_inv _ _ _ _ (mWord_fires _ _ _ _ h)
  simp only [codecAlts, List.mem_cons, List.not_mem_nil, or_false] at hmem
  rcases hmem with rfl | rfl | rfl | rfl | rfl | rfl | rfl | rfl
  · obtain ⟨t', rest, hsplit, hk0, hmap⟩ := seq_alt_inv _ _ _ hfire
    exact ⟨t', rest, hsplit, hk0, Or.inl (by rw [hmap]; decide)⟩
  · obtain ⟨t', rest, hsplit, hk0, hmap⟩ := seq_alt_inv _ _ _ hfire
    exact ⟨t', rest, hsplit, hk0, Or.inl (by rw [hmap]; decide)⟩
  · obtain ⟨t', rest, hsplit, hk0, hmap⟩ := seq_alt_inv _ _ _ hfire
    exact ⟨t', rest, hsplit, hk0, Or.inl (by rw [hmap]; decide)⟩
  · obtain ⟨t', rest, hsplit, hk0, hd⟩ := opt_mid_alt_inv "h" "264" _ v n hfire
    rcases hd with hmap | ⟨c, hc, hpc⟩
    · exact ⟨t', rest, hsplit, hk0, Or.inl (by rw [hmap]; decide)⟩
    · refine ⟨t', rest, hsplit, hk0, Or.inr ⟨c, hc, ?_⟩⟩
      have hcd : c = '.' := by simpa using hpc
      simp [sepChar, hcd]
  · obtain ⟨t', rest, hsplit, hk0, hd⟩ := opt_mid_alt_inv "h" "265" _ v n hfire
    rcases hd with hmap | ⟨c, hc, hpc⟩
    · exact ⟨t', rest, hsplit, hk0, Or.inl (by rw [hmap]; decide)⟩
    · refine ⟨t', rest, hsplit, hk0, Or.inr ⟨c, hc, ?_⟩⟩
      have hcd : c = '.' := by simpa using hpc
      simp [sepChar, hcd]
  · obtain ⟨t', rest, hsplit, hk0, hmap⟩ := seq_alt_inv _ _ _ hfire
    exact ⟨t', rest, hsplit, hk0, Or.inl (by rw [hmap]; decide)⟩
  · obtain ⟨t', rest, hsplit, hk0, hmap⟩ := seq_alt_inv _ _ _ hfire
    exact ⟨t', rest, hsplit, hk0, Or.inl (by rw [hmap]; decide)⟩
  · have hsf : ∀ q, Tok.star q ∉ [lc 'd', lc 'd', Tok.optc (fun c => c.toLower = 'p'),
        lc '5', Tok.one (fun c => c = '.'), lc '1'] := by
      intro q hq
      simp [lc] at hq
    obtain ⟨t', rest, rfl, -, hk0, hsel⟩ :=
      mTok_sel boundaryK boundaryK_zero _ hsf v n hfire
    obtain ⟨c, hc, hpc⟩ := Sel_mem_one hsel (fun c => c = '.') (by simp [lc])
    refine ⟨t', rest, rfl, hk0, Or.inr ⟨c, hc, ?_⟩⟩
    have hcd : c = '.' := by simpa using hpc
    simp [sepChar, hcd]

/-- The codec group fires on any whole-word occurrence of its pure tokens. -/
theorem mWord_codec_fire (pr : Option Char) (t' v : List Char)
    (hpr : prevIsWord pr = false) (htok : t'.map Char.toLower ∈ codecTokens)
    (hb : boundaryK v = some 0) : mWord codecAlts pr (t' ++ v) ≠ none := by
  rw [mWord, if_neg (by simp [hpr])]
  simp only [codecTokens, List.map_cons, List.map_nil, List.mem_cons,
    List.not_mem_nil, or_false] at htok
  rcases htok with h | h | h | h | h | h | h
  · exact mAlts_isSome_of_mem _ _ _ _ _ (List.mem_cons_self _ _)
      (mTok_seq_fire boundaryK t' _ v 0 h hb)
  · exact mAlts_isSome_of_mem _ _ _ _ _ (List.mem_cons_of_mem _ (List.mem_cons_self _ _))
      (mTok_seq_fire boundaryK t' _ v 0 h hb)
  · exact mAlts_isSome_of_mem _ _ _ _ _ (List.mem_cons_of_mem _ (List.mem_cons_of_mem _
      (List.mem_cons_self _ _))) (mTok_seq_fire boundaryK t' _ v 0 h hb)
  · rw [show String.toList "h264" = 'h' :: String.toList "264" from rfl] at h
    obtain ⟨c0, t2, rfl, hc0, hrest⟩ := List.map_eq_cons_iff.mp h
    rw [show String.toList "264" = '2' :: String.toList "64" from rfl] at hrest
    obtain ⟨c1, cs1, ht2, hc1, -⟩ := List.map_eq_cons_iff.mp hrest
    have hph : (fun x => (x = '.' : Bool)) c1 = false := by
      simp only [decide_eq_false_iff_not]
      rintro rfl
      exact absurd hc1 (by decide)
    obtain ⟨n2, hn2⟩ := opt_mid_alt_fire "h" "264" (fun c => c = '.') [c0] t2 v 0
      (by rw [List.map_cons, List.map_nil, hc0]; rfl) hrest c1 cs1 ht2 hph hb
    exact mAlts_isSome_of_mem _ _ _ _ _ (List.mem_cons_of_mem _ (List.mem_cons_of_mem _
      (List.mem_cons_of_mem _ (List.mem_cons_self _ _)))) hn2
  · rw [show String.toList "h265" = 'h' :: String.toList "265" from rfl] at h
    obtain ⟨c0, t2, rfl, hc0, hrest⟩ := List.map_eq_cons_iff.mp h
    rw [show String.toList "265" = '2' :: String.toList "65" from rfl] at hrest
    obtain ⟨c1, cs1, ht2, hc1, -⟩ := List.map_eq_cons_iff.mp hrest
    have hph : (fun x => (x = '.' : Bool)) c1 = false := by
      simp only [decide_eq_false_iff_not]
      rintro rfl
      exact absurd hc1 (by decide)
    obtain ⟨n2, hn2⟩ := opt_mid_alt_fire "h" "265" (fun c => c = '.') [c0] t2 v 0
      (by rw [List.map_cons, List.map_nil, hc0]; rfl) hrest c1 cs1 ht2 hph hb
    exact mAlts_isSome_of_mem _ _ _ _ _ (List.mem_cons_of_mem _ (List.mem_cons_of_mem _
      (List.mem_cons_of_mem _ (List.mem_cons_of_mem _ (List.mem_cons_self _ _))))) hn2
  · exact mAlts_isSome_of_mem _ _ _ _ _ (List.mem_cons_of_mem _ (List.mem_cons_of_mem _
      (List.mem_cons_of_mem _ (List.mem_cons_of_mem _ (List.mem_cons_of_mem _
      (List.mem_cons_self _ _)))))) (mTok_seq_fire boundaryK t' _ v 0 h hb)
  · exact mAlts_isSome_of_mem _ _ _ _ _ (List.mem_cons_of_mem _ (List.mem_cons_of_mem _
      (List.mem_cons_of_mem _ (List.mem_cons_of_mem _ (List.mem_cons_of_mem _
      (List.mem_cons_of_mem _ (List.mem_cons_self _ _)))))))
      (mTok_seq_fire boundaryK t' _ v 0 h hb)

/-- Inversion of a fired release-source-group match: a pure token, or a
consumed literal dash. -/
theorem mWord_src_occ (pr : Option Char) (v : List Char) (n : Nat)
    (h : mWord srcAlts pr v = some n) :
    prevIsWord pr = false ∧ ∃ t' rest, v = t' ++ rest ∧ boundaryK rest = some 0 ∧
      (t'.map Char.toLower ∈ srcTokens ∨ ∃ c ∈ t', sepChar c = true) := by
  refine ⟨mWord_prev _ _ _ _ h, ?_⟩
  obtain ⟨alt, hmem, hfire⟩ := mAlts_inv _ _ _ _ (mWord_fires _ _ _ _ h)
  simp only [srcAlts, List.mem_cons, List.not_mem_nil, or_false] at hmem
  rcases hmem with rfl | rfl | rfl | rfl | rfl | rfl | rfl | rfl | rfl | rfl | rfl |
    rfl | rfl | rfl | rfl | rfl | rfl
  case inl =>
    obtain ⟨t', rest, hsplit, hk0, hmap⟩ := seq_alt_inv _ _ _ hfire
    exact ⟨t', rest, hsplit, hk0, Or.inl (by rw [hmap]; decide)⟩
  case inr.inl =>
    obtain ⟨t', rest, hsplit, hk0, hd⟩ := opt_mid_alt_inv "web" "dl" _ v n hfire
    rcases hd with hmap | ⟨c, hc, hpc⟩
    · exact ⟨t', rest, hsplit, hk0, Or.inl (by rw [hmap]; decide)⟩
    · refine ⟨t', rest, hsplit, hk0, Or.inr ⟨c, hc, ?_⟩⟩
      have hcd : c = '-' := by simpa using hpc
      simp [sepChar, hcd]
  case inr.inr.inl =>
    obtain ⟨t', rest, hsplit, hk0, hd⟩ := opt_mid_alt_inv "web" "rip" _ v n hfire
    rcases hd with hmap | ⟨c, hc, hpc⟩
    · exact ⟨t', rest, hsplit, hk0, Or.inl (by rw [hmap]; decide)⟩
    · refine ⟨t', rest, hsplit, hk0, Or.inr ⟨c, hc, ?_⟩⟩
      have hcd : c = '-' := by simpa using hpc
      simp [sepChar, hcd]
  all_goals
    obtain ⟨t', rest, hsplit, hk0, hmap⟩ := seq_alt_inv _ _ _ hfire
    exact ⟨t', rest, hsplit, hk0, Or.inl (by rw [hmap]; decide)⟩

/-- The release-source group fires on any whole-word occurrence of its pure
tokens. -/
theorem mWord_src_fire (pr : Option Char) (t' v : List Char)
    (hpr : prevIsWord pr = false) (htok : t'.map Char.toLower ∈ srcTokens)
    (hb : boundaryK v = some 0) : mWord srcAlts pr (t' ++ v) ≠ none := by
  rw [mWord, if_neg (by simp [hpr])]
  simp only [srcTokens, List.map_cons, List.map_nil, List.mem_cons,
    List.not_mem_nil, or_false] at htok
  rcases htok with h | h | h | h | h | h | h | h | h | h | h | h | h | h | h | h
  case inl =>
    exact mAlts_isSome_of_mem _ (seqLit "hdtv") _ _ _ (by simp [srcAlts, seqLit])
      (mTok_seq_fire boundaryK t' _ v 0 h hb)
  case inr.inl =>
    rw [show String.toList "webdl" = String.toList "web" ++ String.toList "dl" from rfl] at h
    obtain ⟨t1, t2, rfl, h1, h2⟩ := List.append_eq_map_iff.mp h.symm
    rw [show String.toList "dl" = 'd' :: String.toList "l" from rfl] at h2
    obtain ⟨c1, cs1, ht2, hc1, -⟩ := List.map_eq_cons_iff.mp h2
    have hph : (fun x => (x = '-' : Bool)) c1 = false := by
      simp only [decide_eq_false_iff_not]
      rintro rfl
      exact absurd hc1 (by decide)
    obtain ⟨n2, hn2⟩ := opt_mid_alt_fire "web" "dl" (fun c => c = '-') t1 t2 v 0
      h1 h2 c1 cs1 ht2 hph hb
    exact mAlts_isSome_of_mem _ _ _ _ _ (List.mem_cons_of_mem _ (List.mem_cons_self _ _)) hn2
  case inr.inr.inl =>
    rw [show String.toList "webrip" = String.toList "web" ++ String.toList "rip" from rfl] at h
    obtain ⟨t1, t2, rfl, h1, h2⟩ := List.append_eq_map_iff.mp h.symm
    rw [show String.toList "rip" = 'r' :: String.toList "ip" from rfl] at h2
    obtain ⟨c1, cs1, ht2, hc1, -⟩ := List.map_eq_cons_iff.mp h2
    have hph : (fun x => (x = '-' : Bool)) c1 = false := by
      simp only [decide_eq_false_iff_not]
      rintro rfl
      exact absurd hc1 (by decide)
    obtain ⟨n2, hn2⟩ := opt_mid_alt_fire "web" "rip" (fun c => c = '-') t1 t2 v 0
      h1 h2 c1 cs1 ht2 hph hb
    exact mAlts_isSome_of_mem _ _ _ _ _ (List.mem_cons_of_mem _ (List.mem_cons_of_mem _
      (List.mem_cons_self _ _))) hn2
  case inr.inr.inr.inl =>
    exact mAlts_isSome_of_mem _ (seqLit "bluray") _ _ _ (by simp [srcAlts, seqLit])
      (mTok_seq_fire boundaryK t' _ v 0 h hb)
  case inr.inr.inr.inr.inl =>
    exact mAlts_isSome_of_mem _ (seqLit "brrip") _ _ _ (by simp [srcAlts, seqLit])
      (mTok_seq_fire boundaryK t' _ v 0 h hb)
  case inr.inr.inr.inr.inr.inl =>
    exact mAlts_isSome_of_mem _ (seqLit "dvdrip") _ _ _ (by simp [srcAlts, seqLit])
      (mTok_seq_fire boundaryK t' _ v 0 h hb)
  case inr.inr.inr.inr.inr.inr.inl =>
    exact mAlts_isSome_of_mem _ (seqLit "hdrip") _ _ _ (by simp [srcAlts, seqLit])
      (mTok_seq_fire boundaryK t' _ v 0 h hb)
  case inr.inr.inr.inr.inr.inr.inr.inl =>
    exact mAlts_isSome_of_mem _ (seqLit "amzn") _ _ _ (by simp [srcAlts, seqLit])
      (mTok_seq_fire boundaryK t' _ v 0 h hb)
  case inr.inr.inr.inr.inr.inr.inr.inr.inl =>
    exact mAlts_isSome_of_mem _ (seqLit "nf") _ _ _ (by simp [srcAlts, seqLit])
      (mTok_seq_fire boundaryK t' _ v 0 h hb)
  case inr.inr.inr.inr.inr.inr.inr.inr.inr.inl =>
    exact mAlts_isSome_of_mem _ (seqLit "dsnp") _ _ _ (by simp [srcAlts, seqLit])
      (mTok_seq_fire boundaryK t' _ v 0 h hb)
  case inr.inr.inr.inr.inr.inr.inr.inr.inr.inr.inl =>
    exact mAlts_isSome_of_mem _ (seqLit "hulu") _ _ _ (by simp [srcAlts, seqLit])
      (mTok_seq_fire boundaryK t' _ v 0 h hb)
  case inr.inr.inr.inr.inr.inr.inr.inr.inr.inr.inr.inl =>
    exact mAlts_isSome_of_mem _ (seqLit "hbo") _ _ _ (by simp [srcAlts, seqLit])
      (mTok_seq_fire boundaryK t' _ v 0 h hb)
  case inr.inr.inr.inr.inr.inr.inr.inr.inr.inr.inr.inr.inl =>
    exact mAlts_isSome_of_mem _ (seqLit "pcok") _ _ _ (by simp [srcAlts, seqLit])
      (mTok_seq_fire boundaryK t' _ v 0 h hb)
  case inr.inr.inr.inr.inr.inr.inr.inr.inr.inr.inr.inr.inr.inl =>
    exact mAlts_isSome_of_mem _ (seqLit "atvp") _ _ _ (by simp [srcAlts, seqLit])
      (mTok_seq_fire boundaryK t' _ v 0 h hb)
  case inr.inr.inr.inr.inr.inr.inr.inr.inr.inr.inr.inr.inr.inr.inl =>
    exact mAlts_isSome_of_mem _ (seqLit "stan") _ _ _ (by simp [srcAlts, seqLit])
      (mTok_seq_fire boundaryK t' _ v 0 h hb)
  case inr.inr.inr.inr.inr.inr.inr.inr.inr.inr.inr.inr.inr.inr.inr =>
    exact mAlts_isSome_of_mem _ (seqLit "it") _ _ _ (by simp [srcAlts, seqLit])
      (mTok_seq_fire boundaryK t' _ v 0 h hb)

/-! ### Transporting whole-word occurrences backwards through a scan -/

theorem prevAt_cons (prev : Option Char) (c : Char) (u : List Char) :
    prevAt prev (c :: u) = prevAt (some c) u := by
  cases u with
  | nil => simp [prevAt]
  | cons d ds =>
    unfold prevAt
    rw [List.getLast?_cons_cons]
    rcases hl : (d :: ds).getLast? with _ | e
    · rw [List.getLast?_eq_none_iff] at hl
      exact absurd hl (by simp)
    · rfl

theorem prevAt_append (p : Option Char) (R u : List Char) :
    prevAt p (R ++ u) = prevAt (prevAt p R) u := by
  induction R generalizing p with
  | nil => rfl
  | cons a R ih => rw [List.cons_append, prevAt_cons, ih, prevAt_cons]

/-- The word-boundary state after a non-word character does not depend on
what came before it. -/
theorem prevAt_nonword_prev (sp : Char) (hsp : isWordChar sp = false)
    (u : List Char) :
    prevIsWord (prevAt (some sp) u) = prevIsWord (prevAt none u) := by
  cases u with
  | nil => simp [prevAt, prevIsWord, hsp]
  | cons d ds => rw [prevAt_cons, prevAt_cons]

theorem prevAt_some_word (c : Char) (w : List Char)
    (hc : isWordChar c = true) (hw : ∀ x ∈ w, isWordChar x = true) :
    prevIsWord (prevAt (some c) w) = true := by
  induction w generalizing c with
  | nil => simpa [prevAt, prevIsWord] using hc
  | cons d ds ih =>
    rw [prevAt_cons]
    exact ih d (hw d (by simp)) (fun x hx => hw x (List.mem_cons_of_mem d hx))

theorem nonword_of_space (c : Char) (h : pyIsSpace c = true) :
    isWordChar c = false := by
  simp only [pyIsSpace, Bool.or_eq_true, decide_eq_true_eq] at h
  rcases h with ((((rfl | rfl) | rfl) | rfl) | rfl) | rfl <;> decide

theorem getLast?_take_succ (x : List Char) (n : Nat) (d : Char) (h : n < x.length) :
    (x.take (n + 1)).getLast? = some (x.getD n d) := by
  rw [List.getLast?_eq_getElem?]
  have hlen : (x.take (n + 1)).length = n + 1 := by
    rw [List.length_take]; omega
  rw [hlen]
  simp only [Nat.add_sub_cancel]
  rw [List.getElem?_take, if_pos (Nat.lt_succ_self n), List.getElem?_eq_getElem h]
  rw [List.getD_eq_getElem?_getD, List.getElem?_eq_getElem h]
  rfl

/-- A scan output is empty only on empty input. -/
theorem substFW_eq_nil (m : Option Char → List Char → Option Nat)
    (prev : Option Char) (l : List Char) (h : substFW m prev l = []) : l = [] := by
  cases l with
  | nil => rfl
  | cons c cs =>
    rcases hm : m prev (c :: cs) with _ | n
    · rw [substFW_keep m prev c cs (fun k hk => by rw [hm] at hk; exact Option.noConfusion hk)] at h
      exact absurd h (by simp)
    · cases n with
      | zero =>
        rw [substFW_keep m prev c cs
          (fun k hk => by rw [hm] at hk; exact absurd (Option.some.inj hk) (by omega))] at h
        exact absurd h (by simp)
      | succ n =>
        rw [substFW_fire m prev c cs n hm] at h
        exact absurd h (by simp)

/-- A word character at the head of a scan output was kept from the head of
the input, with no match firing there. -/
theorem substFW_word_head (m : Option Char → List Char → Option Nat)
    (hm0 : ∀ pr x, m pr x ≠ some 0)
    (prev : Option Char) (l : List Char) (c : Char) (outr : List Char)
    (hw : isWordChar c = true) (h : substFW m prev l = c :: outr) :
    ∃ cs, l = c :: cs ∧ outr = substFW m (some c) cs ∧ m prev l = none := by
  cases l with
  | nil => rw [substFW_nil] at h; exact absurd h (by simp)
  | cons d ds =>
    rcases hm : m prev (d :: ds) with _ | n
    · rw [substFW_keep m prev d ds
        (fun k hk => by rw [hm] at hk; exact Option.noConfusion hk)] at h
      obtain ⟨rfl, rfl⟩ := List.cons.inj h
      exact ⟨ds, rfl, rfl, rfl⟩
    · cases n with
      | zero => exact absurd hm (hm0 prev (d :: ds))
      | succ n =>
        rw [substFW_fire m prev d ds n hm] at h
        injection h with h1 h2
        rw [← h1] at hw
        exact absurd hw (by decide)

/-- A run of word characters at the head of a scan output was kept verbatim
from the head of the input. -/
theorem substFW_word_run (m : Option Char → List Char → Option Nat)
    (hm0 : ∀ pr x, m pr x ≠ some 0) :
    ∀ (w : List Char) (prev : Option Char) (l outr : List Char),
      (∀ c ∈ w, isWordChar c = true) →
      substFW m prev l = w ++ outr →
      ∃ l2, l = w ++ l2 ∧ outr = substFW m (prevAt prev w) l2 ∧
        (w ≠ [] → m prev l = none) := by
  intro w
  induction w with
  | nil =>
    intro prev l outr _ h
    exact ⟨l, rfl, by simpa [prevAt] using h.symm, fun hh => absurd rfl hh⟩
  | cons c ws ih =>
    intro prev l outr hw h
    rw [List.cons_append] at h
    obtain ⟨cs, rfl, houtr, hmn⟩ :=
      substFW_word_head m hm0 prev l c (ws ++ outr) (hw c (by simp)) h
    obtain ⟨l2, rfl, hout2, -⟩ :=
      ih (some c) cs outr (fun x hx => hw x (List.mem_cons_of_mem c hx)) houtr.symm
    exact ⟨l2, rfl, by rw [prevAt_cons]; exact hout2, fun _ => hmn⟩

/-- Transport of the trailing word boundary backwards through a scan that
never fires after a word character. -/
theorem boundaryK_substFW (m : Option Char → List Char → Option Nat)
    (hd : ∀ pr c cs n, m pr (c :: cs) = some (n + 1) →
      isWordChar c = false ∨ prevIsWord pr = false)
    (pr : Option Char) (l : List Char) (hpr : prevIsWord pr = true)
    (h : boundaryK (substFW m pr l) = some 0) : boundaryK l = some 0 := by
  cases l with
  | nil => rfl
  | cons d ds =>
    rcases hm : m pr (d :: ds) with _ | n
    · rw [substFW_keep m pr d ds
        (fun k hk => by rw [hm] at hk; exact Option.noConfusion hk)] at h
      simp only [boundaryK] at h ⊢
      by_cases hwd : isWordChar d
      · rw [if_pos hwd] at h; exact absurd h (by simp)
      · rw [if_neg hwd]
    · cases n with
      | zero =>
        rw [substFW_keep m pr d ds
          (fun k hk => by rw [hm] at hk; exact absurd (Option.some.inj hk) (by omega))] at h
        simp only [boundaryK] at h ⊢
        by_cases hwd : isWordChar d
        · rw [if_pos hwd] at h; exact absurd h (by simp)
        · rw [if_neg hwd]
      | succ n =>
        rcases hd pr d ds n hm with hwd | hprf
        · simp only [boundaryK]
          rw [if_neg (by simp [hwd])]
        · rw [hprf] at hpr; exact absurd hpr (by simp)

/-- The central transport theorem: a whole-word occurrence in the output of
one substitution scan comes from a whole-word occurrence in its input at
which the matcher did not fire. -/
theorem substFW_occ (m : Option Char → List Char → Option Nat)
    (hm0 : ∀ pr x, m pr x ≠ some 0)
    (hmb : ∀ pr x n, m pr x = some n → n ≤ x.length)
    (hba : ∀ pr x n, m pr x = some n → boundaryK (x.drop n) = some 0)
    (hd : ∀ pr c cs n, m pr (c :: cs) = some (n + 1) →
      isWordChar c = false ∨ prevIsWord pr = false)
    (t' : List Char) (htne : t' ≠ []) (htw : ∀ c ∈ t', isWordChar c = true) :
    ∀ (prev : Option Char) (l : List Char), ∀ u v : List Char,
      substFW m prev l = u ++ t' ++ v →
      prevIsWord (prevAt prev u) = false →
      boundaryK v = some 0 →
      ∃ u0 v0, l = u0 ++ t' ++ v0 ∧ prevIsWord (prevAt prev u0) = false ∧
        boundaryK v0 = some 0 ∧ m (prevAt prev u0) (t' ++ v0) = none := by
  intro prev l
  induction prev, l using substFW.induct m with
  | case1 prev =>
    intro u v h hu hv
    rw [substFW_nil] at h
    rcases t' with _ | ⟨tc, tcs⟩
    · exact absurd rfl htne
    · exact absurd h.symm (by simp)
  | case2 prev c cs n hm ih =>
    intro u v h hu hv
    rw [substFW_fire m prev c cs n hm] at h
    cases u with
    | nil =>
      rcases t' with _ | ⟨tc, tcs⟩
      · exact absurd rfl htne
      · rw [List.nil_append, List.cons_append] at h
        injection h with h1 h2
        have := htw tc (by simp)
        rw [← h1] at this
        exact absurd this (by decide)
    | cons a u' =>
      rw [List.cons_append] at h
      injection h with h1 h2
      cases u' with
      | nil =>
        exfalso
        rw [List.nil_append] at h2
        obtain ⟨l2, hsplit2, -, -⟩ := substFW_word_run m hm0 t' _ _ _ htw h2
        have hb := hba prev (c :: cs) (n + 1) hm
        rw [hsplit2] at hb
        rcases t' with _ | ⟨tc, tcs⟩
        · exact htne rfl
        · rw [List.cons_append] at hb
          simp only [boundaryK] at hb
          rw [if_pos (htw tc (by simp))] at hb
          exact Option.noConfusion hb
      | cons b u'' =>
        have hu2 : prevIsWord (prevAt (some ((c :: cs).getD n c)) (b :: u'')) = false := by
          rw [prevAt_cons]
          rw [prevAt_cons, prevAt_cons] at hu
          exact hu
        obtain ⟨u0, v0, hsplit0, hu0, hv0, hmn0⟩ := ih (b :: u'') v h2 hu2 hv
        have hTake : prevAt prev ((c :: cs).take (n + 1)) = some ((c :: cs).getD n c) := by
          unfold prevAt
          rw [getLast?_take_succ (c :: cs) n c
            (by have := hmb prev (c :: cs) (n + 1) hm; simp only [List.length_cons] at this ⊢; omega)]
        refine ⟨(c :: cs).take (n + 1) ++ u0, v0, ?_, ?_, hv0, ?_⟩
        · rw [List.append_assoc, List.append_assoc, ← List.append_assoc u0, ← hsplit0,
            List.take_append_drop]
        · rw [prevAt_append, hTake]
          exact hu0
        · rw [prevAt_append, hTake]
          exact hmn0
  | case3 prev c cs hm ih =>
    intro u v h hu hv
    rw [substFW_keep m prev c cs (fun n hn => hm n hn)] at h
    have hmnone : m prev (c :: cs) = none := by
      rcases hx : m prev (c :: cs) with _ | k
      · rfl
      · cases k with
        | zero => exact absurd hx (hm0 prev (c :: cs))
        | succ k => exact absurd hx (hm k)
    cases u with
    | nil =>
      rcases t' with _ | ⟨tc, tcs⟩
      · exact absurd rfl htne
      · rw [List.nil_append, List.cons_append] at h
        injection h with h1 h2
        subst h1
        obtain ⟨l2, rfl, hout2, -⟩ := substFW_word_run m hm0 tcs (some c) cs v
          (fun x hx => htw x (List.mem_cons_of_mem c hx)) h2
        refine ⟨[], l2, by simp, by simpa [prevAt] using hu, ?_, by simpa using hmnone⟩
        refine boundaryK_substFW m hd _ l2 ?_ (by rw [← hout2]; exact hv)
        exact prevAt_some_word c tcs (htw c (by simp))
          (fun x hx => htw x (List.mem_cons_of_mem c hx))
    | cons a u' =>
      rw [List.cons_append] at h
      injection h with h1 h2
      subst h1
      have hu2 : prevIsWord (prevAt (some c) u') = false := by
        rw [← prevAt_cons prev c u']
        exact hu
      obtain ⟨u0, v0, hsplit0, hu0, hv0, hmn0⟩ := ih u' v h2 hu2 hv
      refine ⟨c :: u0, v0, by simp [hsplit0], ?_, hv0, ?_⟩
      · rw [prevAt_cons]
        exact hu0
      · rw [prevAt_cons]
        exact hmn0

/-- Specialization to whole `re.sub` passes of `\b`-group patterns. -/
theorem runSub_word_occ (alts : List (List Tok))
    (halt : ∀ alt ∈ alts, ∃ p ts, alt = Tok.one p :: ts)
    (t' : List Char) (htne : t' ≠ []) (htw : ∀ c ∈ t', isWordChar c = true)
    (x : List Char) (h : OccT t' (runSub (mWord alts) x)) :
    ∃ u0 v0, x = u0 ++ t' ++ v0 ∧ prevIsWord (prevAt none u0) = false ∧
      boundaryK v0 = some 0 ∧ mWord alts (prevAt none u0) (t' ++ v0) = none := by
  obtain ⟨u, v, hsp, hu, hv⟩ := h
  rw [runSub_eq_W] at hsp
  exact substFW_occ (mWord alts)
    (fun pr x2 h0 => absurd (mWord_pos alts halt pr x2 0 h0) (by omega))
    (fun pr x2 k hk => mWord_le alts pr x2 k hk)
    (fun pr x2 k hk => mWord_boundary alts pr x2 k hk)
    (fun pr c cs k hk => Or.inr (mWord_prev alts pr _ _ hk))
    t' htne htw none x u v hsp hu hv

theorem runSub_word_occT (alts : List (List Tok))
    (halt : ∀ alt ∈ alts, ∃ p ts, alt = Tok.one p :: ts)
    (t' : List Char) (htne : t' ≠ []) (htw : ∀ c ∈ t', isWordChar c = true)
    (x : List Char) (h : OccT t' (runSub (mWord alts) x)) : OccT t' x := by
  obtain ⟨u0, v0, h1, h2, h3, -⟩ := runSub_word_occ alts halt t' htne htw x h
  exact ⟨u0, v0, h1, h2, h3⟩

theorem extAlts_heads : ∀ alt ∈ extAlts, ∃ p ts, alt = Tok.one p :: ts := by
  intro alt h
  simp only [extAlts, List.mem_cons, List.not_mem_nil, or_false] at h
  rcases h with rfl | rfl | rfl | rfl | rfl | rfl | rfl | rfl <;> exact ⟨_, _, rfl⟩

theorem srcAlts_heads : ∀ alt ∈ srcAlts, ∃ p ts, alt = Tok.one p :: ts := by
  intro alt h
  simp only [srcAlts, List.mem_cons, List.not_mem_nil, or_false] at h
  rcases h with rfl | rfl | rfl | rfl | rfl | rfl | rfl | rfl | rfl | rfl | rfl |
    rfl | rfl | rfl | rfl | rfl | rfl <;> exact ⟨_, _, rfl⟩

theorem ddAlts_heads : ∀ alt ∈ ddAlts, ∃ p ts, alt = Tok.one p :: ts := by
  intro alt h
  simp only [ddAlts, List.mem_singleton] at h
  subst h
  exact ⟨_, _, rfl⟩

theorem codecAlts_heads : ∀ alt ∈ codecAlts, ∃ p ts, alt = Tok.one p :: ts := by
  intro alt h
  simp only [codecAlts, List.mem_cons, List.not_mem_nil, or_false] at h
  rcases h with rfl | rfl | rfl | rfl | rfl | rfl | rfl | rfl <;> exact ⟨_, _, rfl⟩

theorem hdrAlts_heads : ∀ alt ∈ hdrAlts, ∃ p ts, alt = Tok.one p :: ts := by
  intro alt h
  simp only [hdrAlts, List.mem_cons, List.not_mem_nil, or_false] at h
  rcases h with rfl | rfl | rfl | rfl | rfl | rfl <;> exact ⟨_, _, rfl⟩

/-! ### Transporting whole-word occurrences backwards through split/join -/

/-- A whole-word occurrence in a space-joined list lies inside one block. -/
theorem joinSp_occ (t' : List Char) (htne : t' ≠ [])
    (htw : ∀ c ∈ t', isWordChar c = true) :
    ∀ ws, OccT t' (joinSp ws) → ∃ w ∈ ws, OccT t' w := by
  intro ws
  induction ws with
  | nil =>
    rintro ⟨u, v, h, -, -⟩
    rw [show joinSp [] = [] from rfl] at h
    rcases t' with _ | ⟨tc, tcs⟩
    · exact absurd rfl htne
    · exact absurd h.symm (by simp)
  | cons w ws ih =>
    rintro ⟨u, v, h, hu, hv⟩
    cases ws with
    | nil => exact ⟨w, by simp, u, v, h, hu, hv⟩
    | cons w2 ws2 =>
      rw [show joinSp (w :: w2 :: ws2) = w ++ ' ' :: joinSp (w2 :: ws2) from rfl,
        List.append_assoc] at h
      rcases List.append_eq_append_iff.mp h with ⟨a1, hu1, hsp⟩ | ⟨c1, hw1, hsp⟩
      · cases a1 with
        | nil =>
          rw [List.nil_append] at hsp
          rcases t' with _ | ⟨tc, tcs⟩
          · exact absurd rfl htne
          · rw [List.cons_append] at hsp
            obtain ⟨h1, -⟩ := List.cons.inj hsp
            have := htw tc (by simp)
            rw [← h1] at this
            exact absurd this (by decide)
        | cons x a2 =>
          rw [List.cons_append] at hsp
          obtain ⟨h1, h2⟩ := List.cons.inj hsp
          subst h1
          have hocc2 : OccT t' (joinSp (w2 :: ws2)) := by
            refine ⟨a2, v, by rw [← List.append_assoc] at h2; exact h2, ?_, hv⟩
            rw [hu1, prevAt_append, prevAt_cons] at hu
            rwa [prevAt_nonword_prev ' ' (by decide) a2] at hu
          obtain ⟨w', hw', hoccw⟩ := ih hocc2
          exact ⟨w', List.mem_cons_of_mem w hw', hoccw⟩
      · rcases List.append_eq_append_iff.mp hsp with ⟨a2, hc1, hv1⟩ | ⟨c2, ht1, hsp2⟩
        · refine ⟨w, by simp, u, a2, by rw [hw1, hc1, List.append_assoc], hu, ?_⟩
          cases a2 with
          | nil => rfl
          | cons y a3 =>
            rw [hv1] at hv
            rw [List.cons_append] at hv
            simp only [boundaryK] at hv ⊢
            exact hv
        · cases c2 with
          | nil =>
            rw [List.append_nil] at ht1
            refine ⟨w, by simp, u, [], ?_, hu, rfl⟩
            rw [hw1, ht1, List.append_nil]
          | cons z c3 =>
            rw [List.cons_append] at hsp2
            obtain ⟨h1, -⟩ := List.cons.inj hsp2
            have hz : z ∈ t' := by
              rw [ht1]
              exact List.mem_append_right c1 (by simp)
            have := htw z hz
            rw [← h1] at this
            exact absurd this (by decide)

/-- Every `split` block sits in the input with whitespace (or an edge) on
both sides. -/
theorem pyWords_context : ∀ (x w : List Char), w ∈ pyWords x →
    ∃ u v, x = u ++ w ++ v ∧ (∀ c, u.getLast? = some c → pyIsSpace c = true) ∧
      (∀ c, v.head? = some c → pyIsSpace c = true) := by
  suffices hs : ∀ (n : Nat) (x : List Char), x.length ≤ n → ∀ w ∈ pyWords x,
      ∃ u v, x = u ++ w ++ v ∧ (∀ c, u.getLast? = some c → pyIsSpace c = true) ∧
        (∀ c, v.head? = some c → pyIsSpace c = true) from
    fun x w hw => hs x.length x (le_refl _) w hw
  intro n
  induction n with
  | zero =>
    intro x hx w hw
    have hxe : x = [] := by
      cases x with
      | nil => rfl
      | cons c cs => simp at hx
    subst hxe
    simp [pyWords_nil] at hw
  | succ n ih =>
    intro x hx w hw
    cases x with
    | nil => simp [pyWords_nil] at hw
    | cons c x2 =>
      by_cases hc : pyIsSpace c
      · rw [pyWords_cons_space c x2 hc] at hw
        obtain ⟨u, v, hx2, hu, hv⟩ := ih x2 (by simpa using hx) w hw
        refine ⟨c :: u, v, by simp [hx2], ?_, hv⟩
        intro d hd
        cases u with
        | nil =>
          have : d = c := by simpa using hd.symm
          rwa [this]
        | cons e u2 =>
          rw [List.getLast?_cons_cons] at hd
          exact hu d hd
      · rw [pyWords_cons_word c x2 (by simpa using hc)] at hw
        rcases List.mem_cons.mp hw with rfl | hw2
        · refine ⟨[], x2.dropWhile (fun y => !pyIsSpace y), ?_, by simp, ?_⟩
          · rw [List.nil_append]
            rw [show (c :: x2.takeWhile (fun y => !pyIsSpace y)) ++
                x2.dropWhile (fun y => !pyIsSpace y) =
                c :: (x2.takeWhile (fun y => !pyIsSpace y) ++
                  x2.dropWhile (fun y => !pyIsSpace y)) from rfl]
            rw [List.takeWhile_append_dropWhile]
          · intro d hd
            rcases hdw : x2.dropWhile (fun y => !pyIsSpace y) with _ | ⟨e, rest⟩
            · rw [hdw] at hd; simp at hd
            · rw [hdw] at hd
              have he := dropWhile_head_neg (fun y => !pyIsSpace y) x2 e rest hdw
              have hde : d = e := by simpa using hd.symm
              rw [hde]
              simpa using he
        · obtain ⟨u2, v2, hdw2, hu2, hv2⟩ := ih (x2.dropWhile (fun y => !pyIsSpace y))
            (Nat.le_trans (List.dropWhile_sublist _).length_le (by simpa using hx)) w hw2
          cases u2 with
          | nil =>
            exfalso
            obtain ⟨hne, hspec⟩ := pyWords_spec _ w hw2
            cases w with
            | nil => exact hne rfl
            | cons d w2 =>
              rw [List.nil_append] at hdw2
              have hd := dropWhile_head_neg (fun y => !pyIsSpace y) x2 d (w2 ++ v2)
                (by rw [hdw2]; simp)
              have hdns := (hspec d (by simp)).1
              have hdtrue : pyIsSpace d = true := by simpa using hd
              rw [hdns] at hdtrue
              exact absurd hdtrue (by simp)
          | cons e u3 =>
            refine ⟨c :: (x2.takeWhile (fun y => !pyIsSpace y) ++ (e :: u3)), v2, ?_, ?_, hv2⟩
            · rw [show (c :: (x2.takeWhile (fun y => !pyIsSpace y) ++ (e :: u3))) ++ w ++ v2 =
                  c :: (x2.takeWhile (fun y => !pyIsSpace y) ++ ((e :: u3) ++ w ++ v2))
                from by simp [List.append_assoc]]
              rw [show (e :: u3) ++ w ++ v2 = x2.dropWhile (fun y => !pyIsSpace y)
                from hdw2.symm]
              rw [List.takeWhile_append_dropWhile]
            · intro d hd
              rw [show c :: (x2.takeWhile (fun y => !pyIsSpace y) ++ (e :: u3)) =
                  (c :: x2.takeWhile (fun y => !pyIsSpace y)) ++ (e :: u3) from rfl,
                List.getLast?_append_cons] at hd
              exact hu2 d hd

/-- Transport of a top-level whole-word occurrence backwards through
whitespace collapsing. -/
theorem splitJoin_occT (t' : List Char) (htne : t' ≠ [])
    (htw : ∀ c ∈ t', isWordChar c = true) (x : List Char)
    (h : OccT t' (splitJoinL x)) : OccT t' x := by
  obtain ⟨w, hw, a, b, hwab, hua, hvb⟩ := joinSp_occ t' htne htw (pyWords x) h
  obtain ⟨u, v, hx, hulast, hvhead⟩ := pyWords_context x w hw
  refine ⟨u ++ a, b ++ v, ?_, ?_, ?_⟩
  · rw [hx, hwab]
    simp [List.append_assoc]
  · rw [prevAt_append]
    cases a with
    | nil =>
      simp only [prevAt]
      rcases hl : u.getLast? with _ | d
      · simpa [prevIsWord] using hua
      · simp only [prevIsWord]
        exact nonword_of_space d (hulast d hl)
    | cons e a2 =>
      rw [prevAt_cons]
      rw [prevAt_cons] at hua
      exact hua
  · cases b with
    | nil =>
      rw [List.nil_append]
      rcases hv : v with _ | ⟨y, v2⟩
      · rfl
      · simp only [boundaryK]
        rw [if_neg (by simp [nonword_of_space y (hvhead y (by rw [hv]; rfl))])]
    | cons y b2 =>
      rw [List.cons_append]
      simp only [boundaryK] at hvb ⊢
      exact hvb

/-! ### Identity of individual passes on clean strings -/

theorem prevAt_none_eq (u : List Char) : prevAt none u = u.getLast? := by
  unfold prevAt
  cases u.getLast? <;> rfl

theorem runSub_id (m : Option Char → List Char → Option Nat) (x : List Char)
    (h : MFree m none x) : runSub m x = x := by
  rw [runSub_eq_W]
  exact substFW_id m none x h

theorem runSub_www_id (x : List Char) (hdot : '.' ∉ x) : runSub mWww x = x := by
  apply runSub_id
  apply MFree_of_ctx
  intro u v hsplit hvne
  rcases hm : mWww u.getLast? v with _ | k
  · rfl
  · exact absurd (by rw [hsplit]; exact List.mem_append_right u (mWww_mem_dot _ v k hm)) hdot

theorem runSub_dd_id (x : List Char) (hsep : ∀ c ∈ x, sepChar c = false) :
    runSub (mWord ddAlts) x = x := by
  apply runSub_id
  apply MFree_of_ctx
  intro u v hsplit hvne
  rcases hm : mWord ddAlts u.getLast? v with _ | k
  · rfl
  · exfalso
    obtain ⟨c, hc, hcsep⟩ := mWord_dd_sep _ v k hm
    have := hsep c (by rw [hsplit]; exact List.mem_append_right u hc)
    rw [this] at hcsep
    exact absurd hcsep (by simp)

theorem runSub_seprun_id (x : List Char) (hsep : ∀ c ∈ x, sepChar c = false) :
    runSub mSepRun x = x := by
  apply runSub_id
  apply MFree_of_ctx
  intro u v hsplit hvne
  rcases hm : mSepRun u.getLast? v with _ | k
  · rfl
  · exfalso
    obtain ⟨c, hc, hcsep⟩ := mSepRun_head_sep _ v k hm
    have := hsep c (by rw [hsplit]; exact List.mem_append_right u hc)
    rw [this] at hcsep
    exact absurd hcsep (by simp)

theorem runSub_delim_id (o cl : Char) (x : List Char)
    (hpair : hasPairB o cl x = false) : runSub (mDelim o cl) x = x := by
  apply runSub_id
  apply MFree_of_ctx
  intro u v hsplit hvne
  rcases hm : mDelim o cl u.getLast? v with _ | k
  · rfl
  · exfalso
    have hp := mDelim_hasPair o cl _ v k hm
    have h2 : hasPairB o cl x = true :=
      hasPairB_mono (hsplit ▸ List.sublist_append_right u v) hp
    rw [hpair] at h2
    exact absurd h2 (by simp)

/-- A `\b`-group pass is the identity on a separator-free string carrying no
whole-word occurrence of any of the group's pure tokens. -/
theorem runSub_word_id (alts : List (List Tok)) (toks : List (List Char))
    (hinv : ∀ pr v n, mWord alts pr v = some n → prevIsWord pr = false ∧
      ∃ t' rest, v = t' ++ rest ∧ boundaryK rest = some 0 ∧
        (t'.map Char.toLower ∈ toks ∨ ∃ c ∈ t', sepChar c = true))
    (x : List Char) (hsep : ∀ c ∈ x, sepChar c = false)
    (hocc : ∀ t', t'.map Char.toLower ∈ toks → ¬ OccT t' x) :
    runSub (mWord alts) x = x := by
  apply runSub_id
  apply MFree_of_ctx
  intro u v hsplit hvne
  rcases hm : mWord alts u.getLast? v with _ | k
  · rfl
  · exfalso
    obtain ⟨hpr, t', rest, rfl, hb, hdisj⟩ := hinv _ v k hm
    rcases hdisj with htok | ⟨c, hc, hcsep⟩
    · refine hocc t' htok ⟨u, rest, by rw [hsplit, List.append_assoc], ?_, hb⟩
      rw [prevAt_none_eq]
      exact hpr
    · have := hsep c
        (by rw [hsplit]; exact List.mem_append_right u (List.mem_append_left rest hc))
      rw [this] at hcsep
      exact absurd hcsep (by simp)

theorem runSub_chars_or (m : Option Char → List Char → Option Nat)
    (x base : List Char) (hx : ∀ c ∈ x, c = ' ' ∨ c ∈ base) :
    ∀ c ∈ runSub m x, c = ' ' ∨ c ∈ base := by
  intro c hc
  rcases runSub_chars m x c hc with rfl | h
  · exact Or.inl rfl
  · exact hx c h

theorem noiseSub_unfold (x : List Char) : noiseSub x =
    runSub mSepRun (runSub (mWord hdrAlts) (runSub (mWord codecAlts)
      (runSub (mWord ddAlts) (runSub (mWord srcAlts) (runSub (mWord extAlts)
        (runSub (mDelim obrace cbrace) (runSub (mDelim '[' ']')
          (runSub mWww x)))))))) := by
  simp only [noiseSub, noiseMatchers, List.foldl_cons, List.foldl_nil]

theorem preCleanL_no_newline (l : List Char) : '\n' ∉ preCleanL l := by
  intro hmem
  have := (preCleanL_chars l '\n' hmem).2.2 (by decide)
  exact absurd this (by decide)

theorem preCleanL_no_dot (l : List Char) : '.' ∉ preCleanL l := by
  intro hmem
  have := (preCleanL_chars l '.' hmem).1
  exact absurd this (by decide)

theorem preCleanL_no_slash (l : List Char) : '/' ∉ preCleanL l := by
  intro hmem
  exact (preCleanL_chars l '/' hmem).2.1 rfl

/-! ### The second pass and its fixed point -/

theorem hasPairB_runSub_pres {o cl : Char} (ho : nonWS o = true) (hcl : nonWS cl = true)
    (m : Option Char → List Char → Option Nat) (x : List Char)
    (h : hasPairB o cl x = false) : hasPairB o cl (runSub m x) = false := by
  by_cases hb : hasPairB o cl (runSub m x) = true
  · have h2 := hasPairB_runSub ho hcl hb
    rw [h] at h2
    exact absurd h2 (by simp)
  · simpa using hb

theorem hasPairB_splitJoin_pres {o cl : Char} (ho : nonWS o = true)
    (hcl : nonWS cl = true) (x : List Char) (h : hasPairB o cl x = false) :
    hasPairB o cl (splitJoinL x) = false := by
  by_cases hb : hasPairB o cl (splitJoinL x) = true
  · have h2 := hasPairB_splitJoin ho hcl hb
    rw [h] at h2
    exact absurd h2 (by simp)
  · simpa using hb

/-- On a first-pass output (separator-free and slash-free), the second
normalizer pass reduces to brackets, braces and the four word groups. -/
theorem preCleanL_pass2_eq (l : List Char) :
    preCleanL (preCleanL l) =
      splitJoinL (runSub (mWord hdrAlts) (runSub (mWord codecAlts)
        (runSub (mWord srcAlts) (runSub (mWord extAlts)
          (runSub (mDelim obrace cbrace)
            (runSub (mDelim '[' ']') (preCleanL l))))))) := by
  have hsepA : ∀ c ∈ preCleanL l, sepChar c = false := fun c hc => (preCleanL_chars l c hc).1
  have hdotA : '.' ∉ preCleanL l := preCleanL_no_dot l
  have hslashA : '/' ∉ preCleanL l := preCleanL_no_slash l
  show splitJoinL (charSepSub (noiseSub (pathStemL (preCleanL l)))) = _
  rw [pathStemL_id _ hslashA hdotA, noiseSub_unfold, runSub_www_id _ hdotA]
  have hsep4 : ∀ c ∈ runSub (mWord srcAlts) (runSub (mWord extAlts)
      (runSub (mDelim obrace cbrace) (runSub (mDelim '[' ']') (preCleanL l)))),
      sepChar c = false := by
    intro c hc
    rcases runSub_chars_or _ _ _ (runSub_chars_or _ _ _ (runSub_chars_or _ _ _
      (runSub_chars_or _ _ _ (fun c hc => Or.inr hc)))) c hc with rfl | h
    · decide
    · exact hsepA c h
  rw [runSub_dd_id _ hsep4]
  have hsep6 : ∀ c ∈ runSub (mWord hdrAlts) (runSub (mWord codecAlts)
      (runSub (mWord srcAlts) (runSub (mWord extAlts)
        (runSub (mDelim obrace cbrace) (runSub (mDelim '[' ']') (preCleanL l)))))),
      sepChar c = false := by
    intro c hc
    rcases runSub_chars_or _ _ _ (runSub_chars_or _ _ _ (runSub_chars_or _ _ _
      (runSub_chars_or _ _ _ (runSub_chars_or _ _ _ (runSub_chars_or _ _ _
        (fun c hc => Or.inr hc)))))) c hc with rfl | h
    · decide
    · exact hsepA c h
  rw [runSub_seprun_id _ hsep6, charSepSub_id _ hsep6]

/-- The output of the six live second-pass stages over a clean first-pass
output is a fixed point of the whole normalizer. -/
theorem preCleanL_splitJoin_fix (A : List Char)
    (hsepA : ∀ c ∈ A, sepChar c = false)
    (hslashA : '/' ∉ A) (hnlA : '\n' ∉ A) :
    preCleanL (splitJoinL (runSub (mWord hdrAlts) (runSub (mWord codecAlts)
      (runSub (mWord srcAlts) (runSub (mWord extAlts)
        (runSub (mDelim obrace cbrace) (runSub (mDelim '[' ']') A))))))) =
    splitJoinL (runSub (mWord hdrAlts) (runSub (mWord codecAlts)
      (runSub (mWord srcAlts) (runSub (mWord extAlts)
        (runSub (mDelim obrace cbrace) (runSub (mDelim '[' ']') A)))))) := by
  set T1 := runSub (mDelim '[' ']') A with hT1
  set T2 := runSub (mDelim obrace cbrace) T1 with hT2
  set T3 := runSub (mWord extAlts) T2 with hT3
  set T4 := runSub (mWord srcAlts) T3 with hT4
  set T5 := runSub (mWord codecAlts) T4 with hT5
  set T6 := runSub (mWord hdrAlts) T5 with hT6
  have hch1 : ∀ c ∈ T1, c = ' ' ∨ c ∈ A := by
    rw [hT1]; exact runSub_chars_or _ _ _ (fun c hc => Or.inr hc)
  have hch2 : ∀ c ∈ T2, c = ' ' ∨ c ∈ A := by
    rw [hT2]; exact runSub_chars_or _ _ _ hch1
  have hch3 : ∀ c ∈ T3, c = ' ' ∨ c ∈ A := by
    rw [hT3]; exact runSub_chars_or _ _ _ hch2
  have hch4 : ∀ c ∈ T4, c = ' ' ∨ c ∈ A := by
    rw [hT4]; exact runSub_chars_or _ _ _ hch3
  have hch5 : ∀ c ∈ T5, c = ' ' ∨ c ∈ A := by
    rw [hT5]; exact runSub_chars_or _ _ _ hch4
  have hch6 : ∀ c ∈ T6, c = ' ' ∨ c ∈ A := by
    rw [hT6]; exact runSub_chars_or _ _ _ hch5
  have hsepB : ∀ c ∈ splitJoinL T6, sepChar c = false := by
    intro c hc
    rcases splitJoinL_chars _ c hc with rfl | ⟨h, -⟩
    · decide
    · rcases hch6 c h with rfl | h2
      · decide
      · exact hsepA c h2
  have hdotB : '.' ∉ splitJoinL T6 := by
    intro hm
    have := hsepB '.' hm
    exact absurd this (by decide)
  have hslashB : '/' ∉ splitJoinL T6 := by
    intro hm
    rcases splitJoinL_chars _ '/' hm with h | ⟨h, -⟩
    · exact absurd h (by decide)
    · rcases hch6 '/' h with h2 | h2
      · exact absurd h2 (by decide)
      · exact hslashA h2
  have hnl1 : '\n' ∉ T1 := by
    intro hm
    rcases hch1 '\n' hm with h | h
    · exact absurd h (by decide)
    · exact hnlA h
  have hp1 : hasPairB '[' ']' T1 = false := by
    rw [hT1, runSub_eq_W]
    exact hasPairB_delim_est '[' ']' (by decide) (by decide) none _ hnlA
  have hpB : hasPairB '[' ']' (splitJoinL T6) = false := by
    refine hasPairB_splitJoin_pres (by decide) (by decide) _ ?_
    rw [hT6, hT5, hT4, hT3, hT2]
    exact hasPairB_runSub_pres (by decide) (by decide) _ _
      (hasPairB_runSub_pres (by decide) (by decide) _ _
        (hasPairB_runSub_pres (by decide) (by decide) _ _
          (hasPairB_runSub_pres (by decide) (by decide) _ _
            (hasPairB_runSub_pres (by decide) (by decide) _ _ hp1))))
  have hq2 : hasPairB obrace cbrace T2 = false := by
    rw [hT2, runSub_eq_W]
    exact hasPairB_delim_est obrace cbrace (by decide) (by decide) none _ hnl1
  have hqB : hasPairB obrace cbrace (splitJoinL T6) = false := by
    refine hasPairB_splitJoin_pres (by decide) (by decide) _ ?_
    rw [hT6, hT5, hT4, hT3]
    exact hasPairB_runSub_pres (by decide) (by decide) _ _
      (hasPairB_runSub_pres (by decide) (by decide) _ _
        (hasPairB_runSub_pres (by decide) (by decide) _ _
          (hasPairB_runSub_pres (by decide) (by decide) _ _ hq2)))
  have hoccExt : ∀ t', t'.map Char.toLower ∈ extTokens → ¬ OccT t' (splitJoinL T6) := by
    intro t' htok hOcc
    have htne := token_ne_nil extTokens (by decide) htok
    have htw := word_chars_of_token extTokens (by decide) htok
    have o6 : OccT t' T6 := splitJoin_occT t' htne htw _ hOcc
    rw [hT6] at o6
    have o5 : OccT t' T5 := runSub_word_occT hdrAlts hdrAlts_heads t' htne htw _ o6
    rw [hT5] at o5
    have o4 : OccT t' T4 := runSub_word_occT codecAlts codecAlts_heads t' htne htw _ o5
    rw [hT4] at o4
    have o3 : OccT t' T3 := runSub_word_occT srcAlts srcAlts_heads t' htne htw _ o4
    rw [hT3] at o3
    obtain ⟨u0, v0, -, hpr, hb, hnone⟩ :=
      runSub_word_occ extAlts extAlts_heads t' htne htw _ o3
    exact mWord_ext_fire _ t' v0 hpr htok hb hnone
  have hoccSrc : ∀ t', t'.map Char.toLower ∈ srcTokens → ¬ OccT t' (splitJoinL T6) := by
    intro t' htok hOcc
    have htne := token_ne_nil srcTokens (by decide) htok
    have htw := word_chars_of_token srcTokens (by decide) htok
    have o6 : OccT t' T6 := splitJoin_occT t' htne htw _ hOcc
    rw [hT6] at o6
    have o5 : OccT t' T5 := runSub_word_occT hdrAlts hdrAlts_heads t' htne htw _ o6
    rw [hT5] at o5
    have o4 : OccT t' T4 := runSub_word_occT codecAlts codecAlts_heads t' htne htw _ o5
    rw [hT4] at o4
    obtain ⟨u0, v0, -, hpr, hb, hnone⟩ :=
      runSub_word_occ srcAlts srcAlts_heads t' htne htw _ o4
    exact mWord_src_fire _ t' v0 hpr htok hb hnone
  have hoccCodec : ∀ t', t'.map Char.toLower ∈ codecTokens → ¬ OccT t' (splitJoinL T6) := by
    intro t' htok hOcc
    have htne := token_ne_nil codecTokens (by decide) htok
    have htw := word_chars_of_token codecTokens (by decide) htok
    have o6 : OccT t' T6 := splitJoin_occT t' htne htw _ hOcc
    rw [hT6] at o6
    have o5 : OccT t' T5 := runSub_word_occT hdrAlts hdrAlts_heads t' htne htw _ o6
    rw [hT5] at o5
    obtain ⟨u0, v0, -, hpr, hb, hnone⟩ :=
      runSub_word_occ codecAlts codecAlts_heads t' htne htw _ o5
    exact mWord_codec_fire _ t' v0 hpr htok hb hnone
  have hoccHdr : ∀ t', t'.map Char.toLower ∈ hdrTokens → ¬ OccT t' (splitJoinL T6) := by
    intro t' htok hOcc
    have htne := token_ne_nil hdrTokens (by decide) htok
    have htw := word_chars_of_token hdrTokens (by decide) htok
    have o6 : OccT t' T6 := splitJoin_occT t' htne htw _ hOcc
    rw [hT6] at o6
    obtain ⟨u0, v0, -, hpr, hb, hnone⟩ :=
      runSub_word_occ hdrAlts hdrAlts_heads t' htne htw _ o6
    exact mWord_hdr_fire _ t' v0 hpr htok hb hnone
  show splitJoinL (charSepSub (noiseSub (pathStemL (splitJoinL T6)))) = splitJoinL T6
  rw [pathStemL_id _ hslashB hdotB, noiseSub_unfold, runSub_www_id _ hdotB,
    runSub_delim_id '[' ']' _ hpB,
    runSub_delim_id obrace cbrace _ hqB,
    runSub_word_id extAlts extTokens (fun pr v n h => mWord_ext_occ pr v n h) _ hsepB hoccExt,
    runSub_word_id srcAlts srcTokens (fun pr v n h => mWord_src_occ pr v n h) _ hsepB hoccSrc,
    runSub_dd_id _ hsepB,
    runSub_word_id codecAlts codecTokens (fun pr v n h => mWord_codec_occ pr v n h) _
      hsepB hoccCodec,
    runSub_word_id hdrAlts hdrTokens (fun pr v n h => mWord_hdr_occ pr v n h) _
      hsepB hoccHdr,
    runSub_seprun_id _ hsepB,
    charSepSub_id _ hsepB,
    splitJoinL_idem]

/-- Applying the normalizer twice reaches a fixed point. -/
theorem preCleanL_fix (l : List Char) :
    preCleanL (preCleanL (preCleanL l)) = preCleanL (preCleanL l) := by
  rw [preCleanL_pass2_eq l]
  exact preCleanL_splitJoin_fix (preCleanL l)
    (fun c hc => (preCleanL_chars l c hc).1)
    (preCleanL_no_slash l) (preCleanL_no_newline l)

/-- C8 (amended): the filename normalizer is total and maps the empty
string to itself, and although one application is not idempotent (see the
counterexample), a second application reaches a fixed point: for every
input string, `pre_clean_filename` applied three times equals
`pre_clean_filename` applied twice. -/
theorem preClean_total_fix :
    preClean "" = "" ∧
    ∀ s : String, preClean (preClean (preClean s)) = preClean (preClean s) := by
  refine ⟨rfl, fun s => ?_⟩
  simp only [preClean, toList_mk, preCleanL_fix]

end ForwardBot
